import Mathlib

/-!
# Verification of the juno dense Merkle-Patricia trie core

Shallow embedding of `src/core/trie/trie.go` (package `trie`).

Modelling conventions:
* A felt (`felt.Felt`) is modelled as a natural number; felt equality is
  structural and `IsZero` is `= 0`, matching the unique representation of
  zero demanded by the spec.
* A `bitset.BitSet` key is modelled as a `List Bool` in MSB-first order:
  list index `i` is the bit at MSB-first position `i`.  The Go library
  indexes bits LSB-first, so Go's `b.Test j` is list index `b.Len()-1-j`;
  every translated use is annotated with the original expression.
* The Pedersen hash (`crypto.Pedersen`, an opaque external primitive) is a
  parameter `H : Felt → Felt → Felt` threaded through the definitions.
* Storage (`trie.Storage`, a Go interface) is a record of three state
  transformers; fallible Go calls become `Except TrieErr` results paired
  with the post-state.
-/

abbrev Felt := Nat

/-- The Stark prime, used for felt addition in the node hash. -/
def STARKP : Nat := 2 ^ 251 + 17 * 2 ^ 192 + 1

/-- Go `uint` modulus (64-bit); bitset lengths and loop counters are `uint`. -/
def U64 : Nat := 2 ^ 64

abbrev BKey := List Bool

/-- `b.Test (b.Len() - d)` for a bitset `b` of length `b.Len()`:
LSB index `len - d` (with Go `uint` wraparound for `d = 0` or `d > len`)
is MSB-first position `d - 1` when `1 ≤ d ≤ len`, out of range (`false`)
otherwise.  Out-of-range `Test` returns `false` in bits-and-blooms. -/
def bitFromTop (l : BKey) (d : Nat) : Bool :=
  if d = 0 then false else l.getD (d - 1) false

/-- `DeleteAt(0)` on a bitset: removes the LSB, i.e. the last list element. -/
def bsDeleteBottom (l : BKey) : BKey := l.dropLast

/-- `n` successive `DeleteAt(0)` calls. -/
def deleteBottomN (l : BKey) : Nat → BKey
  | 0 => l
  | n + 1 => deleteBottomN (bsDeleteBottom l) n

/-- Iteration workhorse for the `FindCommonKey` scan loop, with structural
fuel; the loop guard `d ≤ shorter.Len()` means `shorter.Len() + 1 - d` fuel
always suffices, so `divergentBitLoop` below is exactly the Go loop. -/
def divergentBitLoopAux (longer shorter : BKey) : Nat → Nat → Nat
  | 0, d => d
  | fuel + 1, d =>
    if d ≤ shorter.length ∧ bitFromTop longer d = bitFromTop shorter d then
      divergentBitLoopAux longer shorter fuel (d + 1)
    else d

/-- The scan loop of `FindCommonKey` (trie.go lines 80-83):
`for divergentBit <= shorterKey.Len() && longerKey.Test(longerKey.Len()-divergentBit) == shorterKey.Test(shorterKey.Len()-divergentBit) { divergentBit++ }`. -/
def divergentBitLoop (longer shorter : BKey) (d : Nat) : Nat :=
  divergentBitLoopAux longer shorter (shorter.length + 1 - d) d

/-- `divergentBitLoop` satisfies the Go loop's defining equation. -/
theorem divergentBitLoop_unfold (longer shorter : BKey) (d : Nat) :
    divergentBitLoop longer shorter d =
      if d ≤ shorter.length ∧ bitFromTop longer d = bitFromTop shorter d then
        divergentBitLoop longer shorter (d + 1)
      else d := by
  unfold divergentBitLoop
  by_cases hc : d ≤ shorter.length ∧ bitFromTop longer d = bitFromTop shorter d
  · rw [if_pos hc]
    have hfuel : shorter.length + 1 - d = (shorter.length + 1 - (d + 1)) + 1 := by omega
    rw [hfuel]
    simp only [divergentBitLoopAux]
    rw [if_pos hc]
  · rw [if_neg hc]
    cases hfuel : shorter.length + 1 - d with
    | zero => rfl
    | succ n =>
      simp only [divergentBitLoopAux]
      rw [if_neg hc]

/-- `FindCommonKey` (trie.go lines 77-90).  Finds the set of common MSB bits
of two keys.  The deletion count `shorterKey.Len() - divergentBit + 1` is Go
`uint` arithmetic, hence the explicit wraparound modulo `2^64`. -/
def FindCommonKey (longerKey shorterKey : BKey) : BKey × Bool :=
  let divergentBit := divergentBitLoop longerKey shorterKey 0
  (deleteBottomN shorterKey ((shorterKey.length + U64 - divergentBit + 1) % U64),
   divergentBit = shorterKey.length + 1)

/-- `Shrink(lastbitindex)` on a bitset: keep LSB bits `0..lastbitindex`,
i.e. the last `lastbitindex + 1` list elements (no-op when not shrinking). -/
def bsShrink (l : BKey) (lastbitindex : Nat) : BKey :=
  l.drop (l.length - (lastbitindex + 1))

/-- `DeleteAt(l.Len()-1)` on a bitset: removes the MSB, the first element. -/
def bsDeleteTop (l : BKey) : BKey := l.drop 1

/-- `Path(key, parentKey)` (trie.go lines 97-105): the suffix of `key` that
diverges from `parentKey`; `parentKey = none` is the Go `nil` root case.
(Named `TriePath` because `Path` is taken by Mathlib.) -/
def TriePath (key : BKey) (parentKey : Option BKey) : BKey :=
  match parentKey with
  | none => key
  | some p => bsDeleteTop (bsShrink key (key.length - p.length - 1))

/-- `FeltToBitSet` (trie.go lines 71-74): `bitset.FromWithLength(height, k)`
gives a bitset of `height` bits whose LSB index `j` is bit `j` of the felt;
as an MSB-first list, position `i` is bit `height - 1 - i`. -/
def FeltToBitSet (height : Nat) (k : Felt) : BKey :=
  (List.range height).map fun i => k.testBit (height - 1 - i)

section SpecSide

/-- Spec-side longest common MSB-first prefix of two bit sequences. -/
def lcpSpec : BKey → BKey → BKey
  | a :: as, b :: bs => if a = b then a :: lcpSpec as bs else []
  | _, _ => []

end SpecSide

-- ### Basic lemmas about the bit-path arithmetic

theorem deleteBottomN_eq_take (l : BKey) (n : Nat) :
    deleteBottomN l n = l.take (l.length - n) := by
  induction n generalizing l with
  | zero => simp [deleteBottomN]
  | succ n ih =>
    rw [deleteBottomN, ih]
    simp only [bsDeleteBottom, List.dropLast_eq_take, List.take_take, List.length_take]
    congr 1
    omega

theorem lcpSpec_length_le_left (a b : BKey) : (lcpSpec a b).length ≤ a.length := by
  induction a generalizing b with
  | nil => simp [lcpSpec]
  | cons x xs ih =>
    cases b with
    | nil => simp [lcpSpec]
    | cons y ys =>
      by_cases h : x = y
      · simp only [lcpSpec, if_pos h, List.length_cons]
        exact Nat.succ_le_succ (ih ys)
      · simp [lcpSpec, h]

theorem lcpSpec_length_le_right (a b : BKey) : (lcpSpec a b).length ≤ b.length := by
  induction a generalizing b with
  | nil => simp [lcpSpec]
  | cons x xs ih =>
    cases b with
    | nil => simp [lcpSpec]
    | cons y ys =>
      by_cases h : x = y
      · simp only [lcpSpec, if_pos h, List.length_cons]
        exact Nat.succ_le_succ (ih ys)
      · simp [lcpSpec, h]

theorem lcpSpec_self (a : BKey) : lcpSpec a a = a := by
  induction a with
  | nil => simp [lcpSpec]
  | cons x xs ih => simp [lcpSpec, ih]

/-- Characterization of the matching region: position `i` is inside the
longest common prefix iff both lists agree on all positions `≤ i`. -/
theorem lcpSpec_getD (a b : BKey) (i : Nat) (hi : i < (lcpSpec a b).length) :
    a.getD i false = b.getD i false := by
  induction a generalizing b i with
  | nil => simp [lcpSpec] at hi
  | cons x xs ih =>
    cases b with
    | nil => simp [lcpSpec] at hi
    | cons y ys =>
      by_cases h : x = y
      · cases i with
        | zero => simpa using h
        | succ i =>
          simp only [lcpSpec, if_pos h, List.length_cons] at hi
          simpa using ih ys i (Nat.lt_of_succ_lt_succ hi)
      · simp [lcpSpec, h] at hi

theorem lcpSpec_is_prefix_left (a b : BKey) : lcpSpec a b <+: a := by
  induction a generalizing b with
  | nil => simp [lcpSpec]
  | cons x xs ih =>
    cases b with
    | nil => simp [lcpSpec]
    | cons y ys =>
      by_cases h : x = y
      · simpa [lcpSpec, h, List.cons_prefix_cons] using ih ys
      · simp [lcpSpec, h]

theorem lcpSpec_divergence (a b : BKey) (hlt : (lcpSpec a b).length < a.length)
    (hlt2 : (lcpSpec a b).length < b.length) :
    a.getD (lcpSpec a b).length false ≠ b.getD (lcpSpec a b).length false := by
  induction a generalizing b with
  | nil => simp at hlt
  | cons x xs ih =>
    cases b with
    | nil => simp at hlt2
    | cons y ys =>
      by_cases h : x = y
      · simp only [lcpSpec, if_pos h, List.length_cons] at hlt hlt2 ⊢
        simpa using ih ys (Nat.lt_of_succ_lt_succ hlt) (Nat.lt_of_succ_lt_succ hlt2)
      · simp [lcpSpec, h]

theorem lcpSpec_is_prefix_right (a b : BKey) : lcpSpec a b <+: b := by
  induction a generalizing b with
  | nil => simp [lcpSpec]
  | cons x xs ih =>
    cases b with
    | nil => simp [lcpSpec]
    | cons y ys =>
      by_cases h : x = y
      · simpa [lcpSpec, h, List.cons_prefix_cons] using ih ys
      · simp [lcpSpec, h]

theorem lcpSpec_of_pre (a b : BKey) (h : b <+: a) : lcpSpec a b = b := by
  induction a generalizing b with
  | nil =>
    rw [List.prefix_nil.mp h]
    rfl
  | cons x xs ih =>
    cases b with
    | nil => simp [lcpSpec]
    | cons y ys =>
      rw [List.cons_prefix_cons] at h
      simp [lcpSpec, h.1.symm, ih ys h.2]

/-- The scan loop reaches exactly one past the longest common prefix. -/
theorem divergentBitLoop_eq (longer shorter : BKey)
    (hlen : shorter.length ≤ longer.length) (d : Nat)
    (hd : d ≤ (lcpSpec longer shorter).length + 1) :
    divergentBitLoop longer shorter d = (lcpSpec longer shorter).length + 1 := by
  have hL2 : (lcpSpec longer shorter).length ≤ shorter.length :=
    lcpSpec_length_le_right longer shorter
  have key : ∀ n d, (lcpSpec longer shorter).length + 1 - d ≤ n →
      d ≤ (lcpSpec longer shorter).length + 1 →
      divergentBitLoop longer shorter d = (lcpSpec longer shorter).length + 1 := by
    intro n
    induction n with
    | zero =>
      intro d h1 h2
      have hd' : d = (lcpSpec longer shorter).length + 1 := by omega
      subst hd'
      rw [divergentBitLoop_unfold, if_neg]
      rintro ⟨hle, heq⟩
      have hlt : (lcpSpec longer shorter).length < shorter.length := by omega
      have hlt' : (lcpSpec longer shorter).length < longer.length := by omega
      refine lcpSpec_divergence longer shorter hlt' hlt ?_
      simpa [bitFromTop] using heq
    | succ n ih =>
      intro d h1 h2
      by_cases hdL : d = (lcpSpec longer shorter).length + 1
      · subst hdL
        rw [divergentBitLoop_unfold, if_neg]
        rintro ⟨hle, heq⟩
        have hlt : (lcpSpec longer shorter).length < shorter.length := by omega
        have hlt' : (lcpSpec longer shorter).length < longer.length := by omega
        refine lcpSpec_divergence longer shorter hlt' hlt ?_
        simpa [bitFromTop] using heq
      · have hdle : d ≤ (lcpSpec longer shorter).length := by omega
        rw [divergentBitLoop_unfold, if_pos]
        · exact ih (d + 1) (by omega) (by omega)
        · refine ⟨by omega, ?_⟩
          cases d with
          | zero => simp [bitFromTop]
          | succ e =>
            have he : e < (lcpSpec longer shorter).length := by omega
            simpa [bitFromTop] using lcpSpec_getD longer shorter e he
  exact key ((lcpSpec longer shorter).length + 1 - d) d (by omega) hd

/-- C5.  For bit-paths with `len(longerKey) >= len(shorterKey)` (of Go-uint
representable length), `FindCommonKey` returns the longest common MSB-first
prefix together with the flag that the shorter path is a prefix of the
longer; in particular on equal inputs it returns the input and `true`. -/
theorem FindCommonKey_correct (longerKey shorterKey : BKey)
    (hlen : shorterKey.length ≤ longerKey.length)
    (hrep : longerKey.length < U64) :
    FindCommonKey longerKey shorterKey =
      (lcpSpec longerKey shorterKey, decide (shorterKey <+: longerKey)) := by
  have hL2 : (lcpSpec longerKey shorterKey).length ≤ shorterKey.length :=
    lcpSpec_length_le_right longerKey shorterKey
  have hdiv := divergentBitLoop_eq longerKey shorterKey hlen 0 (by omega)
  unfold FindCommonKey
  simp only [hdiv, Prod.mk.injEq]
  constructor
  · rw [deleteBottomN_eq_take]
    have harith : (shorterKey.length + U64 - ((lcpSpec longerKey shorterKey).length + 1)
        + 1) % U64 = shorterKey.length - (lcpSpec longerKey shorterKey).length := by
      have h1 : shorterKey.length + U64 - ((lcpSpec longerKey shorterKey).length + 1) + 1
          = U64 + (shorterKey.length - (lcpSpec longerKey shorterKey).length) := by omega
      rw [h1, Nat.add_mod_left]
      exact Nat.mod_eq_of_lt (by omega)
    rw [harith]
    have htake : shorterKey.length - (shorterKey.length -
        (lcpSpec longerKey shorterKey).length) = (lcpSpec longerKey shorterKey).length := by
      omega
    rw [htake]
    exact (List.prefix_iff_eq_take.mp (lcpSpec_is_prefix_right longerKey shorterKey)).symm
  · by_cases hpre : shorterKey <+: longerKey
    · have : lcpSpec longerKey shorterKey = shorterKey := lcpSpec_of_pre _ _ hpre
      simp [this, hpre]
    · have hne : (lcpSpec longerKey shorterKey).length ≠ shorterKey.length := by
        intro hcontra
        have heq : lcpSpec longerKey shorterKey = shorterKey :=
          (lcpSpec_is_prefix_right longerKey shorterKey).eq_of_length hcontra
        exact hpre (heq ▸ lcpSpec_is_prefix_left longerKey shorterKey)
      simp [hpre]
      omega

/-- C5 witness. -/
theorem FindCommonKey_correct_witness :
    ([true, false] : BKey).length ≤ ([true, false, true] : BKey).length ∧
      FindCommonKey [true, false, true] [true, false] = ([true, false], true) := by
  refine ⟨by decide, ?_⟩
  rw [FindCommonKey_correct [true, false, true] [true, false] (by decide) (by decide)]
  rfl

/-- C6.  `Path(key, parentKey)` with `len(parentKey) < len(key)` returns the
bits of `key` at MSB-first positions `[p+1, len(key))`, and `Path(key, nil)`
returns the full key. -/
theorem TriePath_correct (key parentKey : BKey)
    (h : parentKey.length < key.length) :
    TriePath key (some parentKey) = key.drop (parentKey.length + 1) ∧
      TriePath key none = key := by
  refine ⟨?_, rfl⟩
  have hstep : TriePath key (some parentKey) =
      bsDeleteTop (bsShrink key (key.length - parentKey.length - 1)) := rfl
  rw [hstep]
  unfold bsDeleteTop bsShrink
  rw [List.drop_drop]
  congr 1
  omega

/-- C6 witness. -/
theorem TriePath_correct_witness :
    ([true] : BKey).length < ([true, false, true, true] : BKey).length ∧
      TriePath [true, false, true, true] (some [true]) = [true, true] ∧
      TriePath [true, false, true, true] none = [true, false, true, true] := by
  refine ⟨by decide, ?_, ?_⟩
  · rw [(TriePath_correct [true, false, true, true] [true] (by decide)).1]
    rfl
  · exact (TriePath_correct [true, false, true, true] [true] (by decide)).2

-- ### Data model: nodes, errors, storage interface, trie engine

/-- A trie [Node] (node.go of the trie package): a value felt plus optional
left/right child storage keys. -/
structure Node where
  value : Felt
  left : Option BKey
  right : Option BKey
deriving DecidableEq, Repr

/-- `storageNode` (trie.go lines 109-112). -/
structure StorageNode where
  key : BKey
  node : Node
deriving DecidableEq, Repr

/-- Errors of the embedded engine.  `notFound` / `ioError` come from the
storage; `panicUnary` is the Go `panic("should not happen")` in
`propagateValues`; `panicIndex` is a Go runtime panic on an impossible
slice index or nil key; `outOfFuel` marks a descent loop that would not
terminate (impossible on well-formed tries). -/
inductive TrieErr where
  | notFound
  | ioError
  | panicUnary
  | panicIndex
  | outOfFuel
deriving DecidableEq, Repr

/-- The [Storage] interface (trie.go lines 16-20) over a storage state `σ`. -/
structure StoOps (σ : Type) where
  get : σ → BKey → σ × Except TrieErr Node
  put : σ → BKey → Node → σ × Except TrieErr Unit
  del : σ → BKey → σ × Except TrieErr Unit

/-- The [Trie] engine state (trie.go lines 39-43); the storage state is
threaded separately. -/
structure Trie where
  height : Nat
  rootKey : Option BKey
deriving DecidableEq, Repr

/-- Path bits encoded as a felt, MSB-first binary value.
Modelled from the spec: `encode_path_as_felt` (§4.5); the source helper
lives with `Node.Hash`, which is not under src/. -/
def pathToFelt (p : BKey) : Felt :=
  p.foldl (fun a b => 2 * a + (if b then 1 else 0)) 0

/-- Modelled from the spec: `hash_of(node, relative_path)` (§4.5), i.e. the
source's `Node.Hash` (not under src/): the node's value when the relative
path is empty, otherwise `H(value, path_felt) + len` in the felt field. -/
def nodeHash (H : Felt → Felt → Felt) (n : Node) (relPath : BKey) : Felt :=
  if relPath.length = 0 then n.value
  else (H n.value (pathToFelt relPath) + relPath.length) % STARKP

-- ### The trie engine operations

/-- The descent loop of `nodesFromRoot` (trie.go lines 117-144), with
explicit fuel standing in for the unbounded Go `for` loop; exhaustion is
the distinguished error `outOfFuel`, which never occurs on well-formed
tries. -/
def nodesFromRootAux {σ : Type} (st : StoOps σ) (key : BKey) :
    Nat → Option BKey → List StorageNode → σ → σ × Except TrieErr (List StorageNode)
  | 0, _, _, s => (s, .error .outOfFuel)
  | _ + 1, none, nodes, s => (s, .ok nodes)
  | fuel + 1, some cur, nodes, s =>
    match st.get s cur with
    | (s, .error e) => (s, .error e)
    | (s, .ok node) =>
      let nodes := nodes ++ [⟨cur, node⟩]
      let subset := (FindCommonKey key cur).2
      if key.length ≤ cur.length ∨ subset = false then (s, .ok nodes)
      else
        -- `key.Test(key.Len()-cur.Len()-1)` is MSB-first position `cur.Len()`
        nodesFromRootAux st key fuel
          (if key.getD cur.length false then node.right else node.left) nodes s

def nodesFromRoot {σ} (st : StoOps σ) (t : Trie) (key : BKey) (s : σ) :
    σ × Except TrieErr (List StorageNode) :=
  nodesFromRootAux st key (key.length + 1) t.rootKey [] s

/-- One iteration of the `propagateValues` loop (trie.go lines 301-329):
check the two-children invariant (Go `panic` becomes `panicUnary`), for an
internal node refetch both children from storage and recompute the
commitment, then write the node back. -/
def processNode {σ} (st : StoOps σ) (H : Felt → Felt → Felt) (cur : StorageNode) (s : σ) :
    σ × Except TrieErr Unit :=
  if (cur.node.left.isNone != cur.node.right.isNone) = true then (s, .error .panicUnary)
  else
    match cur.node.left, cur.node.right with
    | some lk, some rk =>
      match st.get s lk with
      | (s, .error e) => (s, .error e)
      | (s, .ok leftN) =>
        match st.get s rk with
        | (s, .error e) => (s, .error e)
        | (s, .ok rightN) =>
          let leftPath := TriePath lk (some cur.key)
          let rightPath := TriePath rk (some cur.key)
          st.put s cur.key
            { cur.node with value := H (nodeHash H leftN leftPath) (nodeHash H rightN rightPath) }
    | _, _ => st.put s cur.key cur.node

/-- `propagateValues` (trie.go lines 300-332).  The Go loop runs from the
last (deepest) element up to index 0; equivalently, process the tail
first, then the head. -/
def propagateValues {σ} (st : StoOps σ) (H : Felt → Felt → Felt) :
    List StorageNode → σ → σ × Except TrieErr Unit
  | [], s => (s, .ok ())
  | cur :: rest, s =>
    match propagateValues st H rest s with
    | (s, .ok ()) => processNode st H cur s
    | (s, .error e) => (s, .error e)

/-- `deleteLast` (trie.go lines 244-295): delete the last node of the
spine, collapse the now-unary parent into the surviving sibling. -/
def deleteLast {σ} (st : StoOps σ) (H : Felt → Felt → Felt) (t : Trie)
    (affectedNodes : List StorageNode) (s : σ) : σ × Trie × Except TrieErr Unit :=
  match affectedNodes.reverse with
  | [] => (s, t, .error .panicIndex)  -- Go would index-panic on an empty slice
  | last :: restRev =>
    match st.del s last.key with
    | (s, .error e) => (s, t, .error e)
    | (s, .ok ()) =>
      match restRev with
      | [] =>  -- deleted node was root
        (s, { t with rootKey := none }, .ok ())
      | parent :: restRev2 =>
        match st.del s parent.key with
        | (s, .error e) => (s, t, .error e)
        | (s, .ok ()) =>
          let siblingKey : Option BKey :=
            if parent.node.left = some last.key then parent.node.right
            else parent.node.left
          match restRev2 with
          | [] =>  -- sibling should become root
            (s, { t with rootKey := siblingKey }, .ok ())
          | grandParent :: deeperRev =>
            let gp' : StorageNode :=
              if grandParent.node.left = some parent.key then
                { grandParent with node := { grandParent.node with left := siblingKey } }
              else
                { grandParent with node := { grandParent.node with right := siblingKey } }
            match siblingKey with
            | none => (s, t, .error .panicIndex)  -- Go nil-key Get would panic
            | some sibKey =>
              match st.get s sibKey with
              | (s, .error e) => (s, t, .error e)
              | (s, .ok sibling) =>
                let affected' := deeperRev.reverse ++ [gp', ⟨sibKey, sibling⟩]
                match propagateValues st H affected' s with
                | (s, .error e) => (s, t, .error e)
                | (s, .ok ()) => (s, t, .ok ())

/-- `Put` (trie.go lines 156-241). -/
def Put {σ} (st : StoOps σ) (H : Felt → Felt → Felt) (t : Trie)
    (key value : Felt) (s : σ) : σ × Trie × Except TrieErr Unit :=
  let nodeKey := FeltToBitSet t.height key
  let node : Node := { value := value, left := none, right := none }
  match t.rootKey with
  | none =>  -- empty trie, make new value root
    if value = 0 then (s, t, .ok ())  -- no-op
    else
      match propagateValues st H [⟨nodeKey, node⟩] s with
      | (s, .error e) => (s, t, .error e)
      | (s, .ok ()) => (s, { t with rootKey := some nodeKey }, .ok ())
  | some _ =>
    match nodesFromRoot st t nodeKey s with
    | (s, .error e) => (s, t, .error e)
    | (s, .ok nodes) =>
      match nodes.getLast? with
      | none => (s, t, .error .panicIndex)  -- Go would index-panic; unreachable
      | some sibling =>
        if nodeKey = sibling.key then
          -- replace if key already exists
          let nodes' := nodes.dropLast ++ [⟨sibling.key, node⟩]
          if value = 0 then deleteLast st H t nodes' s
          else
            match propagateValues st H nodes' s with
            | (s, .error e) => (s, t, .error e)
            | (s, .ok ()) => (s, t, .ok ())
        else if value = 0 then (s, t, .ok ())  -- inserting 0 at an absent key
        else
          let commonKey := (FindCommonKey nodeKey sibling.key).1
          -- `nodeKey.Test(nodeKey.Len()-commonKey.Len()-1)`: MSB position `commonKey.Len()`
          let newParent : Node :=
            if nodeKey.getD commonKey.length false then
              { value := 0, left := some sibling.key, right := some nodeKey }
            else
              { value := 0, left := some nodeKey, right := some sibling.key }
          let makeRoot := nodes.length = 1
          let nodes2 :=
            if makeRoot then nodes.dropLast
            else
              -- sibling has a parent: replace its link to the sibling (trie.go 214-223)
              let rest := nodes.dropLast
              match rest.getLast? with
              | none => rest  -- unreachable: ¬makeRoot means rest ≠ []
              | some siblingParent =>
                let sp' : StorageNode :=
                  if siblingParent.node.left = some sibling.key then
                    { siblingParent with
                        node := { siblingParent.node with left := some commonKey } }
                  else
                    { siblingParent with
                        node := { siblingParent.node with right := some commonKey } }
                rest.dropLast ++ [sp']
          let nodesFinal := nodes2 ++ [⟨commonKey, newParent⟩, ⟨nodeKey, node⟩]
          match propagateValues st H nodesFinal s with
          | (s, .error e) => (s, t, .error e)
          | (s, .ok ()) =>
            if makeRoot then (s, { t with rootKey := some commonKey }, .ok ())
            else (s, t, .ok ())

/-- `Get` (trie.go lines 147-153). -/
def TrieGet {σ} (st : StoOps σ) (t : Trie) (key : Felt) (s : σ) :
    σ × Except TrieErr Felt :=
  match st.get s (FeltToBitSet t.height key) with
  | (s, .error e) => (s, .error e)
  | (s, .ok n) => (s, .ok n.value)

/-- `Root` (trie.go lines 335-347). -/
def Root {σ} (st : StoOps σ) (H : Felt → Felt → Felt) (t : Trie) (s : σ) :
    σ × Except TrieErr Felt :=
  match t.rootKey with
  | none => (s, .ok 0)
  | some rk =>
    match st.get s rk with
    | (s, .error e) => (s, .error e)
    | (s, .ok root) => (s, .ok (nodeHash H root (TriePath rk none)))

-- ### Storage instances

/-- In-memory store: a finite map from storage keys to nodes. -/
def MemSt : Type := BKey → Option Node

/-- In-memory `Get`: hit returns the node, miss is the store's not-found
error. -/
def memGet (s : MemSt) (k : BKey) : MemSt × Except TrieErr Node :=
  match s k with
  | some n => (s, .ok n)
  | none => (s, .error .notFound)

/-- In-memory `Put`: upsert. -/
def memPut (s : MemSt) (k : BKey) (n : Node) : MemSt × Except TrieErr Unit :=
  (fun q => if q = k then some n else s q, .ok ())

/-- In-memory `Delete`: remove, tolerating missing keys. -/
def memDel (s : MemSt) (k : BKey) : MemSt × Except TrieErr Unit :=
  (fun q => if q = k then none else s q, .ok ())

def memOps : StoOps MemSt := ⟨memGet, memPut, memDel⟩

/-- Storage events, for the temporal claims: reads are `Get`s, writes are
`Put`s, deletes are `Delete`s. -/
inductive StoreEvent where
  | read (k : BKey)
  | write (k : BKey)
  | del (k : BKey)
deriving DecidableEq, Repr

def StoreEvent.isRead : StoreEvent → Bool
  | .read _ => true
  | _ => false

/-- In-memory store instrumented with an event trace. -/
structure TraceSt where
  mem : MemSt
  trace : List StoreEvent

def traceOps : StoOps TraceSt where
  get s k :=
    match memGet s.mem k with
    | (m, r) => (⟨m, s.trace ++ [.read k]⟩, r)
  put s k n :=
    match memPut s.mem k n with
    | (m, r) => (⟨m, s.trace ++ [.write k]⟩, r)
  del s k :=
    match memDel s.mem k with
    | (m, r) => (⟨m, s.trace ++ [.del k]⟩, r)

/-- In-memory store that fails with an I/O error once a countdown of
operations is exhausted; used to exercise the storage-error paths. -/
structure FaultSt where
  mem : MemSt
  countdown : Nat

def faultOps : StoOps FaultSt where
  get s k :=
    if s.countdown = 0 then (s, .error .ioError)
    else
      match memGet s.mem k with
      | (m, r) => (⟨m, s.countdown - 1⟩, r)
  put s k n :=
    if s.countdown = 0 then (s, .error .ioError)
    else
      match memPut s.mem k n with
      | (m, r) => (⟨m, s.countdown - 1⟩, r)
  del s k :=
    if s.countdown = 0 then (s, .error .ioError)
    else
      match memDel s.mem k with
      | (m, r) => (⟨m, s.countdown - 1⟩, r)

-- ### The two-children invariant (claims C3, C10)

/-- A node has either both child keys present or both absent. -/
def nodeInv (n : Node) : Prop := n.left.isSome = n.right.isSome

/-- Every node in the store satisfies `nodeInv`. -/
def storeInv (s : MemSt) : Prop := ∀ q n, s q = some n → nodeInv n

/-- Consecutive spine entries are linked parent-to-child by a stored key. -/
def Chained : List StorageNode → Prop
  | [] => True
  | [_] => True
  | a :: b :: rest =>
    (a.node.left = some b.key ∨ a.node.right = some b.key) ∧ Chained (b :: rest)

theorem chained_append_one (L : List StorageNode) (x : StorageNode)
    (hL : Chained L)
    (hlink : ∀ a, L.getLast? = some a →
      a.node.left = some x.key ∨ a.node.right = some x.key) :
    Chained (L ++ [x]) := by
  induction L with
  | nil => trivial
  | cons a rest ih =>
    cases rest with
    | nil => exact ⟨hlink a rfl, trivial⟩
    | cons b rest2 =>
      refine ⟨hL.1, ih hL.2 ?_⟩
      intro c hc
      exact hlink c (by simpa using hc)

theorem chained_dropLast (L : List StorageNode) (hL : Chained L) :
    Chained L.dropLast := by
  induction L with
  | nil => trivial
  | cons a rest ih =>
    cases rest with
    | nil => trivial
    | cons b rest2 =>
      cases rest2 with
      | nil => trivial
      | cons c rest3 => exact ⟨hL.1, ih hL.2⟩

theorem chained_last_two (M : List StorageNode) (y x : StorageNode)
    (h : Chained (M ++ [y, x])) :
    y.node.left = some x.key ∨ y.node.right = some x.key := by
  induction M with
  | nil => exact h.1
  | cons a rest ih =>
    cases rest with
    | nil => exact h.2.1
    | cons b rest2 => exact ih h.2

theorem chained_replace_last (M : List StorageNode) (a : StorageNode) (n : Node)
    (h : Chained (M ++ [a])) : Chained (M ++ [⟨a.key, n⟩]) := by
  induction M with
  | nil => trivial
  | cons b rest ih =>
    cases rest with
    | nil => exact ⟨h.1, trivial⟩
    | cons c rest2 => exact ⟨h.1, ih h.2⟩

-- ### Facts about the in-memory storage instance

theorem memGet_fst (s : MemSt) (k : BKey) : (memGet s k).1 = s := by
  unfold memGet
  split <;> rfl

theorem memGet_ok (s : MemSt) (k : BKey) (n : Node)
    (h : (memGet s k).2 = .ok n) : s k = some n := by
  unfold memGet at h
  split at h <;> simp_all

theorem memPut_storeInv (s : MemSt) (k : BKey) (n : Node)
    (hs : storeInv s) (hn : nodeInv n) : storeInv (memPut s k n).1 := by
  intro q m hq
  simp only [memPut] at hq
  split at hq
  · cases hq
    exact hn
  · exact hs q m hq

theorem memDel_storeInv (s : MemSt) (k : BKey)
    (hs : storeInv s) : storeInv (memDel s k).1 := by
  intro q m hq
  simp only [memDel] at hq
  split at hq
  · cases hq
  · exact hs q m hq


/-- Unfolding of one descent step on the in-memory store. -/
theorem nodesFromRootAux_succ_some (key : BKey) (fuel : Nat) (c : BKey)
    (acc : List StorageNode) (s : MemSt) :
    nodesFromRootAux memOps key (fuel + 1) (some c) acc s =
      match s c with
      | none => (s, .error .notFound)
      | some node =>
        if key.length ≤ c.length ∨ (FindCommonKey key c).2 = false then
          (s, .ok (acc ++ [⟨c, node⟩]))
        else
          nodesFromRootAux memOps key fuel
            (if key.getD c.length false then node.right else node.left)
            (acc ++ [⟨c, node⟩]) s := by
  cases h : s c with
  | none => simp only [nodesFromRootAux, memOps, memGet, h]
  | some node => simp only [nodesFromRootAux, memOps, memGet, h]

/-- Descent on the in-memory store performs no writes: the state is
unchanged. -/
theorem nodesFromRootAux_mem_fst (key : BKey) :
    ∀ (fuel : Nat) (cur : Option BKey) (acc : List StorageNode) (s : MemSt),
      (nodesFromRootAux memOps key fuel cur acc s).1 = s := by
  intro fuel
  induction fuel with
  | zero => intro cur acc s; rfl
  | succ fuel ih =>
    intro cur acc s
    cases cur with
    | none => rfl
    | some c =>
      rw [nodesFromRootAux_succ_some]
      cases h : s c with
      | none => rfl
      | some node =>
        simp only []
        split
        · rfl
        · exact ih _ _ s

/-- With a store of invariant-satisfying nodes, every node the descent
collects satisfies the invariant. -/
theorem nodesFromRootAux_mem_inv (key : BKey) :
    ∀ (fuel : Nat) (cur : Option BKey) (acc : List StorageNode) (s : MemSt)
      (nodes : List StorageNode),
      storeInv s →
      (nodesFromRootAux memOps key fuel cur acc s).2 = .ok nodes →
      (∀ x ∈ acc, nodeInv x.node) →
      ∀ x ∈ nodes, nodeInv x.node := by
  intro fuel
  induction fuel with
  | zero => intro cur acc s nodes _ h; cases h
  | succ fuel ih =>
    intro cur acc s nodes hs hrun hacc
    cases cur with
    | none =>
      cases hrun
      exact hacc
    | some c =>
      rw [nodesFromRootAux_succ_some] at hrun
      cases h : s c with
      | none => rw [h] at hrun; cases hrun
      | some node =>
        rw [h] at hrun
        simp only [] at hrun
        have hacc' : ∀ x ∈ acc ++ [(⟨c, node⟩ : StorageNode)], nodeInv x.node := by
          intro x hx
          rcases List.mem_append.mp hx with hmem | hmem
          · exact hacc x hmem
          · simp at hmem
            subst hmem
            exact hs c node h
        split at hrun
        · cases hrun
          exact hacc'
        · exact ih _ _ s nodes hs hrun hacc'

/-- The descent result is a parent-to-child chain. -/
theorem nodesFromRootAux_mem_chained (key : BKey) :
    ∀ (fuel : Nat) (cur : Option BKey) (acc : List StorageNode) (s : MemSt)
      (nodes : List StorageNode),
      (nodesFromRootAux memOps key fuel cur acc s).2 = .ok nodes →
      Chained acc →
      (∀ a c, acc.getLast? = some a → cur = some c →
        a.node.left = some c ∨ a.node.right = some c) →
      Chained nodes := by
  intro fuel
  induction fuel with
  | zero => intro cur acc s nodes h; cases h
  | succ fuel ih =>
    intro cur acc s nodes hrun hacc hlink
    cases cur with
    | none =>
      cases hrun
      exact hacc
    | some c =>
      rw [nodesFromRootAux_succ_some] at hrun
      cases h : s c with
      | none => rw [h] at hrun; cases hrun
      | some node =>
        rw [h] at hrun
        simp only [] at hrun
        have hacc' : Chained (acc ++ [(⟨c, node⟩ : StorageNode)]) := by
          refine chained_append_one acc _ hacc ?_
          intro a ha
          exact hlink a c ha rfl
        split at hrun
        · cases hrun
          exact hacc'
        · refine ih _ _ s nodes hrun hacc' ?_
          intro a c' ha hc'
          simp only [List.getLast?_concat, Option.some.injEq] at ha
          subst ha
          simp only []
          split at hc'
          · right; exact hc'
          · left; exact hc'

-- ### propagateValues preservation lemmas on the in-memory store

theorem processNode_mem_storeInv (H : Felt → Felt → Felt) (x : StorageNode)
    (s : MemSt) (hx : nodeInv x.node) (hs : storeInv s) :
    storeInv (processNode memOps H x s).1 := by
  unfold processNode
  by_cases hcond : (x.node.left.isNone != x.node.right.isNone) = true
  · rw [if_pos hcond]
    exact hs
  · rw [if_neg hcond]
    cases hl : x.node.left with
    | none =>
      cases hr : x.node.right with
      | none =>
        simp only [hl, hr]
        exact memPut_storeInv s x.key x.node hs hx
      | some rk =>
        exfalso
        rw [nodeInv, hl, hr] at hx
        simp at hx
    | some lk =>
      cases hr : x.node.right with
      | none =>
        exfalso
        rw [nodeInv, hl, hr] at hx
        simp at hx
      | some rk =>
        simp only [hl, hr]
        cases h1 : s lk with
        | none =>
          simp only [memOps, memGet, h1]
          exact hs
        | some leftN =>
          simp only [memOps, memGet, h1]
          cases h2 : s rk with
          | none =>
            simp only [h2]
            exact hs
          | some rightN =>
            simp only [h2]
            refine memPut_storeInv s x.key _ hs ?_
            rw [nodeInv] at hx ⊢
            simpa using hx

theorem processNode_mem_no_panic (H : Felt → Felt → Felt) (x : StorageNode)
    (s : MemSt) (hx : nodeInv x.node) :
    (processNode memOps H x s).2 ≠ .error .panicUnary := by
  unfold processNode
  by_cases hcond : (x.node.left.isNone != x.node.right.isNone) = true
  · exfalso
    rw [nodeInv] at hx
    cases hl : x.node.left <;> cases hr : x.node.right <;>
      simp [hl, hr] at hx hcond
  · rw [if_neg hcond]
    cases hl : x.node.left with
    | none =>
      cases hr : x.node.right with
      | none =>
        simp only [hl, hr]
        simp [memOps, memPut]
      | some rk =>
        rw [nodeInv, hl, hr] at hx
        simp at hx
    | some lk =>
      cases hr : x.node.right with
      | none =>
        rw [nodeInv, hl, hr] at hx
        simp at hx
      | some rk =>
        simp only [hl, hr]
        cases h1 : s lk with
        | none => simp [memOps, memGet, h1]
        | some leftN =>
          simp only [memOps, memGet, h1]
          cases h2 : s rk with
          | none => simp [h2]
          | some rightN => simp [h2, memPut]

theorem propagateValues_mem_storeInv (H : Felt → Felt → Felt) :
    ∀ (L : List StorageNode) (s : MemSt),
      (∀ x ∈ L, nodeInv x.node) → storeInv s →
      storeInv (propagateValues memOps H L s).1 := by
  intro L
  induction L with
  | nil => intro s _ hs; exact hs
  | cons cur rest ih =>
    intro s hL hs
    have hs1 : storeInv (propagateValues memOps H rest s).1 :=
      ih s (fun x hx => hL x (List.mem_cons_of_mem cur hx)) hs
    simp only [propagateValues]
    cases hres : propagateValues memOps H rest s with
    | mk s1 r =>
      rw [hres] at hs1
      cases r with
      | error e => exact hs1
      | ok u =>
        cases u
        exact processNode_mem_storeInv H cur s1 (hL cur (List.mem_cons_self cur rest)) hs1

theorem propagateValues_mem_no_panic (H : Felt → Felt → Felt) :
    ∀ (L : List StorageNode) (s : MemSt),
      (∀ x ∈ L, nodeInv x.node) →
      (propagateValues memOps H L s).2 ≠ .error .panicUnary := by
  intro L
  induction L with
  | nil => intro s _ h; cases h
  | cons cur rest ih =>
    intro s hL
    have ihrest := ih s (fun x hx => hL x (List.mem_cons_of_mem cur hx))
    simp only [propagateValues]
    cases hres : propagateValues memOps H rest s with
    | mk s1 r =>
      rw [hres] at ihrest
      cases r with
      | error e =>
        simpa using ihrest
      | ok u =>
        cases u
        exact processNode_mem_no_panic H cur s1 (hL cur (List.mem_cons_self cur rest))

/-- A node satisfying the invariant that links to some child has both
children present. -/
theorem nodeInv_link_both (n : Node) (k : BKey) (hinv : nodeInv n)
    (hlink : n.left = some k ∨ n.right = some k) :
    ∃ a b, n.left = some a ∧ n.right = some b := by
  cases hl : n.left with
  | none =>
    cases hr : n.right with
    | none =>
      rw [hl, hr] at hlink
      simp at hlink
    | some b =>
      rw [nodeInv, hl, hr] at hinv
      simp at hinv
  | some a =>
    cases hr : n.right with
    | none =>
      rw [nodeInv, hl, hr] at hinv
      simp at hinv
    | some b => exact ⟨a, b, rfl, rfl⟩

/-- The descent never reports the unary-node panic. -/
theorem nodesFromRootAux_mem_no_panic (key : BKey) :
    ∀ (fuel : Nat) (cur : Option BKey) (acc : List StorageNode) (s : MemSt),
      (nodesFromRootAux memOps key fuel cur acc s).2 ≠ .error .panicUnary := by
  intro fuel
  induction fuel with
  | zero =>
    intro cur acc s h
    cases h
  | succ fuel ih =>
    intro cur acc s
    cases cur with
    | none => intro h; cases h
    | some c =>
      rw [nodesFromRootAux_succ_some]
      cases h : s c with
      | none => intro h2; cases h2
      | some node =>
        simp only []
        split
        · intro h2; cases h2
        · exact ih _ _ s

-- ### Pure views of the in-memory operations, for stepping proofs

/-- The store function after an in-memory `Put`. -/
def memPutF (s : MemSt) (k : BKey) (n : Node) : MemSt :=
  fun q => if q = k then some n else s q

/-- The store function after an in-memory `Delete`. -/
def memDelF (s : MemSt) (k : BKey) : MemSt :=
  fun q => if q = k then none else s q

theorem memOps_del_eq (s : MemSt) (k : BKey) :
    memOps.del s k = (memDelF s k, .ok ()) := rfl

theorem memOps_put_eq (s : MemSt) (k : BKey) (n : Node) :
    memOps.put s k n = (memPutF s k n, .ok ()) := rfl

theorem memOps_get_eq (s : MemSt) (k : BKey) :
    memOps.get s k = memGet s k := rfl

theorem memDelF_storeInv (s : MemSt) (k : BKey) (hs : storeInv s) :
    storeInv (memDelF s k) := by
  intro q n hq
  unfold memDelF at hq
  split at hq
  · cases hq
  · exact hs q n hq

/-- `deleteLast` on an invariant store with an invariant, chained spine
preserves the store invariant and never reports the unary-node panic. -/
theorem deleteLast_mem_main (H : Felt → Felt → Felt) (t : Trie)
    (L : List StorageNode) (s : MemSt) (hs : storeInv s)
    (hL : ∀ x ∈ L, nodeInv x.node) (hch : Chained L) :
    storeInv (deleteLast memOps H t L s).1 ∧
      (deleteLast memOps H t L s).2.2 ≠ .error .panicUnary := by
  rcases hrev : L.reverse with _ | ⟨last, restRev⟩
  · simp only [deleteLast, hrev]
    exact ⟨hs, by intro h; cases h⟩
  · rcases restRev with _ | ⟨parent, restRev2⟩
    · simp only [deleteLast, hrev, memOps_del_eq]
      exact ⟨memDelF_storeInv s last.key hs, by intro h; cases h⟩
    · rcases restRev2 with _ | ⟨gp, deeperRev⟩
      · simp only [deleteLast, hrev, memOps_del_eq]
        exact ⟨memDelF_storeInv _ parent.key (memDelF_storeInv s last.key hs),
          by intro h; cases h⟩
      · -- L = deeperRev.reverse ++ [gp, parent, last]
        have hLdecomp : L = ((deeperRev.reverse ++ [gp]) ++ [parent]) ++ [last] := by
          have := congrArg List.reverse hrev
          simpa [List.reverse_cons, List.append_assoc] using this
        have hmem_last : last ∈ L := by rw [hLdecomp]; simp
        have hmem_parent : parent ∈ L := by rw [hLdecomp]; simp
        have hmem_gp : gp ∈ L := by rw [hLdecomp]; simp
        have hch' : Chained ((deeperRev.reverse ++ [gp]) ++ [parent, last]) := by
          have heq : L = (deeperRev.reverse ++ [gp]) ++ [parent, last] := by
            rw [hLdecomp]
            simp [List.append_assoc]
          rwa [heq] at hch
        have hlink_pl : parent.node.left = some last.key ∨
            parent.node.right = some last.key :=
          chained_last_two _ parent last hch'
        have hch'' : Chained (deeperRev.reverse ++ [gp, parent]) := by
          have hdl := chained_dropLast _ hch'
          have heq : ((deeperRev.reverse ++ [gp]) ++ [parent, last]).dropLast
              = deeperRev.reverse ++ [gp, parent] := by
            have : (deeperRev.reverse ++ [gp]) ++ [parent, last]
                = ((deeperRev.reverse ++ [gp]) ++ [parent]) ++ [last] := by
              simp [List.append_assoc]
            rw [this, List.dropLast_concat]
            simp [List.append_assoc]
          rwa [heq] at hdl
        have hlink_gp : gp.node.left = some parent.key ∨
            gp.node.right = some parent.key :=
          chained_last_two _ gp parent hch''
        obtain ⟨pa, pb, hpl, hpr⟩ :=
          nodeInv_link_both parent.node last.key (hL parent hmem_parent) hlink_pl
        obtain ⟨ga, gb, hgl, hgr⟩ :=
          nodeInv_link_both gp.node parent.key (hL gp hmem_gp) hlink_gp
        obtain ⟨sk, hsk⟩ : ∃ sk, (if parent.node.left = some last.key
            then parent.node.right else parent.node.left) = some sk := by
          split
          · exact ⟨pb, hpr⟩
          · exact ⟨pa, hpl⟩
        simp only [deleteLast, hrev, memOps_del_eq, memOps_get_eq, hsk]
        have hs2 : storeInv (memDelF (memDelF s last.key) parent.key) :=
          memDelF_storeInv _ parent.key (memDelF_storeInv s last.key hs)
        set s2 := memDelF (memDelF s last.key) parent.key with hs2def
        have hgp' : nodeInv (if gp.node.left = some parent.key
            then { gp with node := { gp.node with left := some sk } }
            else { gp with node := { gp.node with right := some sk } }).node := by
          split <;> simp [nodeInv, hgl, hgr]
        cases hget : s2 sk with
        | none =>
          simp only [memGet, hget]
          exact ⟨hs2, by intro h; cases h⟩
        | some sibling =>
          simp only [memGet, hget]
          have hsibinv : nodeInv sibling := hs2 sk sibling hget
          have hall : ∀ x ∈ deeperRev.reverse ++
              [(if gp.node.left = some parent.key
                then { gp with node := { gp.node with left := some sk } }
                else { gp with node := { gp.node with right := some sk } }),
               (⟨sk, sibling⟩ : StorageNode)], nodeInv x.node := by
            intro x hx
            rcases List.mem_append.mp hx with hx | hx
            · refine hL x ?_
              rw [hLdecomp]
              simp only [List.append_assoc, List.mem_append]
              left
              exact hx
            · simp only [List.mem_cons, List.not_mem_nil, or_false] at hx
              rcases hx with hx | hx
              · rw [hx]
                exact hgp'
              · rw [hx]
                exact hsibinv
          cases hprop : propagateValues memOps H (deeperRev.reverse ++
              [(if gp.node.left = some parent.key
                then { gp with node := { gp.node with left := some sk } }
                else { gp with node := { gp.node with right := some sk } }),
               (⟨sk, sibling⟩ : StorageNode)]) s2 with
          | mk s3 r =>
            have hstore3 : storeInv s3 := by
              have hpr2 := propagateValues_mem_storeInv H _ s2 hall hs2
              rw [hprop] at hpr2
              exact hpr2
            have hnp : r ≠ .error .panicUnary := by
              have hpr2 := propagateValues_mem_no_panic H _ s2 hall
              rw [hprop] at hpr2
              simpa using hpr2
            cases r with
            | error e => exact ⟨hstore3, fun hcontra => hnp hcontra⟩
            | ok u =>
              cases u
              exact ⟨hstore3, by intro h; cases h⟩

-- ### Equation-form corollaries, for stepping through `Put`

theorem propagateValues_mem_storeInv_eq (H : Felt → Felt → Felt)
    (L : List StorageNode) (s s1 : MemSt) (r : Except TrieErr Unit)
    (heq : propagateValues memOps H L s = (s1, r))
    (hL : ∀ x ∈ L, nodeInv x.node) (hs : storeInv s) : storeInv s1 := by
  have hpr := propagateValues_mem_storeInv H L s hL hs
  rw [heq] at hpr
  exact hpr

theorem propagateValues_mem_err_eq (H : Felt → Felt → Felt)
    (L : List StorageNode) (s s1 : MemSt) (e : TrieErr)
    (heq : propagateValues memOps H L s = (s1, .error e))
    (hL : ∀ x ∈ L, nodeInv x.node) : e ≠ .panicUnary := by
  have hpr := propagateValues_mem_no_panic H L s hL
  rw [heq] at hpr
  intro hcontra
  exact hpr (by rw [hcontra])

theorem deleteLast_mem_main_eq (H : Felt → Felt → Felt) (t : Trie)
    (L : List StorageNode) (s : MemSt) (out : MemSt × Trie × Except TrieErr Unit)
    (heq : deleteLast memOps H t L s = out) (hs : storeInv s)
    (hL : ∀ x ∈ L, nodeInv x.node) (hch : Chained L) :
    storeInv out.1 ∧ out.2.2 ≠ .error .panicUnary :=
  heq ▸ deleteLast_mem_main H t L s hs hL hch

theorem nodesFromRoot_mem_fst_eq (t : Trie) (key : BKey) (s s1 : MemSt)
    (r : Except TrieErr (List StorageNode))
    (heq : nodesFromRoot memOps t key s = (s1, r)) : s1 = s := by
  have hfst := nodesFromRootAux_mem_fst key (key.length + 1) t.rootKey [] s
  unfold nodesFromRoot at heq
  rw [heq] at hfst
  exact hfst

theorem nodesFromRoot_mem_no_panic_eq (t : Trie) (key : BKey) (s s1 : MemSt)
    (e : TrieErr) (heq : nodesFromRoot memOps t key s = (s1, .error e)) :
    e ≠ .panicUnary := by
  have hfoo := nodesFromRootAux_mem_no_panic key (key.length + 1) t.rootKey [] s
  unfold nodesFromRoot at heq
  rw [heq] at hfoo
  intro hcontra
  exact hfoo (by rw [hcontra])

theorem nodesFromRoot_mem_inv_eq (t : Trie) (key : BKey) (s s1 : MemSt)
    (nodes : List StorageNode) (hs : storeInv s)
    (heq : nodesFromRoot memOps t key s = (s1, .ok nodes)) :
    ∀ x ∈ nodes, nodeInv x.node := by
  refine nodesFromRootAux_mem_inv key (key.length + 1) t.rootKey [] s nodes hs ?_ ?_
  · unfold nodesFromRoot at heq
    rw [heq]
  · intro x hx
    cases hx

theorem nodesFromRoot_mem_chained_eq (t : Trie) (key : BKey) (s s1 : MemSt)
    (nodes : List StorageNode)
    (heq : nodesFromRoot memOps t key s = (s1, .ok nodes)) : Chained nodes := by
  refine nodesFromRootAux_mem_chained key (key.length + 1) t.rootKey [] s nodes ?_ trivial ?_
  · unfold nodesFromRoot at heq
    rw [heq]
  · intro a c ha hc
    cases ha

/-- `Put` on an invariant store preserves the store invariant and never
reports the unary-node panic (stated over an arbitrary outcome). -/
theorem Put_mem_out (H : Felt → Felt → Felt) (t : Trie) (k v : Felt)
    (s : MemSt) (out : MemSt × Trie × Except TrieErr Unit) (hs : storeInv s)
    (hout : Put memOps H t k v s = out) :
    storeInv out.1 ∧ out.2.2 ≠ .error .panicUnary := by
  cases hroot : t.rootKey with
  | none =>
    simp only [Put, hroot] at hout
    have hleafinv : ∀ x ∈ [(⟨FeltToBitSet t.height k,
        ⟨v, none, none⟩⟩ : StorageNode)], nodeInv x.node := by
      intro x hx
      simp only [List.mem_singleton] at hx
      rw [hx]
      rfl
    split at hout
    · subst hout
      exact ⟨hs, by intro h; cases h⟩
    · split at hout
      · rename_i s1 e hprop
        subst hout
        exact ⟨propagateValues_mem_storeInv_eq H _ s s1 _ hprop hleafinv hs,
          fun hc => (propagateValues_mem_err_eq H _ s s1 e hprop hleafinv)
            (by cases hc; rfl)⟩
      · rename_i s1 hprop
        subst hout
        exact ⟨propagateValues_mem_storeInv_eq H _ s s1 _ hprop hleafinv hs,
          by intro h; cases h⟩
  | some rk =>
    simp only [Put, hroot] at hout
    split at hout
    · rename_i s1 e hrun
      subst hout
      have hs1 : s = s1 := (nodesFromRoot_mem_fst_eq t _ s s1 _ hrun).symm
      subst hs1
      exact ⟨hs, fun hc =>
        (nodesFromRoot_mem_no_panic_eq t _ s s e hrun) (by cases hc; rfl)⟩
    · rename_i s1 nodes hrun
      have hs1 : s = s1 := (nodesFromRoot_mem_fst_eq t _ s s1 _ hrun).symm
      subst hs1
      have hallinv := nodesFromRoot_mem_inv_eq t _ s _ nodes hs hrun
      have hchained := nodesFromRoot_mem_chained_eq t _ s _ nodes hrun
      split at hout
      · subst hout
        exact ⟨hs, by intro h; cases h⟩
      · rename_i sibling hlast
        obtain ⟨front, rfl⟩ : ∃ front, nodes = front ++ [sibling] :=
          List.getLast?_eq_some_iff.mp hlast
        have hfrontinv : ∀ x ∈ front, nodeInv x.node := fun x hx =>
          hallinv x (List.mem_append.mpr (Or.inl hx))
        have hreplinv : ∀ x ∈ (front ++ [(⟨sibling.key, ⟨v, none, none⟩⟩ :
            StorageNode)]), nodeInv x.node := by
          intro x hx
          rcases List.mem_append.mp hx with hx | hx
          · exact hfrontinv x hx
          · simp only [List.mem_singleton] at hx
            rw [hx]
            rfl
        simp only [List.dropLast_concat] at hout
        split at hout
        · rename_i heq
          split at hout
          · -- zero value on an existing leaf: deleteLast
            have hch' : Chained (front ++ [(⟨sibling.key, ⟨v, none, none⟩⟩ :
                StorageNode)]) := chained_replace_last front sibling _ hchained
            exact deleteLast_mem_main_eq H t _ s out hout hs hreplinv hch'
          · split at hout
            · rename_i s1 e hprop
              subst hout
              exact ⟨propagateValues_mem_storeInv_eq H _ s s1 _ hprop hreplinv hs,
                fun hc => (propagateValues_mem_err_eq H _ s s1 e hprop hreplinv)
                  (by cases hc; rfl)⟩
            · rename_i s1 hprop
              subst hout
              exact ⟨propagateValues_mem_storeInv_eq H _ s s1 _ hprop hreplinv hs,
                by intro h; cases h⟩
        · rename_i heq
          split at hout
          · subst hout
            exact ⟨hs, by intro h; cases h⟩
          · -- insert of a new leaf under a fresh internal parent
            split at hout
            · rename_i s1 e hprop
              subst hout
              refine ⟨propagateValues_mem_storeInv_eq H _ s s1 _ hprop ?_ hs,
                fun hc => (propagateValues_mem_err_eq H _ s s1 e hprop ?_)
                  (by cases hc; rfl)⟩
              all_goals
                intro x hx
                rcases List.mem_append.mp hx with hx2 | hx2
                · revert hx2
                  split
                  · intro hx2
                    exact hfrontinv x hx2
                  · split
                    · intro hx2
                      exact hfrontinv x hx2
                    · rename_i siblingParent hfl
                      intro hx2
                      obtain ⟨front2, hfront2⟩ : ∃ front2,
                          front = front2 ++ [siblingParent] :=
                        List.getLast?_eq_some_iff.mp hfl
                      subst hfront2
                      simp only [List.dropLast_concat] at hx2
                      rcases List.mem_append.mp hx2 with hx3 | hx3
                      · exact hfrontinv x (List.mem_append.mpr (Or.inl hx3))
                      · simp only [List.mem_singleton] at hx3
                        have hsplink : siblingParent.node.left = some sibling.key ∨
                            siblingParent.node.right = some sibling.key := by
                          refine chained_last_two front2 siblingParent sibling ?_
                          have harr : (front2 ++ [siblingParent]) ++ [sibling]
                              = front2 ++ [siblingParent, sibling] := by
                            simp [List.append_assoc]
                          rwa [harr] at hchained
                        obtain ⟨spa, spb, hspl, hspr⟩ :=
                          nodeInv_link_both siblingParent.node sibling.key
                            (hallinv siblingParent (by simp)) hsplink
                        rw [hx3]
                        split <;> simp [nodeInv, hspl, hspr]
                · simp only [List.mem_cons, List.not_mem_nil, or_false] at hx2
                  rcases hx2 with hx2 | hx2
                  · rw [hx2]
                    split <;> rfl
                  · rw [hx2]
                    rfl
            · rename_i s1 hprop
              have hgoal : storeInv s1 := by
                refine propagateValues_mem_storeInv_eq H _ s s1 _ hprop ?_ hs
                intro x hx
                rcases List.mem_append.mp hx with hx2 | hx2
                · revert hx2
                  split
                  · intro hx2
                    exact hfrontinv x hx2
                  · split
                    · intro hx2
                      exact hfrontinv x hx2
                    · rename_i siblingParent hfl
                      intro hx2
                      obtain ⟨front2, hfront2⟩ : ∃ front2,
                          front = front2 ++ [siblingParent] :=
                        List.getLast?_eq_some_iff.mp hfl
                      subst hfront2
                      simp only [List.dropLast_concat] at hx2
                      rcases List.mem_append.mp hx2 with hx3 | hx3
                      · exact hfrontinv x (List.mem_append.mpr (Or.inl hx3))
                      · simp only [List.mem_singleton] at hx3
                        have hsplink : siblingParent.node.left = some sibling.key ∨
                            siblingParent.node.right = some sibling.key := by
                          refine chained_last_two front2 siblingParent sibling ?_
                          have harr : (front2 ++ [siblingParent]) ++ [sibling]
                              = front2 ++ [siblingParent, sibling] := by
                            simp [List.append_assoc]
                          rwa [harr] at hchained
                        obtain ⟨spa, spb, hspl, hspr⟩ :=
                          nodeInv_link_both siblingParent.node sibling.key
                            (hallinv siblingParent (by simp)) hsplink
                        rw [hx3]
                        split <;> simp [nodeInv, hspl, hspr]
                · simp only [List.mem_cons, List.not_mem_nil, or_false] at hx2
                  rcases hx2 with hx2 | hx2
                  · rw [hx2]
                    split <;> rfl
                  · rw [hx2]
                    rfl
              split at hout
              · subst hout
                exact ⟨hgoal, by intro h; cases h⟩
              · subst hout
                exact ⟨hgoal, by intro h; cases h⟩

-- ### Error atomicity (claim C9)

/-- On any storage error, `deleteLast` returns the trie unchanged. -/
theorem deleteLast_err_trie {σ : Type} (st : StoOps σ) (H : Felt → Felt → Felt)
    (t : Trie) (L : List StorageNode) (s : σ)
    (out : σ × Trie × Except TrieErr Unit) (hout : deleteLast st H t L s = out)
    (e : TrieErr) (he : out.2.2 = .error e) : out.2.1 = t := by
  simp only [deleteLast] at hout
  repeat' split at hout
  all_goals subst hout
  all_goals first
    | rfl
    | (exfalso; exact absurd he (by simp))

/-- On any storage error, `Put` returns the trie unchanged. -/
theorem Put_err_trie {σ : Type} (st : StoOps σ) (H : Felt → Felt → Felt)
    (t : Trie) (k v : Felt) (s : σ)
    (out : σ × Trie × Except TrieErr Unit) (hout : Put st H t k v s = out)
    (e : TrieErr) (he : out.2.2 = .error e) : out.2.1 = t := by
  simp only [Put] at hout
  repeat' split at hout
  all_goals first
    | (exact deleteLast_err_trie st H t _ _ out hout e he)
    | (subst hout; first
        | rfl
        | (exfalso; exact absurd he (by simp)))

-- ### Claim C9

/-- C9.  Whenever `Put` returns an error, from any storage operation during
descent, propagation, or deletion, and over any storage implementation, the
trie's in-memory `rootKey` field equals its value at entry to `Put`. -/
theorem claim_C9_put_error_rootKey_unchanged {σ : Type} (st : StoOps σ)
    (H : Felt → Felt → Felt) (t : Trie) (k v : Felt) (s : σ) (e : TrieErr)
    (herr : (Put st H t k v s).2.2 = .error e) :
    (Put st H t k v s).2.1.rootKey = t.rootKey := by
  rw [Put_err_trie st H t k v s _ rfl e herr]

/-- C9 witness: a `Put` on a trie whose root node is missing from storage
fails with the store's not-found error and leaves `rootKey` untouched. -/
theorem claim_C9_witness :
    (Put memOps (fun a b => a + b) ⟨1, some []⟩ 0 5 (fun _ => none)).2.2
        = .error .notFound ∧
      (Put memOps (fun a b => a + b) ⟨1, some []⟩ 0 5 (fun _ => none)).2.1.rootKey
        = some [] :=
  ⟨rfl, claim_C9_put_error_rootKey_unchanged memOps (fun a b => a + b)
    ⟨1, some []⟩ 0 5 (fun _ => none) .notFound rfl⟩

-- ### Claim C10

/-- C10.  For every spine whose nodes all have both child keys present or
both absent, the `should not happen` panic branch of `propagateValues` is
unreachable; consequently `Put` never panics on a store whose nodes all
satisfy the invariant, and `deleteLast` never panics on such a store when
given a spine of nodes read from it (invariant-satisfying and chained, as
the spines `Put` builds always are). -/
theorem claim_C10_panic_unreachable :
    (∀ (H : Felt → Felt → Felt) (L : List StorageNode) (s : MemSt),
      (∀ x ∈ L, nodeInv x.node) →
      (propagateValues memOps H L s).2 ≠ .error .panicUnary) ∧
    (∀ (H : Felt → Felt → Felt) (t : Trie) (k v : Felt) (s : MemSt),
      storeInv s → (Put memOps H t k v s).2.2 ≠ .error .panicUnary) ∧
    (∀ (H : Felt → Felt → Felt) (t : Trie) (L : List StorageNode) (s : MemSt),
      storeInv s → (∀ x ∈ L, nodeInv x.node) → Chained L →
      (deleteLast memOps H t L s).2.2 ≠ .error .panicUnary) :=
  ⟨fun H L s hL => propagateValues_mem_no_panic H L s hL,
   fun H t k v s hs => (Put_mem_out H t k v s _ hs rfl).2,
   fun H t L s hs hL hch => (deleteLast_mem_main H t L s hs hL hch).2⟩

/-- C10 witness: concrete instances of all three parts. -/
theorem claim_C10_witness :
    (propagateValues memOps (fun a b => a + b)
        [⟨[true], ⟨5, none, none⟩⟩] (fun _ => none)).2 ≠ .error .panicUnary ∧
    (Put memOps (fun a b => a + b) ⟨2, none⟩ 2 7 (fun _ => none)).2.2
        ≠ .error .panicUnary ∧
    (deleteLast memOps (fun a b => a + b) ⟨1, some [true]⟩
        [⟨[true], ⟨5, none, none⟩⟩] (fun _ => none)).2.2 ≠ .error .panicUnary := by
  refine ⟨claim_C10_panic_unreachable.1 (fun a b => a + b) _ _ ?_,
    claim_C10_panic_unreachable.2.1 (fun a b => a + b) ⟨2, none⟩ 2 7 _ ?_,
    claim_C10_panic_unreachable.2.2 (fun a b => a + b) ⟨1, some [true]⟩ _ _ ?_ ?_ ?_⟩
  · intro x hx
    simp only [List.mem_singleton] at hx
    rw [hx]
    rfl
  · intro q n h
    cases h
  · intro q n h
    cases h
  · intro x hx
    simp only [List.mem_singleton] at hx
    rw [hx]
    rfl
  · trivial

-- ### Claim C3

/-- An operation on the trie engine: the exported mutator and accessor. -/
inductive TrieOp where
  | putOp (k v : Felt)
  | getOp (k : Felt)

/-- Run a sequence of `Put`/`Get` calls, threading the trie and the store. -/
def runOps (H : Felt → Felt → Felt) : Trie → MemSt → List TrieOp → Trie × MemSt
  | t, s, [] => (t, s)
  | t, s, .putOp k v :: rest =>
    let r := Put memOps H t k v s
    runOps H r.2.1 r.1 rest
  | t, s, .getOp k :: rest =>
    let r := TrieGet memOps t k s
    runOps H t r.1 rest

/-- A fresh trie of the given height: no root, empty storage. -/
def freshTrie (height : Nat) : Trie := ⟨height, none⟩

def emptyStore : MemSt := fun _ => none

theorem TrieGet_mem_fst (t : Trie) (k : Felt) (s : MemSt) :
    (TrieGet memOps t k s).1 = s := by
  unfold TrieGet
  rw [memOps_get_eq]
  cases h : s (FeltToBitSet t.height k) with
  | none =>
    simp only [memGet, h]
  | some n =>
    simp only [memGet, h]

theorem runOps_storeInv (H : Felt → Felt → Felt) (ops : List TrieOp) :
    ∀ (t : Trie) (s : MemSt), storeInv s → storeInv (runOps H t s ops).2 := by
  induction ops with
  | nil => intro t s hs; exact hs
  | cons op rest ih =>
    intro t s hs
    cases op with
    | putOp k v =>
      exact ih _ _ (Put_mem_out H t k v s _ hs rfl).1
    | getOp k =>
      refine ih t _ ?_
      rw [TrieGet_mem_fst]
      exact hs

/-- C3.  After every sequence of `Put` and `Get` operations on a fresh trie,
every node in the store, in particular every node reachable from `rootKey`,
has either both child keys present or both absent. -/
theorem claim_C3_unary_free (H : Felt → Felt → Felt) (height : Nat)
    (ops : List TrieOp) (q : BKey) (n : Node)
    (hq : (runOps H (freshTrie height) emptyStore ops).2 q = some n) :
    n.left.isSome = n.right.isSome := by
  refine runOps_storeInv H ops (freshTrie height) emptyStore ?_ q n hq
  intro q n h
  cases h

/-- C3 witness: after two inserts at height 1, the root node has both
children. -/
theorem claim_C3_witness :
    (runOps (fun a b => a + b) (freshTrie 1) emptyStore
        [.putOp 0 7, .putOp 1 9]).2 [] =
      some ⟨(fun a b => a + b) 7 9, some [false], some [true]⟩ ∧
    (some [false] : Option BKey).isSome = (some [true] : Option BKey).isSome := by
  constructor
  · rfl
  · exact claim_C3_unary_free (fun a b => a + b) 1 [.putOp 0 7, .putOp 1 9]
      [] ⟨(fun a b => a + b) 7 9, some [false], some [true]⟩ rfl

-- ### Trace lemmas (claims C4, C7)

theorem traceOps_get_eq (s : TraceSt) (k : BKey) :
    traceOps.get s k = (⟨s.mem, s.trace ++ [.read k]⟩, (memGet s.mem k).2) := by
  show (match memGet s.mem k with
    | (m, r) => ((⟨m, s.trace ++ [StoreEvent.read k]⟩ : TraceSt), r)) =
    ((⟨s.mem, s.trace ++ [StoreEvent.read k]⟩ : TraceSt), (memGet s.mem k).2)
  cases hg : memGet s.mem k with
  | mk m r =>
    have hm : m = s.mem := by
      have hfst := memGet_fst s.mem k
      rw [hg] at hfst
      exact hfst
    rw [hm]

theorem traceOps_put_eq (s : TraceSt) (k : BKey) (n : Node) :
    traceOps.put s k n = (⟨memPutF s.mem k n, s.trace ++ [.write k]⟩, .ok ()) := rfl

theorem traceOps_del_eq (s : TraceSt) (k : BKey) :
    traceOps.del s k = (⟨memDelF s.mem k, s.trace ++ [.del k]⟩, .ok ()) := rfl

/-- Unfolding of one descent step on the tracing store. -/
theorem nodesFromRootAux_trace_succ_some (key : BKey) (fuel : Nat) (c : BKey)
    (acc : List StorageNode) (s : TraceSt) :
    nodesFromRootAux traceOps key (fuel + 1) (some c) acc s =
      match s.mem c with
      | none => (⟨s.mem, s.trace ++ [.read c]⟩, .error .notFound)
      | some nd =>
        if key.length ≤ c.length ∨ ((FindCommonKey key c).2 : Bool) = false then
          (⟨s.mem, s.trace ++ [.read c]⟩, .ok (acc ++ [⟨c, nd⟩]))
        else
          nodesFromRootAux traceOps key fuel
            (if key.getD c.length false then nd.right else nd.left)
            (acc ++ [⟨c, nd⟩]) ⟨s.mem, s.trace ++ [.read c]⟩ := by
  cases h : s.mem c with
  | none => simp only [nodesFromRootAux, traceOps, memGet, h]
  | some nd => simp only [nodesFromRootAux, traceOps, memGet, h]

/-- The descent on the tracing store: it does not change the store
contents, only appends read events, and every node it returns beyond the
accumulator was read from the store. -/
theorem nodesFromRootAux_trace (key : BKey) :
    ∀ (fuel : Nat) (cur : Option BKey) (acc : List StorageNode) (s : TraceSt),
      (nodesFromRootAux traceOps key fuel cur acc s).1.mem = s.mem ∧
      (∃ new, (nodesFromRootAux traceOps key fuel cur acc s).1.trace
          = s.trace ++ new ∧ ∀ ev ∈ new, ev.isRead = true) ∧
      (∀ nodes, (nodesFromRootAux traceOps key fuel cur acc s).2 = .ok nodes →
        ∀ x ∈ nodes, x ∈ acc ∨ s.mem x.key = some x.node) := by
  intro fuel
  induction fuel with
  | zero =>
    intro cur acc s
    refine ⟨rfl, ⟨[], by simp [nodesFromRootAux], by simp⟩, ?_⟩
    intro nodes h
    simp only [nodesFromRootAux] at h
    cases h
  | succ fuel ih =>
    intro cur acc s
    cases cur with
    | none =>
      refine ⟨rfl, ⟨[], by simp [nodesFromRootAux], by simp⟩, ?_⟩
      intro nodes h
      simp only [nodesFromRootAux] at h
      cases h
      intro x hx
      exact Or.inl hx
    | some c =>
      rw [nodesFromRootAux_trace_succ_some]
      cases hg : s.mem c with
      | none =>
        refine ⟨rfl, ⟨[.read c], rfl, by simp [StoreEvent.isRead]⟩, ?_⟩
        intro nodes h
        cases h
      | some nd =>
        simp only []
        by_cases hstop : key.length ≤ c.length ∨ ((FindCommonKey key c).2 : Bool) = false
        · rw [if_pos hstop]
          refine ⟨rfl, ⟨[.read c], rfl, by simp [StoreEvent.isRead]⟩, ?_⟩
          intro nodes h
          cases h
          intro x hx
          rcases List.mem_append.mp hx with hx | hx
          · exact Or.inl hx
          · simp only [List.mem_singleton] at hx
            right
            rw [hx]
            exact hg
        · rw [if_neg hstop]
          obtain ⟨ihmem, ⟨new, ihtr, ihread⟩, ihprov⟩ := ih
            (if key.getD c.length false then nd.right else nd.left)
            (acc ++ [⟨c, nd⟩]) ⟨s.mem, s.trace ++ [.read c]⟩
          refine ⟨ihmem, ⟨.read c :: new, ?_, ?_⟩, ?_⟩
          · rw [ihtr]
            simp
          · intro ev hev
            rcases List.mem_cons.mp hev with hev | hev
            · rw [hev]
              rfl
            · exact ihread ev hev
          · intro nodes hnodes x hx
            rcases ihprov nodes hnodes x hx with hx2 | hx2
            · rcases List.mem_append.mp hx2 with hx3 | hx3
              · exact Or.inl hx3
              · simp only [List.mem_singleton] at hx3
                right
                rw [hx3]
                exact hg
            · exact Or.inr hx2

/-- `processNode` on the tracing store only appends events. -/
theorem processNode_trace_ext (H : Felt → Felt → Felt) (x : StorageNode)
    (s : TraceSt) :
    ∃ new, (processNode traceOps H x s).1.trace = s.trace ++ new := by
  unfold processNode
  split
  · exact ⟨[], by simp⟩
  · cases hl : x.node.left with
    | none =>
      cases hr : x.node.right with
      | none =>
        simp only [hl, hr, traceOps_put_eq]
        exact ⟨[.write x.key], rfl⟩
      | some rk =>
        simp only [hl, hr, traceOps_put_eq]
        exact ⟨[.write x.key], rfl⟩
    | some lk =>
      cases hr : x.node.right with
      | none =>
        simp only [hl, hr, traceOps_put_eq]
        exact ⟨[.write x.key], rfl⟩
      | some rk =>
        simp only [hl, hr, traceOps_get_eq]
        cases hg1 : (memGet s.mem lk).2 with
        | error e => exact ⟨[.read lk], rfl⟩
        | ok leftN =>
          simp only [traceOps_get_eq]
          cases hg2 : (memGet s.mem rk).2 with
          | error e => exact ⟨[.read lk, .read rk], by simp⟩
          | ok rightN =>
            simp only [traceOps_put_eq]
            exact ⟨[.read lk, .read rk, .write x.key], by simp⟩

/-- `propagateValues` on the tracing store only appends events. -/
theorem propagateValues_trace_ext (H : Felt → Felt → Felt) :
    ∀ (L : List StorageNode) (s : TraceSt),
      ∃ new, (propagateValues traceOps H L s).1.trace = s.trace ++ new := by
  intro L
  induction L with
  | nil => intro s; exact ⟨[], by simp [propagateValues]⟩
  | cons cur rest ih =>
    intro s
    simp only [propagateValues]
    obtain ⟨new1, hnew1⟩ := ih s
    cases hrest : propagateValues traceOps H rest s with
    | mk s1 r =>
      rw [hrest] at hnew1
      cases r with
      | error e => exact ⟨new1, hnew1⟩
      | ok u =>
        cases u
        obtain ⟨new2, hnew2⟩ := processNode_trace_ext H cur s1
        refine ⟨new1 ++ new2, ?_⟩
        rw [hnew2, hnew1, List.append_assoc]

/-- `deleteLast` on the tracing store only appends events. -/
theorem deleteLast_trace_ext (H : Felt → Felt → Felt) (t : Trie)
    (L : List StorageNode) (s : TraceSt) :
    ∃ new, (deleteLast traceOps H t L s).1.trace = s.trace ++ new := by
  rcases hrev : L.reverse with _ | ⟨last, restRev⟩
  · simp only [deleteLast, hrev]
    exact ⟨[], by simp⟩
  · simp only [deleteLast, hrev, traceOps_del_eq]
    rcases restRev with _ | ⟨parent, restRev2⟩
    · exact ⟨[.del last.key], rfl⟩
    · simp only [traceOps_del_eq]
      rcases restRev2 with _ | ⟨gp, deeperRev⟩
      · exact ⟨[.del last.key, .del parent.key], by simp⟩
      · simp only []
        cases hsk : (if parent.node.left = some last.key then parent.node.right
            else parent.node.left) with
        | none => exact ⟨[.del last.key, .del parent.key], by simp⟩
        | some sk =>
          simp only [traceOps_get_eq]
          cases hg : (memGet (memDelF (memDelF s.mem last.key) parent.key) sk).2 with
          | error e =>
            exact ⟨[.del last.key, .del parent.key, .read sk], by simp⟩
          | ok sibling =>
            simp only []
            cases hprop : propagateValues traceOps H
              (deeperRev.reverse ++
                [(if gp.node.left = some parent.key
                  then { gp with node := { gp.node with left := some sk } }
                  else { gp with node := { gp.node with right := some sk } }),
                 (⟨sk, sibling⟩ : StorageNode)])
              ⟨memDelF (memDelF s.mem last.key) parent.key,
                s.trace ++ [.del last.key] ++ [.del parent.key] ++ [.read sk]⟩ with
            | mk s4 r =>
              obtain ⟨new, hnew⟩ := propagateValues_trace_ext H
                (deeperRev.reverse ++
                  [(if gp.node.left = some parent.key
                    then { gp with node := { gp.node with left := some sk } }
                    else { gp with node := { gp.node with right := some sk } }),
                   (⟨sk, sibling⟩ : StorageNode)])
                ⟨memDelF (memDelF s.mem last.key) parent.key,
                  s.trace ++ [.del last.key] ++ [.del parent.key] ++ [.read sk]⟩
              rw [hprop] at hnew
              refine ⟨[.del last.key] ++ [.del parent.key] ++ [.read sk] ++ new, ?_⟩
              cases r with
              | error e =>
                simp only []
                rw [hnew]
                simp
              | ok u =>
                cases u
                simp only []
                rw [hnew]
                simp

theorem propagateValues_trace_ext_eq (H : Felt → Felt → Felt)
    (L : List StorageNode) (s1 s2 : TraceSt) (r : Except TrieErr Unit)
    (h : propagateValues traceOps H L s1 = (s2, r)) :
    ∃ new, s2.trace = s1.trace ++ new := by
  obtain ⟨new, hnew⟩ := propagateValues_trace_ext H L s1
  rw [h] at hnew
  exact ⟨new, hnew⟩

theorem deleteLast_trace_ext_eq (H : Felt → Felt → Felt) (t : Trie)
    (L : List StorageNode) (s1 : TraceSt) (out : TraceSt × Trie × Except TrieErr Unit)
    (h : deleteLast traceOps H t L s1 = out) :
    ∃ new, out.1.trace = s1.trace ++ new := by
  obtain ⟨new, hnew⟩ := deleteLast_trace_ext H t L s1
  rw [h] at hnew
  exact ⟨new, hnew⟩

theorem nodesFromRoot_trace_eq (t : Trie) (key : BKey) (s : TraceSt)
    (s1 : TraceSt) (r : Except TrieErr (List StorageNode))
    (h : nodesFromRoot traceOps t key s = (s1, r)) :
    s1.mem = s.mem ∧
    (∃ new, s1.trace = s.trace ++ new ∧ ∀ ev ∈ new, ev.isRead = true) ∧
    (∀ nodes, r = .ok nodes → ∀ x ∈ nodes, s.mem x.key = some x.node) := by
  obtain ⟨hmem, ⟨new, htr, hrd⟩, hprov⟩ :=
    nodesFromRootAux_trace key (key.length + 1) t.rootKey [] s
  unfold nodesFromRoot at h
  rw [h] at hmem htr hprov
  refine ⟨hmem, ⟨new, htr, hrd⟩, ?_⟩
  intro nodes hr x hx
  rcases hprov nodes (by rw [hr]) x hx with h1 | h1
  · cases h1
  · exact h1

/-- All events `Put` emits come after the descent's trace: the `Put` trace
extends the descent trace (non-empty root case). -/
theorem Put_trace_decomp (H : Felt → Felt → Felt) (t : Trie) (k v : Felt)
    (s : TraceSt) (out : TraceSt × Trie × Except TrieErr Unit)
    (hout : Put traceOps H t k v s = out) (rk : BKey)
    (hroot : t.rootKey = some rk) :
    ∃ rest, out.1.trace =
      (nodesFromRoot traceOps t (FeltToBitSet t.height k) s).1.trace ++ rest := by
  simp only [Put, hroot] at hout
  split at hout
  · rename_i s1 e hrun
    subst hout
    refine ⟨[], ?_⟩
    rw [hrun]
    simp
  · rename_i s1 nodes hrun
    split at hout
    · subst hout
      refine ⟨[], ?_⟩
      rw [hrun]
      simp
    · rename_i sibling hlast
      split at hout
      · split at hout
        · obtain ⟨new, hnew⟩ := deleteLast_trace_ext_eq H t _ s1 out hout
          refine ⟨new, ?_⟩
          rw [hrun]
          exact hnew
        · split at hout
          · rename_i s2 e hprop
            subst hout
            obtain ⟨new, hnew⟩ := propagateValues_trace_ext_eq H _ s1 s2 _ hprop
            refine ⟨new, ?_⟩
            rw [hrun]
            exact hnew
          · rename_i s2 hprop
            subst hout
            obtain ⟨new, hnew⟩ := propagateValues_trace_ext_eq H _ s1 s2 _ hprop
            refine ⟨new, ?_⟩
            rw [hrun]
            exact hnew
      · split at hout
        · subst hout
          refine ⟨[], ?_⟩
          rw [hrun]
          simp
        · split at hout
          · rename_i s2 e hprop
            subst hout
            obtain ⟨new, hnew⟩ := propagateValues_trace_ext_eq H _ s1 s2 _ hprop
            refine ⟨new, ?_⟩
            rw [hrun]
            exact hnew
          · rename_i s2 hprop
            obtain ⟨new, hnew⟩ := propagateValues_trace_ext_eq H _ s1 s2 _ hprop
            split at hout <;> subst hout <;> exact ⟨new, by rw [hrun]; exact hnew⟩

-- ### Claim C4

/-- A two-leaf store of height 1: an internal root with leaves at 0 and 1. -/
def cexStore : MemSt := fun q =>
  if q = [] then some ⟨12, some [false], some [true]⟩
  else if q = [false] then some ⟨1, none, none⟩
  else if q = [true] then some ⟨2, none, none⟩
  else none

/-- C4 counterexample.  In the concrete call `Put(0, 5)` on a two-leaf trie,
the third store event is a write (the new leaf) and the fourth is a read
(`propagateValues` refetching that leaf as a child): a read issued to the
node store happens after a write in the same `Put` call, so it is false
that within every single call to `Put` every read happens before every
write. -/
theorem claim_C4_counterexample :
    (Put traceOps (fun a b => a + b) ⟨1, some []⟩ 0 5
        ⟨cexStore, []⟩).1.trace.getD 2 (.read []) = .write [false] ∧
    (Put traceOps (fun a b => a + b) ⟨1, some []⟩ 0 5
        ⟨cexStore, []⟩).1.trace.getD 3 (.read []) = .read [false] :=
  ⟨rfl, rfl⟩

/-- C4 amended.  Within a single call to `Put` on a non-empty trie, the
descent (`nodesFromRoot`) issues only store reads, and every event `Put`
emits after the descent comes later in the trace; however the propagation
phase interleaves child reads with its writes, so not every read precedes
every write. -/
theorem claim_C4_amended (H : Felt → Felt → Felt) (t : Trie) (k v : Felt)
    (s : TraceSt) (rk : BKey) (hroot : t.rootKey = some rk) :
    ∃ descNew rest,
      (nodesFromRoot traceOps t (FeltToBitSet t.height k) s).1.trace
          = s.trace ++ descNew ∧
      (∀ ev ∈ descNew, ev.isRead = true) ∧
      (Put traceOps H t k v s).1.trace = s.trace ++ (descNew ++ rest) := by
  cases hrun : nodesFromRoot traceOps t (FeltToBitSet t.height k) s with
  | mk s1 r =>
    obtain ⟨hmem, ⟨descNew, htr, hread⟩, _⟩ :=
      nodesFromRoot_trace_eq t (FeltToBitSet t.height k) s s1 r hrun
    obtain ⟨rest, hrest⟩ := Put_trace_decomp H t k v s _ rfl rk hroot
    refine ⟨descNew, rest, htr, hread, ?_⟩
    rw [hrun] at hrest
    rw [hrest, show ((s1, r).1).trace = s1.trace from rfl, htr, List.append_assoc]

/-- C4 amended witness. -/
theorem claim_C4_amended_witness :
    ∃ descNew rest,
      (nodesFromRoot traceOps ⟨1, some []⟩ (FeltToBitSet 1 0)
          ⟨cexStore, []⟩).1.trace = [] ++ descNew ∧
      (∀ ev ∈ descNew, ev.isRead = true) ∧
      (Put traceOps (fun a b => a + b) ⟨1, some []⟩ 0 5
          ⟨cexStore, []⟩).1.trace = [] ++ (descNew ++ rest) :=
  claim_C4_amended (fun a b => a + b) ⟨1, some []⟩ 0 5 ⟨cexStore, []⟩ [] rfl

-- ### Claim C7

/-- The value returned by `Root` on the tracing store depends only on the
store contents, not on the trace. -/
theorem Root_trace_val (H : Felt → Felt → Felt) (t : Trie) (s s' : TraceSt)
    (hmem : s'.mem = s.mem) :
    (Root traceOps H t s').2 = (Root traceOps H t s).2 := by
  unfold Root
  cases t.rootKey with
  | none => rfl
  | some rk =>
    simp only [traceOps_get_eq, hmem]
    cases hg : (memGet s.mem rk).2 <;> rfl

theorem Put_zero_noop_out (H : Felt → Felt → Felt) (t : Trie) (k : Felt)
    (s : TraceSt) (out : TraceSt × Trie × Except TrieErr Unit)
    (habsent : s.mem (FeltToBitSet t.height k) = none)
    (hout : Put traceOps H t k 0 s = out) :
    out.1.mem = s.mem ∧ out.2.1 = t ∧
      (∃ new, out.1.trace = s.trace ++ new ∧ ∀ ev ∈ new, ev.isRead = true) := by
  cases hroot : t.rootKey with
  | none =>
    simp only [Put, hroot] at hout
    rw [if_pos trivial] at hout
    subst hout
    exact ⟨rfl, rfl, ⟨[], by simp, by simp⟩⟩
  | some rk =>
    simp only [Put, hroot] at hout
    split at hout
    · rename_i s1 e hrun
      subst hout
      obtain ⟨hmem, hext, _⟩ := nodesFromRoot_trace_eq t _ s s1 _ hrun
      exact ⟨hmem, rfl, hext⟩
    · rename_i s1 nodes hrun
      obtain ⟨hmem, hext, hprov⟩ := nodesFromRoot_trace_eq t _ s s1 _ hrun
      split at hout
      · subst hout
        exact ⟨hmem, rfl, hext⟩
      · rename_i sibling hlast
        split at hout
        · rename_i heqkey
          exfalso
          obtain ⟨front, hfr⟩ : ∃ front, nodes = front ++ [sibling] :=
            List.getLast?_eq_some_iff.mp hlast
          have hsmem : s.mem sibling.key = some sibling.node :=
            hprov nodes rfl sibling (by rw [hfr]; simp)
          rw [← heqkey, habsent] at hsmem
          cases hsmem
        · split at hout
          · subst hout
            exact ⟨hmem, rfl, hext⟩
          · rename_i hne
            exact absurd trivial hne

/-- C7.  `Put(k, 0)` on an empty trie, and on a non-empty trie whose store
holds no node at key `k`, is a no-op: it issues no store writes or deletes
(every emitted event is a read), leaves the store contents and `rootKey`
unchanged, and `Root()` returns the same value as before the call. -/
theorem claim_C7_put_zero_noop (H : Felt → Felt → Felt) (t : Trie) (k : Felt)
    (s : TraceSt) (habsent : s.mem (FeltToBitSet t.height k) = none) :
    (Put traceOps H t k 0 s).1.mem = s.mem ∧
    (Put traceOps H t k 0 s).2.1 = t ∧
    (∃ new, (Put traceOps H t k 0 s).1.trace = s.trace ++ new ∧
      ∀ ev ∈ new, ev.isRead = true) ∧
    (Root traceOps H (Put traceOps H t k 0 s).2.1 (Put traceOps H t k 0 s).1).2
      = (Root traceOps H t s).2 := by
  obtain ⟨hmem, htrie, hext⟩ := Put_zero_noop_out H t k s _ habsent rfl
  refine ⟨hmem, htrie, hext, ?_⟩
  rw [htrie]
  exact Root_trace_val H t s _ hmem

/-- C7 witness: writing zero at the absent key 0 of a single-leaf trie. -/
theorem claim_C7_witness :
    (fun q => if q = [true] then some (⟨5, none, none⟩ : Node) else none)
        (FeltToBitSet 1 0) = none ∧
    (Put traceOps (fun a b => a + b) ⟨1, some [true]⟩ 0 0
        ⟨fun q => if q = [true] then some ⟨5, none, none⟩ else none, []⟩).2.1
      = ⟨1, some [true]⟩ := by
  refine ⟨rfl, ?_⟩
  exact (claim_C7_put_zero_noop (fun a b => a + b) ⟨1, some [true]⟩ 0
    ⟨fun q => if q = [true] then some ⟨5, none, none⟩ else none, []⟩ rfl).2.1

-- ### Claim C2
-- ### Claim C2

/-- C2.  Starting from an empty trie, `Put(k, v)` with `v ≠ 0` followed by
`Put(k, 0)` leaves the trie empty again: `rootKey` is nil and `Root()`
returns the zero felt. -/
theorem claim_C2_delete_collapses (H : Felt → Felt → Felt) (height : Nat)
    (k v : Felt) (hv : v ≠ 0) :
    (Put memOps H
        (Put memOps H (freshTrie height) k v emptyStore).2.1 k 0
        (Put memOps H (freshTrie height) k v emptyStore).1).2.1.rootKey = none ∧
    (Root memOps H
      (Put memOps H
        (Put memOps H (freshTrie height) k v emptyStore).2.1 k 0
        (Put memOps H (freshTrie height) k v emptyStore).1).2.1
      (Put memOps H
        (Put memOps H (freshTrie height) k v emptyStore).2.1 k 0
        (Put memOps H (freshTrie height) k v emptyStore).1).1).2 = .ok 0 := by
  have h1 : Put memOps H (freshTrie height) k v emptyStore
      = (memPutF emptyStore (FeltToBitSet height k) ⟨v, none, none⟩,
         ⟨height, some (FeltToBitSet height k)⟩, .ok ()) := by
    simp only [Put, freshTrie]
    rw [if_neg hv]
    rfl
  have hrun : nodesFromRoot memOps (⟨height, some (FeltToBitSet height k)⟩ : Trie)
      (FeltToBitSet height k)
      (memPutF emptyStore (FeltToBitSet height k) ⟨v, none, none⟩)
      = (memPutF emptyStore (FeltToBitSet height k) ⟨v, none, none⟩,
         .ok [⟨FeltToBitSet height k, ⟨v, none, none⟩⟩]) := by
    unfold nodesFromRoot
    rw [nodesFromRootAux_succ_some]
    have hmem : memPutF emptyStore (FeltToBitSet height k) ⟨v, none, none⟩
        (FeltToBitSet height k) = some ⟨v, none, none⟩ := by
      unfold memPutF
      rw [if_pos rfl]
    rw [hmem]
    simp only []
    rw [if_pos (show (FeltToBitSet height k).length ≤ (FeltToBitSet height k).length ∨
        ((FindCommonKey (FeltToBitSet height k) (FeltToBitSet height k)).2 : Bool) = false
      from Or.inl (le_refl _))]
    rfl
  have h2 : Put memOps H (⟨height, some (FeltToBitSet height k)⟩ : Trie) k 0
      (memPutF emptyStore (FeltToBitSet height k) ⟨v, none, none⟩)
      = (memDelF (memPutF emptyStore (FeltToBitSet height k) ⟨v, none, none⟩)
          (FeltToBitSet height k),
         ⟨height, none⟩, .ok ()) := by
    simp only [Put]
    rw [hrun]
    have hlast : ([(⟨FeltToBitSet height k, ⟨v, none, none⟩⟩ : StorageNode)]).getLast?
        = some ⟨FeltToBitSet height k, ⟨v, none, none⟩⟩ := rfl
    simp only []
    rw [hlast]
    simp only []
    rw [if_pos trivial, if_pos trivial]
    rfl
  rw [h1]
  rw [h2]
  exact ⟨rfl, rfl⟩

/-- C2 witness. -/
theorem claim_C2_witness :
    (5 : Felt) ≠ 0 ∧
    (Put memOps (fun a b => a + b)
        (Put memOps (fun a b => a + b) (freshTrie 2) 3 5 emptyStore).2.1 3 0
        (Put memOps (fun a b => a + b) (freshTrie 2) 3 5 emptyStore).1).2.1.rootKey
      = none :=
  ⟨by decide,
   (claim_C2_delete_collapses (fun a b => a + b) 2 3 5 (by decide)).1⟩

-- ### Canonical form of the trie (claims C1, C8)

/-- Abstract sparse tree of a fixed height: each level splits on one key
bit; leaves sit at height 0. -/
inductive STree where
  | empty : STree
  | leaf (v : Felt) : STree
  | node (l r : STree) : STree
deriving DecidableEq, Repr

/-- The sparse tree of height `h` determined by an abstract key-value map
(keys are the MSB-first bit paths of length `h`). -/
def build (h : Nat) (m : BKey → Option Felt) : STree :=
  match h with
  | 0 =>
    match m [] with
    | none => .empty
    | some v => .leaf v
  | h + 1 => .node (build h (fun p => m (false :: p))) (build h (fun p => m (true :: p)))

/-- Dense (path-compressed) tree: every node is a stored trie node; edges
carry the extension bits below the discriminating bit. -/
inductive DTree where
  | leaf (v : Felt) : DTree
  | node (lext : BKey) (l : DTree) (rext : BKey) (r : DTree) : DTree
deriving DecidableEq, Repr

/-- Collapse a sparse tree to its dense form together with the bit path
from the sparse root down to the dense root; `none` for the empty tree. -/
def collapse : STree → Option (BKey × DTree)
  | .empty => none
  | .leaf v => some ([], .leaf v)
  | .node l r =>
    match collapse l, collapse r with
    | none, none => none
    | some (p, d), none => some (false :: p, d)
    | none, some (p, d) => some (true :: p, d)
    | some (pl, dl), some (pr, dr) => some ([], .node pl dl pr dr)

def canon (h : Nat) (m : BKey → Option Felt) : Option (BKey × DTree) :=
  collapse (build h m)

/-- `hash_of` applied to a raw stored value. -/
def nodeHashVal (H : Felt → Felt → Felt) (val : Felt) (rel : BKey) : Felt :=
  if rel.length = 0 then val else (H val (pathToFelt rel) + rel.length) % STARKP

/-- The stored commitment value of a dense subtree. -/
def dvalue (H : Felt → Felt → Felt) : DTree → Felt
  | .leaf v => v
  | .node pl dl pr dr =>
    H (nodeHashVal H (dvalue H dl) pl) (nodeHashVal H (dvalue H dr) pr)

/-- The stored node of a dense subtree whose root sits at absolute key
`abs`. -/
def dnode (H : Felt → Felt → Felt) (abs : BKey) : DTree → Node
  | .leaf v => ⟨v, none, none⟩
  | .node pl dl pr dr =>
    ⟨dvalue H (.node pl dl pr dr),
     some (abs ++ false :: pl), some (abs ++ true :: pr)⟩

/-- The canonical store contents of a dense tree rooted at `abs`. -/
def canonLookup (H : Felt → Felt → Felt) (abs : BKey) (D : DTree) (q : BKey) :
    Option Node :=
  if q = abs then some (dnode H abs D)
  else
    match D with
    | .leaf _ => none
    | .node pl dl pr dr =>
      match canonLookup H (abs ++ false :: pl) dl q with
      | some n => some n
      | none => canonLookup H (abs ++ true :: pr) dr q

/-- The key-value map stored below a dense tree rooted at `abs`. -/
def dmap (abs : BKey) (D : DTree) (q : BKey) : Option Felt :=
  match D with
  | .leaf v => if q = abs then some v else none
  | .node pl dl pr dr =>
    match dmap (abs ++ false :: pl) dl q with
    | some v => some v
    | none => dmap (abs ++ true :: pr) dr q

/-- Height bookkeeping of a dense tree: `dwf D hs` says it occupies a
subspace of height `hs` below its root key. -/
def dwf : DTree → Nat → Prop
  | .leaf _, hs => hs = 0
  | .node pl dl pr dr, hs =>
    pl.length < hs ∧ pr.length < hs ∧
      dwf dl (hs - 1 - pl.length) ∧ dwf dr (hs - 1 - pr.length)

/-- Map update with the engine's zero-deletes convention. -/
def mupd (m : BKey → Option Felt) (p : BKey) (v : Felt) : BKey → Option Felt :=
  fun q => if q = p then (if v = 0 then none else some v) else m q

/-- The canonical-state invariant: the trie and the store are exactly the
collapse of the abstract map. -/
def CanonInv (H : Felt → Felt → Felt) (h : Nat) (m : BKey → Option Felt)
    (t : Trie) (s : MemSt) : Prop :=
  t.height = h ∧
  match canon h m with
  | none => t.rootKey = none ∧ ∀ q, s q = none
  | some (rk, D) => t.rootKey = some rk ∧ ∀ q, s q = canonLookup H rk D q

/-- Pure dense insertion: region dense-root at relative prefix `p` holding
`d`; `ksuf` is the key's suffix relative to the region root; returns the
new (prefix, dense tree) of the region.  The unreachable patterns (guarded
by `dwf`) return placeholders. -/
def insD : BKey → DTree → BKey → Felt → BKey × DTree
  | [], .leaf _, _, v => ([], .leaf v)
  | [], .node pl dl pr dr, [], _ => ([], .node pl dl pr dr)
  | [], .node pl dl pr dr, b :: rest, v =>
    if b then
      let r := insD pr dr rest v
      ([], .node pl dl r.1 r.2)
    else
      let r := insD pl dl rest v
      ([], .node r.1 r.2 pr dr)
  | _ :: _, _, [], v => ([], .leaf v)
  | a :: p, d, b :: rest, v =>
    if a = b then
      let r := insD p d rest v
      (a :: r.1, r.2)
    else
      if b then ([], .node p d rest (.leaf v))
      else ([], .node rest (.leaf v) p d)

/-- Pure dense deletion; `none` when the region becomes empty. -/
def delD : BKey → DTree → BKey → Option (BKey × DTree)
  | [], .leaf _, _ => none
  | [], .node pl dl pr dr, [] => some ([], .node pl dl pr dr)
  | [], .node pl dl pr dr, b :: rest =>
    if b then
      match delD pr dr rest with
      | none => some (false :: pl, dl)
      | some (p', d') => some ([], .node pl dl p' d')
    else
      match delD pl dl rest with
      | none => some (true :: pr, dr)
      | some (p', d') => some ([], .node p' d' pr dr)
  | a :: p, d, [] => some (a :: p, d)
  | a :: p, d, b :: rest =>
    if a = b then
      match delD p d rest with
      | none => none
      | some (p', d') => some (a :: p', d')
    else some (a :: p, d)

def subMap (b : Bool) (m : BKey → Option Felt) : BKey → Option Felt :=
  fun p => m (b :: p)

theorem build_congr (h : Nat) :
    ∀ m₁ m₂ : BKey → Option Felt, (∀ p, m₁ p = m₂ p) →
      build h m₁ = build h m₂ := by
  induction h with
  | zero =>
    intro m₁ m₂ hm
    unfold build
    rw [hm []]
  | succ h ih =>
    intro m₁ m₂ hm
    unfold build
    rw [ih _ _ (fun p => hm (false :: p)), ih _ _ (fun p => hm (true :: p))]

theorem canon_congr (h : Nat) (m₁ m₂ : BKey → Option Felt)
    (hm : ∀ p, m₁ p = m₂ p) : canon h m₁ = canon h m₂ := by
  unfold canon
  rw [build_congr h m₁ m₂ hm]

theorem canon_succ (h : Nat) (m : BKey → Option Felt) :
    canon (h + 1) m =
      match canon h (subMap false m), canon h (subMap true m) with
      | none, none => none
      | some (p, d), none => some (false :: p, d)
      | none, some (p, d) => some (true :: p, d)
      | some (pl, dl), some (pr, dr) => some ([], .node pl dl pr dr) := rfl

theorem subMap_mupd_same (m : BKey → Option Felt) (b : Bool) (k : BKey) (v : Felt) :
    ∀ q, subMap b (mupd m (b :: k) v) q = mupd (subMap b m) k v q := by
  intro q
  unfold subMap mupd
  by_cases hq : q = k
  · rw [if_pos (by rw [hq]), if_pos hq]
  · rw [if_neg (by simpa using hq), if_neg hq]

theorem subMap_mupd_other (m : BKey → Option Felt) (b b' : Bool) (hbb : b' ≠ b)
    (k : BKey) (v : Felt) :
    ∀ q, subMap b' (mupd m (b :: k) v) q = subMap b' m q := by
  intro q
  unfold subMap mupd
  rw [if_neg]
  intro hcontra
  rw [List.cons.injEq] at hcontra
  exact hbb hcontra.1

/-- Inserting a non-zero value commutes with collapsing: the canonical
form of the updated map is the pure dense insertion. -/
theorem canon_mupd_ins : ∀ (h : Nat) (k : BKey) (m : BKey → Option Felt) (v : Felt),
    k.length = h → v ≠ 0 →
    canon h (mupd m k v) =
      (match canon h m with
      | none => some (k, .leaf v)
      | some (rk, D) => some (insD rk D k v)) := by
  intro h
  induction h with
  | zero =>
    intro k m v hk hv
    have hk0 : k = [] := List.eq_nil_of_length_eq_zero hk
    subst hk0
    have hupd : mupd m [] v [] = some v := by
      unfold mupd
      rw [if_pos rfl, if_neg hv]
    unfold canon build
    rw [hupd]
    cases hm : m [] <;> rfl
  | succ h ih =>
    intro k m v hk hv
    obtain ⟨b, k', rfl⟩ : ∃ b k', k = b :: k' := by
      cases k with
      | nil => simp at hk
      | cons b k' => exact ⟨b, k', rfl⟩
    have hk' : k'.length = h := by simpa using hk
    rw [canon_succ, canon_succ]
    cases b with
    | false =>
      have hsubf : canon h (subMap false (mupd m (false :: k') v)) =
          canon h (mupd (subMap false m) k' v) :=
        canon_congr h _ _ (subMap_mupd_same m false k' v)
      have hsubt : canon h (subMap true (mupd m (false :: k') v)) =
          canon h (subMap true m) :=
        canon_congr h _ _ (subMap_mupd_other m false true (by decide) k' v)
      rw [hsubf, hsubt, ih k' (subMap false m) v hk' hv]
      cases hcf : canon h (subMap false m) with
      | none =>
        cases hct : canon h (subMap true m) with
        | none => rfl
        | some pd =>
          obtain ⟨pt, dt⟩ := pd
          simp [insD]
      | some pd =>
        obtain ⟨pf, df⟩ := pd
        cases hct : canon h (subMap true m) with
        | none =>
          simp [insD]
        | some pd' =>
          obtain ⟨pt, dt⟩ := pd'
          simp [insD]
    | true =>
      have hsubf : canon h (subMap false (mupd m (true :: k') v)) =
          canon h (subMap false m) :=
        canon_congr h _ _ (subMap_mupd_other m true false (by decide) k' v)
      have hsubt : canon h (subMap true (mupd m (true :: k') v)) =
          canon h (mupd (subMap true m) k' v) :=
        canon_congr h _ _ (subMap_mupd_same m true k' v)
      rw [hsubf, hsubt, ih k' (subMap true m) v hk' hv]
      cases hcf : canon h (subMap false m) with
      | none =>
        cases hct : canon h (subMap true m) with
        | none => rfl
        | some pd =>
          obtain ⟨pt, dt⟩ := pd
          simp [insD]
      | some pd =>
        obtain ⟨pf, df⟩ := pd
        cases hct : canon h (subMap true m) with
        | none =>
          simp only [insD]
          rfl
        | some pd' =>
          obtain ⟨pt, dt⟩ := pd'
          simp only [insD, if_pos rfl]
          rfl

/-- Writing zero commutes with collapsing: the canonical form of the
updated map is the pure dense deletion. -/
theorem canon_mupd_del : ∀ (h : Nat) (k : BKey) (m : BKey → Option Felt),
    k.length = h →
    canon h (mupd m k 0) =
      (match canon h m with
      | none => none
      | some (rk, D) => delD rk D k) := by
  intro h
  induction h with
  | zero =>
    intro k m hk
    have hk0 : k = [] := List.eq_nil_of_length_eq_zero hk
    subst hk0
    have hupd : mupd m [] 0 [] = none := by
      unfold mupd
      rw [if_pos rfl, if_pos rfl]
    unfold canon build
    rw [hupd]
    cases hm : m [] <;> rfl
  | succ h ih =>
    intro k m hk
    obtain ⟨b, k', rfl⟩ : ∃ b k', k = b :: k' := by
      cases k with
      | nil => simp at hk
      | cons b k' => exact ⟨b, k', rfl⟩
    have hk' : k'.length = h := by simpa using hk
    rw [canon_succ, canon_succ]
    cases b with
    | false =>
      have hsubf : canon h (subMap false (mupd m (false :: k') 0)) =
          canon h (mupd (subMap false m) k' 0) :=
        canon_congr h _ _ (subMap_mupd_same m false k' 0)
      have hsubt : canon h (subMap true (mupd m (false :: k') 0)) =
          canon h (subMap true m) :=
        canon_congr h _ _ (subMap_mupd_other m false true (by decide) k' 0)
      rw [hsubf, hsubt, ih k' (subMap false m) hk']
      cases hcf : canon h (subMap false m) with
      | none =>
        cases hct : canon h (subMap true m) with
        | none => rfl
        | some pd =>
          obtain ⟨pt, dt⟩ := pd
          simp [delD]
      | some pd =>
        obtain ⟨pf, df⟩ := pd
        cases hdel : delD pf df k' with
        | none =>
          cases hct : canon h (subMap true m) with
          | none => simp [delD, hdel]
          | some pd' =>
            obtain ⟨pt, dt⟩ := pd'
            simp [delD, hdel]
        | some pd2 =>
          obtain ⟨p2, d2⟩ := pd2
          cases hct : canon h (subMap true m) with
          | none => simp [delD, hdel]
          | some pd' =>
            obtain ⟨pt, dt⟩ := pd'
            simp [delD, hdel]
    | true =>
      have hsubf : canon h (subMap false (mupd m (true :: k') 0)) =
          canon h (subMap false m) :=
        canon_congr h _ _ (subMap_mupd_other m true false (by decide) k' 0)
      have hsubt : canon h (subMap true (mupd m (true :: k') 0)) =
          canon h (mupd (subMap true m) k' 0) :=
        canon_congr h _ _ (subMap_mupd_same m true k' 0)
      rw [hsubf, hsubt, ih k' (subMap true m) hk']
      cases hct : canon h (subMap true m) with
      | none =>
        cases hcf : canon h (subMap false m) with
        | none => rfl
        | some pd =>
          obtain ⟨pf, df⟩ := pd
          simp [delD]
      | some pd =>
        obtain ⟨pt, dt⟩ := pd
        cases hdel : delD pt dt k' with
        | none =>
          cases hcf : canon h (subMap false m) with
          | none => simp [delD, hdel]
          | some pd' =>
            obtain ⟨pf, df⟩ := pd'
            simp [delD, hdel]
        | some pd2 =>
          obtain ⟨p2, d2⟩ := pd2
          cases hcf : canon h (subMap false m) with
          | none => simp [delD, hdel]
          | some pd' =>
            obtain ⟨pf, df⟩ := pd'
            simp [delD, hdel]

-- ### Structural lemmas about the canonical store and map

theorem prefix_clash (A x y q : BKey) (hf : A ++ false :: x <+: q)
    (ht : A ++ true :: y <+: q) : False := by
  obtain ⟨t1, ht1⟩ := hf
  obtain ⟨t2, ht2⟩ := ht
  rw [← ht2] at ht1
  rw [List.append_assoc, List.append_assoc] at ht1
  have := List.append_cancel_left ht1
  rw [List.cons_append, List.cons_append] at this
  exact Bool.false_ne_true (List.head_eq_of_cons_eq this)

theorem canonLookup_key_extends (H : Felt → Felt → Felt) :
    ∀ (D : DTree) (A q : BKey) (n : Node),
      canonLookup H A D q = some n → A <+: q := by
  intro D
  induction D with
  | leaf v =>
    intro A q n h
    unfold canonLookup at h
    by_cases hq : q = A
    · exact hq ▸ List.prefix_refl A
    · rw [if_neg hq] at h
      exact absurd h (by simp)
  | node pl dl pr dr ihl ihr =>
    intro A q n h
    unfold canonLookup at h
    by_cases hq : q = A
    · exact hq ▸ List.prefix_refl A
    · rw [if_neg hq] at h
      simp only [] at h
      cases hl : canonLookup H (A ++ false :: pl) dl q with
      | some m =>
        have := ihl (A ++ false :: pl) q m hl
        exact ((A.prefix_append (false :: pl)).trans this)
      | none =>
        rw [hl] at h
        have := ihr (A ++ true :: pr) q n h
        exact ((A.prefix_append (true :: pr)).trans this)

theorem canonLookup_self (H : Felt → Felt → Felt) (A : BKey) (D : DTree) :
    canonLookup H A D A = some (dnode H A D) := by
  unfold canonLookup
  cases D <;> rw [if_pos rfl]

theorem canonLookup_off (H : Felt → Felt → Felt) (D : DTree) (A q : BKey)
    (h : ¬ A <+: q) : canonLookup H A D q = none := by
  cases hc : canonLookup H A D q with
  | none => rfl
  | some n => exact absurd (canonLookup_key_extends H D A q n hc) h

theorem canonLookup_node_eq (H : Felt → Felt → Felt) (A pl pr q : BKey)
    (dl dr : DTree) (hne : q ≠ A) :
    canonLookup H A (.node pl dl pr dr) q =
      (match canonLookup H (A ++ false :: pl) dl q with
       | some n => some n
       | none => canonLookup H (A ++ true :: pr) dr q) := by
  conv_lhs => rw [canonLookup]
  rw [if_neg hne]

theorem canonLookup_left (H : Felt → Felt → Felt) (A pl pr q : BKey)
    (dl dr : DTree) (hq : A ++ false :: pl <+: q) :
    canonLookup H A (.node pl dl pr dr) q = canonLookup H (A ++ false :: pl) dl q := by
  have hne : q ≠ A := by
    intro hcontra
    have := hq.length_le
    simp [hcontra] at this
  rw [canonLookup_node_eq H A pl pr q dl dr hne]
  cases hl : canonLookup H (A ++ false :: pl) dl q with
  | some n => rfl
  | none =>
    cases hr : canonLookup H (A ++ true :: pr) dr q with
    | none => rfl
    | some n =>
      exact absurd (canonLookup_key_extends H dr _ q n hr)
        (fun hpre => prefix_clash A pl pr q hq hpre)

theorem canonLookup_right (H : Felt → Felt → Felt) (A pl pr q : BKey)
    (dl dr : DTree) (hq : A ++ true :: pr <+: q) :
    canonLookup H A (.node pl dl pr dr) q = canonLookup H (A ++ true :: pr) dr q := by
  have hne : q ≠ A := by
    intro hcontra
    have := hq.length_le
    simp [hcontra] at this
  rw [canonLookup_node_eq H A pl pr q dl dr hne]
  rw [canonLookup_off H dl (A ++ false :: pl) q
    (fun hpre => prefix_clash A pl pr q hpre hq)]

theorem dnode_value (H : Felt → Felt → Felt) (A : BKey) (D : DTree) :
    (dnode H A D).value = dvalue H D := by
  cases D <;> rfl

theorem TriePath_append (A x : BKey) (b : Bool) :
    TriePath (A ++ b :: x) (some A) = x := by
  have hlen : A.length < (A ++ b :: x).length := by
    simp
  rw [(TriePath_correct (A ++ b :: x) A hlen).1]
  rw [List.drop_append_eq_append_drop]
  simp

theorem dmap_key_extends : ∀ (D : DTree) (A q : BKey) (v : Felt),
    dmap A D q = some v → A <+: q := by
  intro D
  induction D with
  | leaf w =>
    intro A q v h
    unfold dmap at h
    by_cases hq : q = A
    · exact hq ▸ List.prefix_refl A
    · rw [if_neg hq] at h
      exact absurd h (by simp)
  | node pl dl pr dr ihl ihr =>
    intro A q v h
    unfold dmap at h
    cases hl : dmap (A ++ false :: pl) dl q with
    | some w =>
      exact (A.prefix_append (false :: pl)).trans (ihl _ q w hl)
    | none =>
      rw [hl] at h
      exact (A.prefix_append (true :: pr)).trans (ihr _ q v h)

theorem dmap_off (D : DTree) (A q : BKey) (h : ¬ A <+: q) :
    dmap A D q = none := by
  cases hc : dmap A D q with
  | none => rfl
  | some v => exact absurd (dmap_key_extends D A q v hc) h

theorem dmap_cons (c : Bool) : ∀ (D : DTree) (A q : BKey),
    dmap (c :: A) D (c :: q) = dmap A D q := by
  intro D
  induction D with
  | leaf v =>
    intro A q
    unfold dmap
    by_cases hq : q = A
    · rw [if_pos (by rw [hq]), if_pos hq]
    · rw [if_neg (by simpa using hq), if_neg hq]
  | node pl dl pr dr ihl ihr =>
    intro A q
    unfold dmap
    rw [show (c :: A) ++ false :: pl = c :: (A ++ false :: pl) from rfl,
        show (c :: A) ++ true :: pr = c :: (A ++ true :: pr) from rfl,
        ihl, ihr]

theorem build_congr_len (h : Nat) :
    ∀ m₁ m₂ : BKey → Option Felt, (∀ p, p.length = h → m₁ p = m₂ p) →
      build h m₁ = build h m₂ := by
  induction h with
  | zero =>
    intro m₁ m₂ hm
    unfold build
    rw [hm [] rfl]
  | succ h ih =>
    intro m₁ m₂ hm
    unfold build
    rw [ih _ _ (fun p hp => hm (false :: p) (by simpa using hp)),
        ih _ _ (fun p hp => hm (true :: p) (by simpa using hp))]

theorem canon_congr_len (h : Nat) (m₁ m₂ : BKey → Option Felt)
    (hm : ∀ p, p.length = h → m₁ p = m₂ p) : canon h m₁ = canon h m₂ := by
  unfold canon
  rw [build_congr_len h m₁ m₂ hm]

theorem canon_none : ∀ (h : Nat) (m : BKey → Option Felt), canon h m = none →
    ∀ q : BKey, q.length = h → m q = none := by
  intro h
  induction h with
  | zero =>
    intro m hc q hq
    have hq0 : q = [] := List.eq_nil_of_length_eq_zero hq
    subst hq0
    unfold canon build at hc
    cases hm : m [] with
    | none => rfl
    | some v => rw [hm] at hc; exact absurd hc (by simp [collapse])
  | succ h ih =>
    intro m hc q hq
    rw [canon_succ] at hc
    obtain ⟨b, q', rfl⟩ : ∃ b q', q = b :: q' := by
      cases q with
      | nil => simp at hq
      | cons b q' => exact ⟨b, q', rfl⟩
    have hq' : q'.length = h := by simpa using hq
    cases hcf : canon h (subMap false m) with
    | some pd => rw [hcf] at hc; obtain ⟨p, d⟩ := pd
                 cases hct : canon h (subMap true m) with
                 | none => rw [hct] at hc; exact absurd hc (by simp)
                 | some pd' => rw [hct] at hc; obtain ⟨p', d'⟩ := pd'; exact absurd hc (by simp)
    | none =>
      rw [hcf] at hc
      cases hct : canon h (subMap true m) with
      | some pd => rw [hct] at hc; obtain ⟨p, d⟩ := pd; exact absurd hc (by simp)
      | none =>
        cases b with
        | false => exact ih (subMap false m) hcf q' hq'
        | true => exact ih (subMap true m) hct q' hq'

theorem canon_dwf : ∀ (h : Nat) (m : BKey → Option Felt) (rk : BKey) (D : DTree),
    canon h m = some (rk, D) → rk.length ≤ h ∧ dwf D (h - rk.length) := by
  intro h
  induction h with
  | zero =>
    intro m rk D hc
    unfold canon build at hc
    cases hm : m [] with
    | none => rw [hm] at hc; exact absurd hc (by simp [collapse])
    | some v =>
      rw [hm] at hc
      simp only [collapse, Option.some.injEq, Prod.mk.injEq] at hc
      obtain ⟨hrk, hD⟩ := hc
      subst hrk; subst hD
      exact ⟨Nat.le_refl 0, rfl⟩
  | succ h ih =>
    intro m rk D hc
    rw [canon_succ] at hc
    cases hcf : canon h (subMap false m) with
    | none =>
      rw [hcf] at hc
      cases hct : canon h (subMap true m) with
      | none => rw [hct] at hc; exact absurd hc (by simp)
      | some pd =>
        obtain ⟨pt, dt⟩ := pd
        rw [hct] at hc
        simp only [Option.some.injEq, Prod.mk.injEq] at hc
        obtain ⟨hrk, hD⟩ := hc
        subst hrk; subst hD
        obtain ⟨hl, hw⟩ := ih (subMap true m) pt dt hct
        refine ⟨by simpa using Nat.succ_le_succ hl, ?_⟩
        have : h + 1 - (true :: pt).length = h - pt.length := by simp
        rw [this]
        exact hw
    | some pd =>
      obtain ⟨pf, df⟩ := pd
      rw [hcf] at hc
      cases hct : canon h (subMap true m) with
      | none =>
        rw [hct] at hc
        simp only [Option.some.injEq, Prod.mk.injEq] at hc
        obtain ⟨hrk, hD⟩ := hc
        subst hrk; subst hD
        obtain ⟨hl, hw⟩ := ih (subMap false m) pf df hcf
        refine ⟨by simpa using Nat.succ_le_succ hl, ?_⟩
        have : h + 1 - (false :: pf).length = h - pf.length := by simp
        rw [this]
        exact hw
        | some pd' =>
        obtain ⟨pt, dt⟩ := pd'
        rw [hct] at hc
        simp only [Option.some.injEq, Prod.mk.injEq] at hc
        obtain ⟨hrk, hD⟩ := hc
        subst hrk; subst hD
        obtain ⟨hlf, hwf⟩ := ih (subMap false m) pf df hcf
        obtain ⟨hlt, hwt⟩ := ih (subMap true m) pt dt hct
        refine ⟨Nat.zero_le _, ?_⟩
        simp only [List.length_nil, Nat.sub_zero]
        refine ⟨by omega, by omega, ?_, ?_⟩
        · have : h + 1 - 1 - pf.length = h - pf.length := by omega
          rw [this]; exact hwf
        · have : h + 1 - 1 - pt.length = h - pt.length := by omega
          rw [this]; exact hwt

theorem dmap_node_eq (A pl pr q : BKey) (dl dr : DTree) :
    dmap A (.node pl dl pr dr) q =
      (match dmap (A ++ false :: pl) dl q with
       | some v => some v
       | none => dmap (A ++ true :: pr) dr q) := by
  conv_lhs => rw [dmap]

theorem dmap_canon : ∀ (h : Nat) (m : BKey → Option Felt) (rk : BKey) (D : DTree),
    canon h m = some (rk, D) →
    ∀ q : BKey, q.length = h → m q = dmap rk D q := by
  intro h
  induction h with
  | zero =>
    intro m rk D hc q hq
    have hq0 : q = [] := List.eq_nil_of_length_eq_zero hq
    subst hq0
    unfold canon build at hc
    cases hm : m [] with
    | none => rw [hm] at hc; exact absurd hc (by simp [collapse])
    | some v =>
      rw [hm] at hc
      simp only [collapse, Option.some.injEq, Prod.mk.injEq] at hc
      obtain ⟨hrk, hD⟩ := hc
      subst hrk; subst hD
      simp [dmap, hm]
  | succ h ih =>
    intro m rk D hc q hq
    rw [canon_succ] at hc
    obtain ⟨b, q', rfl⟩ : ∃ b q', q = b :: q' := by
      cases q with
      | nil => simp at hq
      | cons b q' => exact ⟨b, q', rfl⟩
    have hq' : q'.length = h := by simpa using hq
    cases hcf : canon h (subMap false m) with
    | none =>
      rw [hcf] at hc
      cases hct : canon h (subMap true m) with
      | none => rw [hct] at hc; exact absurd hc (by simp)
      | some pd =>
        obtain ⟨pt, dt⟩ := pd
        rw [hct] at hc
        simp only [Option.some.injEq, Prod.mk.injEq] at hc
        obtain ⟨hrk, hD⟩ := hc
        subst hrk; subst hD
        cases b with
        | false =>
          have h0 : m (false :: q') = none := canon_none h (subMap false m) hcf q' hq'
          rw [h0]
          rw [dmap_off dt (true :: pt) (false :: q') (by
            intro hcontra
            obtain ⟨t, ht⟩ := hcontra
            exact Bool.noConfusion (List.head_eq_of_cons_eq ht))]
        | true =>
          have := ih (subMap true m) pt dt hct q' hq'
          rw [show subMap true m q' = m (true :: q') from rfl] at this
          rw [this, dmap_cons]
    | some pd =>
      obtain ⟨pf, df⟩ := pd
      rw [hcf] at hc
      cases hct : canon h (subMap true m) with
      | none =>
        rw [hct] at hc
        simp only [Option.some.injEq, Prod.mk.injEq] at hc
        obtain ⟨hrk, hD⟩ := hc
        subst hrk; subst hD
        cases b with
        | true =>
          have h0 : m (true :: q') = none := canon_none h (subMap true m) hct q' hq'
          rw [h0]
          rw [dmap_off df (false :: pf) (true :: q') (by
            intro hcontra
            obtain ⟨t, ht⟩ := hcontra
            exact Bool.false_ne_true (List.head_eq_of_cons_eq ht))]
        | false =>
          have := ih (subMap false m) pf df hcf q' hq'
          rw [show subMap false m q' = m (false :: q') from rfl] at this
          rw [this, dmap_cons]
      | some pd' =>
        obtain ⟨pt, dt⟩ := pd'
        rw [hct] at hc
        simp only [Option.some.injEq, Prod.mk.injEq] at hc
        obtain ⟨hrk, hD⟩ := hc
        subst hrk; subst hD
        cases b with
        | false =>
          have h1 : m (false :: q') = dmap pf df q' := ih (subMap false m) pf df hcf q' hq'
          rw [h1, dmap_node_eq,
              show ([] : BKey) ++ false :: pf = false :: pf from rfl,
              show ([] : BKey) ++ true :: pt = true :: pt from rfl,
              dmap_cons]
          cases hdl : dmap pf df q' with
          | some v => rfl
          | none =>
            rw [dmap_off dt (true :: pt) (false :: q') (by
              intro hcontra
              obtain ⟨t, ht⟩ := hcontra
              exact Bool.noConfusion (List.head_eq_of_cons_eq ht))]
        | true =>
          have h1 : m (true :: q') = dmap pt dt q' := ih (subMap true m) pt dt hct q' hq'
          rw [h1, dmap_node_eq,
              show ([] : BKey) ++ false :: pf = false :: pf from rfl,
              show ([] : BKey) ++ true :: pt = true :: pt from rfl,
              dmap_off df (false :: pf) (true :: q') (by
                intro hcontra
                obtain ⟨t, ht⟩ := hcontra
                exact Bool.false_ne_true (List.head_eq_of_cons_eq ht)),
              dmap_cons]

/-- At a full-depth key, the canonical store holds exactly the leaf nodes
of the canonical map. -/
theorem canonLookup_at_depth (H : Felt → Felt → Felt) (h : Nat) :
    ∀ (D : DTree) (abs q : BKey), dwf D (h - abs.length) → abs.length ≤ h →
      q.length = h →
      ((∀ v, dmap abs D q = some v → canonLookup H abs D q = some ⟨v, none, none⟩) ∧
       (dmap abs D q = none → canonLookup H abs D q = none)) := by
  intro D
  induction D with
  | leaf w =>
    intro abs q hwf habs hq
    constructor
    · intro v hv
      unfold dmap at hv
      by_cases hqa : q = abs
      · rw [if_pos hqa] at hv
        rw [hqa, canonLookup_self]
        simp only [Option.some.injEq] at hv
        rw [← hv]
        rfl
      · rw [if_neg hqa] at hv
        exact absurd hv (by simp)
    · intro hv
      unfold dmap at hv
      by_cases hqa : q = abs
      · rw [if_pos hqa] at hv
        exact absurd hv (by simp)
      · unfold canonLookup
        rw [if_neg hqa]
  | node pl dl pr dr ihl ihr =>
    intro abs q hwf habs hq
    obtain ⟨hpl, hpr, hwl, hwr⟩ := hwf
    have hqa : q ≠ abs := by
      intro hcontra
      rw [hcontra] at hq
      omega
    have habsl : (abs ++ false :: pl).length ≤ h := by
      simp only [List.length_append, List.length_cons]
      omega
    have habsr : (abs ++ true :: pr).length ≤ h := by
      simp only [List.length_append, List.length_cons]
      omega
    have hwl' : dwf dl (h - (abs ++ false :: pl).length) := by
      have : h - (abs ++ false :: pl).length = h - abs.length - 1 - pl.length := by
        simp only [List.length_append, List.length_cons]
        omega
      rw [this]
      exact hwl
    have hwr' : dwf dr (h - (abs ++ true :: pr).length) := by
      have : h - (abs ++ true :: pr).length = h - abs.length - 1 - pr.length := by
        simp only [List.length_append, List.length_cons]
        omega
      rw [this]
      exact hwr
    obtain ⟨ihl1, ihl2⟩ := ihl (abs ++ false :: pl) q hwl' habsl hq
    obtain ⟨ihr1, ihr2⟩ := ihr (abs ++ true :: pr) q hwr' habsr hq
    rw [dmap_node_eq, canonLookup_node_eq H abs pl pr q dl dr hqa]
    constructor
    · intro v hv
      cases hdl : dmap (abs ++ false :: pl) dl q with
      | some w =>
        rw [hdl] at hv
        simp only [Option.some.injEq] at hv
        rw [ihl1 w hdl, hv]
      | none =>
        rw [hdl] at hv
        rw [ihl2 hdl, ihr1 v hv]
    · intro hv
      cases hdl : dmap (abs ++ false :: pl) dl q with
      | some w => rw [hdl] at hv; exact absurd hv (by simp)
      | none =>
        rw [hdl] at hv
        rw [ihl2 hdl, ihr2 hv]

theorem lcp_append : ∀ (W x y : BKey),
    lcpSpec (W ++ x) (W ++ y) = W ++ lcpSpec x y := by
  intro W
  induction W with
  | nil => intro x y; rfl
  | cons c W ih =>
    intro x y
    simp only [List.cons_append]
    simp only [lcpSpec, if_true]
    rw [ih]

theorem mupd_zero_absent (m : BKey → Option Felt) (k : BKey) (hm : m k = none) :
    ∀ q, mupd m k 0 q = m q := by
  intro q
  unfold mupd
  by_cases hq : q = k
  · rw [if_pos hq, if_pos rfl, hq, hm]
  · rw [if_neg hq]

/-- The descent spine on the canonical store: region roots from `(A, D)`
toward `key`, each with its full canonical node. -/
def spineD (H : Felt → Felt → Felt) (key : BKey) : BKey → DTree → List StorageNode
  | A, .leaf v => [⟨A, ⟨v, none, none⟩⟩]
  | A, .node pl dl pr dr =>
    ⟨A, dnode H A (.node pl dl pr dr)⟩ ::
      (if A <+: key then
        (if key.getD A.length false then spineD H key (A ++ true :: pr) dr
         else spineD H key (A ++ false :: pl) dl)
       else [])

theorem spineD_ne_nil (H : Felt → Felt → Felt) (key A : BKey) (D : DTree) :
    spineD H key A D ≠ [] := by
  cases D <;> simp [spineD]

/-- The chain predicate checked by `propagateValues`: the list descends one
region per element, carrying correct child links; only the last element may
be an internal node, and a leaf element carries its exact canonical node. -/
def ChainOK : BKey → DTree → List StorageNode → Prop
  | A, .leaf v, C => C = [⟨A, ⟨v, none, none⟩⟩]
  | A, .node pl dl pr dr, C =>
    (∃ val, C = [⟨A, ⟨val, some (A ++ false :: pl), some (A ++ true :: pr)⟩⟩]) ∨
    (∃ val C', C = ⟨A, ⟨val, some (A ++ false :: pl), some (A ++ true :: pr)⟩⟩ :: C' ∧
       (ChainOK (A ++ false :: pl) dl C' ∨ ChainOK (A ++ true :: pr) dr C'))

theorem ChainOK_keys_extend : ∀ (D : DTree) (A : BKey) (C : List StorageNode),
    ChainOK A D C → ∀ x ∈ C, A <+: x.key := by
  intro D
  induction D with
  | leaf v =>
    intro A C hC x hx
    unfold ChainOK at hC
    subst hC
    simp only [List.mem_singleton] at hx
    subst hx
    exact List.prefix_refl A
  | node pl dl pr dr ihl ihr =>
    intro A C hC x hx
    unfold ChainOK at hC
    rcases hC with ⟨val, rfl⟩ | ⟨val, C', rfl, hsub⟩
    · simp only [List.mem_singleton] at hx
      subst hx
      exact List.prefix_refl A
    · rcases List.mem_cons.mp hx with rfl | hx'
      · exact List.prefix_refl A
      · rcases hsub with hl | hr
        · exact (A.prefix_append (false :: pl)).trans (ihl _ C' hl x hx')
        · exact (A.prefix_append (true :: pr)).trans (ihr _ C' hr x hx')

/-- E1: on a canonical store, the descent succeeds without modifying the
store and returns exactly the canonical spine toward the key. -/
theorem nodesFromRootAux_canon (H : Felt → Felt → Felt) (h : Nat) (key : BKey)
    (hkey : key.length = h) (hU : h < U64) :
    ∀ (D : DTree) (A : BKey) (s : MemSt) (fuel : Nat) (nodes : List StorageNode),
      (∀ q, A <+: q → s q = canonLookup H A D q) →
      dwf D (h - A.length) → A.length ≤ h →
      h - A.length + 1 ≤ fuel →
      nodesFromRootAux memOps key fuel (some A) nodes s =
        (s, .ok (nodes ++ spineD H key A D)) := by
  intro D
  induction D with
  | leaf v =>
    intro A s fuel nodes hs hwf habs hfuel
    obtain ⟨f, rfl⟩ : ∃ f, fuel = f + 1 := ⟨fuel - 1, by omega⟩
    rw [nodesFromRootAux_succ_some]
    rw [hs A (List.prefix_refl A), canonLookup_self]
    simp only []
    have hlen : A.length = h := by
      unfold dwf at hwf
      omega
    rw [if_pos (Or.inl (by rw [hkey, hlen]))]
    rfl
  | node pl dl pr dr ihl ihr =>
    intro A s fuel nodes hs hwf habs hfuel
    obtain ⟨hpl, hpr, hwl, hwr⟩ := hwf
    have hlt : A.length < h := by omega
    obtain ⟨f, rfl⟩ : ∃ f, fuel = f + 1 := ⟨fuel - 1, by omega⟩
    rw [nodesFromRootAux_succ_some]
    rw [hs A (List.prefix_refl A), canonLookup_self]
    simp only []
    have hflag : (FindCommonKey key A).2 = decide (A <+: key) := by
      rw [FindCommonKey_correct key A (by omega) (by omega)]
    by_cases hpre : A <+: key
    · rw [if_neg (by
        push_neg
        refine ⟨by omega, ?_⟩
        rw [hflag]
        simpa using hpre)]
      have hdn : dnode H A (.node pl dl pr dr) =
          ⟨dvalue H (.node pl dl pr dr), some (A ++ false :: pl),
           some (A ++ true :: pr)⟩ := rfl
      rw [hdn]
      by_cases hbit : key.getD A.length false
      · rw [if_pos hbit]
        have hstep := ihr (A ++ true :: pr) s f (nodes ++ [⟨A, dnode H A (.node pl dl pr dr)⟩])
          (fun q hq => by
            rw [hs q ((A.prefix_append (true :: pr)).trans hq)]
            exact canonLookup_right H A pl pr q dl dr hq)
          (by
            have : h - (A ++ true :: pr).length = h - A.length - 1 - pr.length := by
              simp only [List.length_append, List.length_cons]; omega
            rw [this]; exact hwr)
          (by simp only [List.length_append, List.length_cons]; omega)
          (by simp only [List.length_append, List.length_cons]; omega)
        rw [hdn] at hstep
        rw [hstep]
        rw [show spineD H key A (.node pl dl pr dr) =
          ⟨A, dnode H A (.node pl dl pr dr)⟩ ::
            (if A <+: key then
              (if key.getD A.length false then spineD H key (A ++ true :: pr) dr
               else spineD H key (A ++ false :: pl) dl)
             else []) from rfl]
        rw [if_pos hpre, if_pos hbit, hdn]
        simp
      · rw [if_neg hbit]
        have hstep := ihl (A ++ false :: pl) s f (nodes ++ [⟨A, dnode H A (.node pl dl pr dr)⟩])
          (fun q hq => by
            rw [hs q ((A.prefix_append (false :: pl)).trans hq)]
            exact canonLookup_left H A pl pr q dl dr hq)
          (by
            have : h - (A ++ false :: pl).length = h - A.length - 1 - pl.length := by
              simp only [List.length_append, List.length_cons]; omega
            rw [this]; exact hwl)
          (by simp only [List.length_append, List.length_cons]; omega)
          (by simp only [List.length_append, List.length_cons]; omega)
        rw [hdn] at hstep
        rw [hstep]
        rw [show spineD H key A (.node pl dl pr dr) =
          ⟨A, dnode H A (.node pl dl pr dr)⟩ ::
            (if A <+: key then
              (if key.getD A.length false then spineD H key (A ++ true :: pr) dr
               else spineD H key (A ++ false :: pl) dl)
             else []) from rfl]
        rw [if_pos hpre, if_neg hbit, hdn]
        simp
    · rw [if_pos (Or.inr (by rw [hflag]; simpa using hpre))]
      rw [show spineD H key A (.node pl dl pr dr) =
        ⟨A, dnode H A (.node pl dl pr dr)⟩ ::
          (if A <+: key then
            (if key.getD A.length false then spineD H key (A ++ true :: pr) dr
             else spineD H key (A ++ false :: pl) dl)
           else []) from rfl]
      rw [if_neg hpre]

theorem nodesFromRoot_canon (H : Felt → Felt → Felt) (h : Nat) (key rk : BKey)
    (D : DTree) (s : MemSt) (hkey : key.length = h) (hU : h < U64)
    (hs : ∀ q, rk <+: q → s q = canonLookup H rk D q)
    (hwf : dwf D (h - rk.length)) (hrk : rk.length ≤ h) :
    nodesFromRoot memOps ⟨h, some rk⟩ key s = (s, .ok (spineD H key rk D)) := by
  unfold nodesFromRoot
  rw [nodesFromRootAux_canon H h key hkey hU D rk s (key.length + 1) [] hs hwf hrk
    (by omega)]
  rfl

theorem nodeHash_dnode (H : Felt → Felt → Felt) (B : BKey) (dsub : DTree)
    (p : BKey) : nodeHash H (dnode H B dsub) p = nodeHashVal H (dvalue H dsub) p := by
  unfold nodeHash nodeHashVal
  rw [dnode_value]

theorem processNode_mem_leaf (H : Felt → Felt → Felt) (A : BKey) (v : Felt)
    (s : MemSt) :
    processNode memOps H ⟨A, ⟨v, none, none⟩⟩ s =
      (memPutF s A ⟨v, none, none⟩, .ok ()) := by
  unfold processNode
  rw [if_neg (by simp)]
  rfl

theorem processNode_mem_node (H : Felt → Felt → Felt) (A kl kr : BKey)
    (val : Felt) (lN rN : Node) (s : MemSt) (hl : s kl = some lN)
    (hr : s kr = some rN) :
    processNode memOps H ⟨A, ⟨val, some kl, some kr⟩⟩ s =
      (memPutF s A
        ⟨H (nodeHash H lN (TriePath kl (some A))) (nodeHash H rN (TriePath kr (some A))),
         some kl, some kr⟩, .ok ()) := by
  unfold processNode
  rw [if_neg (by simp)]
  simp only [memOps, memGet, hl, hr]
  rfl

theorem propagateValues_cons_ok {σ} (st : StoOps σ) (H : Felt → Felt → Felt)
    (c : StorageNode) (rest : List StorageNode) (s s₁ : σ)
    (h : propagateValues st H rest s = (s₁, .ok ())) :
    propagateValues st H (c :: rest) s = processNode st H c s₁ := by
  simp only [propagateValues, h]

/-- E2: `propagateValues` on a valid chain over a store that is canonical
off the chain rewrites exactly the chain keys, leaving a store canonical
on the whole region and untouched outside it. -/
theorem propagate_chain (H : Felt → Felt → Felt) :
    ∀ (D : DTree) (A : BKey) (C : List StorageNode), ChainOK A D C →
      ∀ s : MemSt,
      (∀ q, A <+: q → (∀ x ∈ C, q ≠ x.key) → s q = canonLookup H A D q) →
      ∃ s', propagateValues memOps H C s = (s', .ok ()) ∧
        (∀ q, A <+: q → s' q = canonLookup H A D q) ∧
        (∀ q, ¬ A <+: q → s' q = s q) := by
  intro D
  induction D with
  | leaf v =>
    intro A C hC s hs
    unfold ChainOK at hC
    subst hC
    refine ⟨memPutF s A ⟨v, none, none⟩, ?_, ?_, ?_⟩
    · rw [propagateValues_cons_ok memOps H _ [] s s rfl]
      exact processNode_mem_leaf H A v s
    · intro q hq
      unfold memPutF
      by_cases hqa : q = A
      · rw [if_pos hqa, hqa, canonLookup_self]
        rfl
      · rw [if_neg hqa]
        exact hs q hq (by
          intro x hx
          simp only [List.mem_singleton] at hx
          subst hx
          exact hqa)
    · intro q hq
      unfold memPutF
      rw [if_neg (by
          intro hqa
          subst hqa
          exact hq (List.prefix_refl _))]
  | node pl dl pr dr ihl ihr =>
    intro A C hC s hs
    have hoffl : ¬ (A ++ false :: pl <+: A ++ true :: pr) :=
      fun hpre => prefix_clash A pl pr (A ++ true :: pr) hpre (List.prefix_refl _)
    have hoffr : ¬ (A ++ true :: pr <+: A ++ false :: pl) :=
      fun hpre => prefix_clash A pl pr (A ++ false :: pl) (List.prefix_refl _) hpre
    rcases hC with ⟨val, rfl⟩ | ⟨val, C', rfl, hsub⟩
    · -- single internal element: recompute from the two canonical children
      have hgl : s (A ++ false :: pl) = some (dnode H (A ++ false :: pl) dl) := by
        rw [hs (A ++ false :: pl) (A.prefix_append _) (by
          intro x hx
          simp only [List.mem_singleton] at hx
          subst hx
          simp)]
        rw [canonLookup_left H A pl pr _ dl dr (List.prefix_refl _), canonLookup_self]
      have hgr : s (A ++ true :: pr) = some (dnode H (A ++ true :: pr) dr) := by
        rw [hs (A ++ true :: pr) (A.prefix_append _) (by
          intro x hx
          simp only [List.mem_singleton] at hx
          subst hx
          simp)]
        rw [canonLookup_right H A pl pr _ dl dr (List.prefix_refl _), canonLookup_self]
      refine ⟨memPutF s A (dnode H A (.node pl dl pr dr)), ?_, ?_, ?_⟩
      · rw [propagateValues_cons_ok memOps H _ [] s s rfl]
        rw [processNode_mem_node H A _ _ val _ _ s hgl hgr]
        rw [TriePath_append A pl false, TriePath_append A pr true,
            nodeHash_dnode, nodeHash_dnode]
        rfl
      · intro q hq
        unfold memPutF
        by_cases hqa : q = A
        · rw [if_pos hqa, hqa, canonLookup_self]
        · rw [if_neg hqa]
          exact hs q hq (by
            intro x hx
            simp only [List.mem_singleton] at hx
            subst hx
            exact hqa)
      · intro q hq
        unfold memPutF
        rw [if_neg (by
          intro hqa
          subst hqa
          exact hq (List.prefix_refl _))]
    · -- chain continues into one child
      rcases hsub with hl | hr
      · have hkeys := ChainOK_keys_extend dl (A ++ false :: pl) C' hl
        obtain ⟨s₁, hrun, hpost1, hpost2⟩ := ihl (A ++ false :: pl) C' hl s (by
          intro q hq hq2
          rw [hs q ((A.prefix_append _).trans hq) (by
            intro x hx
            rcases List.mem_cons.mp hx with rfl | hx'
            · intro hqa
              have := hq.length_le
              simp only [hqa, List.length_append, List.length_cons] at this
              omega
            · exact hq2 x hx')]
          exact canonLookup_left H A pl pr q dl dr hq)
        have hgl : s₁ (A ++ false :: pl) = some (dnode H (A ++ false :: pl) dl) := by
          rw [hpost1 _ (List.prefix_refl _), canonLookup_self]
        have hgr : s₁ (A ++ true :: pr) = some (dnode H (A ++ true :: pr) dr) := by
          rw [hpost2 _ hoffl]
          rw [hs (A ++ true :: pr) (A.prefix_append _) (by
            intro x hx
            rcases List.mem_cons.mp hx with rfl | hx'
            · simp
            · intro hqa
              apply hoffl
              rw [hqa]
              exact hkeys x hx')]
          rw [canonLookup_right H A pl pr _ dl dr (List.prefix_refl _), canonLookup_self]
        refine ⟨memPutF s₁ A (dnode H A (.node pl dl pr dr)), ?_, ?_, ?_⟩
        · rw [propagateValues_cons_ok memOps H _ C' s s₁ hrun]
          rw [processNode_mem_node H A _ _ val _ _ s₁ hgl hgr]
          rw [TriePath_append A pl false, TriePath_append A pr true,
              nodeHash_dnode, nodeHash_dnode]
          rfl
        · intro q hq
          unfold memPutF
          by_cases hqa : q = A
          · rw [if_pos hqa, hqa, canonLookup_self]
          · rw [if_neg hqa]
            by_cases hql : A ++ false :: pl <+: q
            · rw [hpost1 q hql]
              exact (canonLookup_left H A pl pr q dl dr hql).symm
            · rw [hpost2 q hql]
              rw [hs q hq (by
                intro x hx
                rcases List.mem_cons.mp hx with rfl | hx'
                · exact hqa
                · intro hqa2
                  apply hql
                  rw [hqa2]
                  exact hkeys x hx')]
        · intro q hq
          unfold memPutF
          rw [if_neg (by
          intro hqa
          subst hqa
          exact hq (List.prefix_refl _))]
          exact hpost2 q (fun hql => hq ((A.prefix_append _).trans hql))
      · have hkeys := ChainOK_keys_extend dr (A ++ true :: pr) C' hr
        obtain ⟨s₁, hrun, hpost1, hpost2⟩ := ihr (A ++ true :: pr) C' hr s (by
          intro q hq hq2
          rw [hs q ((A.prefix_append _).trans hq) (by
            intro x hx
            rcases List.mem_cons.mp hx with rfl | hx'
            · intro hqa
              have := hq.length_le
              simp only [hqa, List.length_append, List.length_cons] at this
              omega
            · exact hq2 x hx')]
          exact canonLookup_right H A pl pr q dl dr hq)
        have hgr : s₁ (A ++ true :: pr) = some (dnode H (A ++ true :: pr) dr) := by
          rw [hpost1 _ (List.prefix_refl _), canonLookup_self]
        have hgl : s₁ (A ++ false :: pl) = some (dnode H (A ++ false :: pl) dl) := by
          rw [hpost2 _ hoffr]
          rw [hs (A ++ false :: pl) (A.prefix_append _) (by
            intro x hx
            rcases List.mem_cons.mp hx with rfl | hx'
            · simp
            · intro hqa
              apply hoffr
              rw [hqa]
              exact hkeys x hx')]
          rw [canonLookup_left H A pl pr _ dl dr (List.prefix_refl _), canonLookup_self]
        refine ⟨memPutF s₁ A (dnode H A (.node pl dl pr dr)), ?_, ?_, ?_⟩
        · rw [propagateValues_cons_ok memOps H _ C' s s₁ hrun]
          rw [processNode_mem_node H A _ _ val _ _ s₁ hgl hgr]
          rw [TriePath_append A pl false, TriePath_append A pr true,
              nodeHash_dnode, nodeHash_dnode]
          rfl
        · intro q hq
          unfold memPutF
          by_cases hqa : q = A
          · rw [if_pos hqa, hqa, canonLookup_self]
          · rw [if_neg hqa]
            by_cases hql : A ++ true :: pr <+: q
            · rw [hpost1 q hql]
              exact (canonLookup_right H A pl pr q dl dr hql).symm
            · rw [hpost2 q hql]
              rw [hs q hq (by
                intro x hx
                rcases List.mem_cons.mp hx with rfl | hx'
                · exact hqa
                · intro hqa2
                  apply hql
                  rw [hqa2]
                  exact hkeys x hx')]
        · intro q hq
          unfold memPutF
          rw [if_neg (by
          intro hqa
          subst hqa
          exact hq (List.prefix_refl _))]
          exact hpost2 q (fun hql => hq ((A.prefix_append _).trans hql))

theorem getD_append_cons (W : List Bool) (c : Bool) (t : List Bool) (d : Bool) :
    (W ++ c :: t).getD W.length d = c := by
  induction W with
  | nil => rfl
  | cons w W ih => simpa using ih

theorem prefix_append_cancel (W p k : BKey) (h : W ++ p <+: W ++ k) : p <+: k := by
  obtain ⟨t, ht⟩ := h
  rw [List.append_assoc] at ht
  exact ⟨t, List.append_cancel_left ht⟩

theorem canonLookup_leaf_ne (H : Felt → Felt → Felt) (A q : BKey) (x : Felt)
    (hq : q ≠ A) : canonLookup H A (.leaf x) q = none := by
  unfold canonLookup
  rw [if_neg hq]

/-- Replace at an existing key: the pure insertion keeps the region prefix,
the spine ends at the old leaf, the engine's rewritten spine is a valid
chain for the new tree, and the canonical store changes only on the spine. -/
theorem R_hit (H : Felt → Felt → Felt) (v : Felt) :
    ∀ (ksuf p W : BKey) (D : DTree) (w : Felt),
      p.length ≤ ksuf.length →
      dwf D (ksuf.length - p.length) →
      dmap (W ++ p) D (W ++ ksuf) = some w →
      ∃ D' init,
        insD p D ksuf v = (p, D') ∧
        spineD H (W ++ ksuf) (W ++ p) D =
          init ++ [⟨W ++ ksuf, ⟨w, none, none⟩⟩] ∧
        ChainOK (W ++ p) D' (init ++ [⟨W ++ ksuf, ⟨v, none, none⟩⟩]) ∧
        (∀ q, (∀ x ∈ init, q ≠ x.key) → q ≠ W ++ ksuf →
          canonLookup H (W ++ p) D' q = canonLookup H (W ++ p) D q) := by
  intro ksuf
  induction ksuf with
  | nil =>
    intro p W D w hlen hwf hdm
    have hp : p = [] := List.eq_nil_of_length_eq_zero (by simpa using hlen)
    subst hp
    cases D with
    | node pl dl pr dr =>
      obtain ⟨hpl, _, _, _⟩ := hwf
      simp at hpl
    | leaf w' =>
      have hw : w' = w := by
        unfold dmap at hdm
        rw [if_pos rfl] at hdm
        exact Option.some.inj hdm
      subst hw
      refine ⟨.leaf v, [], rfl, rfl, rfl, ?_⟩
      intro q _ hq2
      rw [canonLookup_leaf_ne H _ q v (by simpa using hq2),
          canonLookup_leaf_ne H _ q w' (by simpa using hq2)]
  | cons c k₂ ih =>
    intro p W D w hlen hwf hdm
    cases p with
    | cons a p₂ =>
      have hpre : a :: p₂ <+: c :: k₂ :=
        prefix_append_cancel W _ _ (dmap_key_extends D _ _ w hdm)
      obtain ⟨hac, hp₂⟩ := List.cons_prefix_cons.mp hpre
      subst hac
      have hW1 : W ++ a :: p₂ = (W ++ [a]) ++ p₂ := by simp
      have hW2 : W ++ a :: k₂ = (W ++ [a]) ++ k₂ := by simp
      obtain ⟨D', init, h1, h2, h3, h4⟩ := ih p₂ (W ++ [a]) D w
        (by simpa using hlen)
        (by simpa using hwf)
        (by rw [← hW1, ← hW2]; exact hdm)
      refine ⟨D', init, ?_, ?_, ?_, ?_⟩
      · show (if a = a then
            ((a :: (insD p₂ D k₂ v).1, (insD p₂ D k₂ v).2) : BKey × DTree)
          else if a then ([], .node p₂ D k₂ (.leaf v)) else ([], .node k₂ (.leaf v) p₂ D)) = _
        rw [if_pos rfl, h1]
      · rw [hW1, hW2]
        exact h2
      · rw [hW1, hW2]
        exact h3
      · intro q hq1 hq2
        rw [hW1]
        exact h4 q hq1 (by rw [← hW2]; exact hq2)
    | nil =>
      cases D with
      | leaf w' =>
        unfold dwf at hwf
        simp at hwf
      | node pl dl pr dr =>
        obtain ⟨hpl, hpr, hwl, hwr⟩ := hwf
        simp only [List.length_cons, List.length_nil, Nat.sub_zero,
          Nat.add_sub_cancel] at hpl hpr hwl hwr
        have hWnil : W ++ ([] : BKey) = W := by simp
        rw [hWnil] at hdm
        have hclashL : ¬ (W ++ false :: pl <+: W ++ true :: k₂) := by
          intro hcontra
          obtain ⟨heq, _⟩ := List.cons_prefix_cons.mp (prefix_append_cancel W _ _ hcontra)
          exact Bool.noConfusion heq
        have hclashR : ¬ (W ++ true :: pr <+: W ++ false :: k₂) := by
          intro hcontra
          obtain ⟨heq, _⟩ := List.cons_prefix_cons.mp (prefix_append_cancel W _ _ hcontra)
          exact Bool.noConfusion heq
        cases c with
        | true =>
          have hldm : dmap (W ++ false :: pl) dl (W ++ true :: k₂) = none :=
            dmap_off dl _ _ hclashL
          have hrdm : dmap (W ++ true :: pr) dr (W ++ true :: k₂) = some w := by
            rw [dmap_node_eq, hldm] at hdm
            exact hdm
          obtain ⟨D'c, init', h1', h2', h3', h4'⟩ := ih pr (W ++ [true]) dr w
            (by omega)
            (by simpa using hwr)
            (by simpa using hrdm)
          have hassoc : (W ++ [true]) ++ pr = W ++ true :: pr := by simp
          have hassoc2 : (W ++ [true]) ++ k₂ = W ++ true :: k₂ := by simp
          rw [hassoc, hassoc2] at h2' h3'
          refine ⟨.node pl dl pr D'c, ⟨W, dnode H W (.node pl dl pr dr)⟩ :: init',
            ?_, ?_, ?_, ?_⟩
          · simp [insD, h1']
          · rw [hWnil]
            show spineD H (W ++ true :: k₂) W (.node pl dl pr dr) = _
            rw [show spineD H (W ++ true :: k₂) W (.node pl dl pr dr) =
              ⟨W, dnode H W (.node pl dl pr dr)⟩ ::
                (if W <+: W ++ true :: k₂ then
                  (if (W ++ true :: k₂).getD W.length false then
                    spineD H (W ++ true :: k₂) (W ++ true :: pr) dr
                   else spineD H (W ++ true :: k₂) (W ++ false :: pl) dl)
                 else []) from rfl]
            rw [if_pos (W.prefix_append _), getD_append_cons, if_pos rfl, h2']
            rfl
          · rw [hWnil]
            refine Or.inr ⟨dvalue H (.node pl dl pr dr), init' ++
              [⟨W ++ true :: k₂, ⟨v, none, none⟩⟩], ?_, Or.inr h3'⟩
            rfl
          · intro q hq1 hq2
            rw [hWnil]
            have hqW : q ≠ W := hq1 _ (List.mem_cons_self _ _)
            rw [canonLookup_node_eq H W pl pr q dl D'c hqW,
                canonLookup_node_eq H W pl pr q dl dr hqW]
            cases hcl : canonLookup H (W ++ false :: pl) dl q with
            | some n => rfl
            | none =>
              rw [hassoc] at h4'
              exact h4' q (fun x hx => hq1 x (List.mem_cons_of_mem _ hx))
                (by rw [hassoc2]; exact hq2)
        | false =>
          have hrdm0 : dmap (W ++ true :: pr) dr (W ++ false :: k₂) = none :=
            dmap_off dr _ _ hclashR
          have hldm : dmap (W ++ false :: pl) dl (W ++ false :: k₂) = some w := by
            cases hcl : dmap (W ++ false :: pl) dl (W ++ false :: k₂) with
            | some w2 =>
              rw [dmap_node_eq, hcl] at hdm
              simp only [] at hdm
              rw [hdm]
            | none =>
              rw [dmap_node_eq, hcl, hrdm0] at hdm
              simp at hdm
          obtain ⟨D'c, init', h1', h2', h3', h4'⟩ := ih pl (W ++ [false]) dl w
            (by omega)
            (by simpa using hwl)
            (by simpa using hldm)
          have hassoc : (W ++ [false]) ++ pl = W ++ false :: pl := by simp
          have hassoc2 : (W ++ [false]) ++ k₂ = W ++ false :: k₂ := by simp
          rw [hassoc, hassoc2] at h2' h3'
          refine ⟨.node pl D'c pr dr, ⟨W, dnode H W (.node pl dl pr dr)⟩ :: init',
            ?_, ?_, ?_, ?_⟩
          · simp [insD, h1']
          · rw [hWnil]
            show spineD H (W ++ false :: k₂) W (.node pl dl pr dr) = _
            rw [show spineD H (W ++ false :: k₂) W (.node pl dl pr dr) =
              ⟨W, dnode H W (.node pl dl pr dr)⟩ ::
                (if W <+: W ++ false :: k₂ then
                  (if (W ++ false :: k₂).getD W.length false then
                    spineD H (W ++ false :: k₂) (W ++ true :: pr) dr
                   else spineD H (W ++ false :: k₂) (W ++ false :: pl) dl)
                 else []) from rfl]
            rw [if_pos (W.prefix_append _), getD_append_cons, if_neg (by simp), h2']
            rfl
          · rw [hWnil]
            refine Or.inr ⟨dvalue H (.node pl dl pr dr), init' ++
              [⟨W ++ false :: k₂, ⟨v, none, none⟩⟩], ?_, Or.inl h3'⟩
            rfl
          · intro q hq1 hq2
            rw [hWnil]
            have hqW : q ≠ W := hq1 _ (List.mem_cons_self _ _)
            rw [canonLookup_node_eq H W pl pr q D'c dr hqW,
                canonLookup_node_eq H W pl pr q dl dr hqW]
            rw [hassoc] at h4'
            have h4q := h4' q (fun x hx => hq1 x (List.mem_cons_of_mem _ hx))
              (by rw [hassoc2]; exact hq2)
            rw [h4q]

theorem spineD_single (H : Felt → Felt → Felt) (key A : BKey) (D : DTree)
    (h : ¬ A <+: key) : spineD H key A D = [⟨A, dnode H A D⟩] := by
  cases D with
  | leaf v => rfl
  | node pl dl pr dr =>
    show _ :: (if A <+: key then _ else []) = _
    rw [if_neg h]

/-- The list `Put` hands to `propagateValues` in the split-insert case,
expressed as a function of the spine decomposition (trie.go lines 203-232):
replace the sibling-parent's link with the common key, then append the new
parent and the new leaf. -/
def insFinal (key : BKey) (v : Felt) (init : List StorageNode)
    (last : StorageNode) : List StorageNode :=
  let ck := lcpSpec key last.key
  let newParent : Node :=
    if key.getD ck.length false then ⟨0, some last.key, some key⟩
    else ⟨0, some key, some last.key⟩
  let nodes2 :=
    match init.getLast? with
    | none => init
    | some sp =>
      let sp' : StorageNode :=
        if sp.node.left = some last.key then
          ⟨sp.key, ⟨sp.node.value, some ck, sp.node.right⟩⟩
        else ⟨sp.key, ⟨sp.node.value, sp.node.left, some ck⟩⟩
      init.dropLast ++ [sp']
  nodes2 ++ [⟨ck, newParent⟩, ⟨key, ⟨v, none, none⟩⟩]

theorem spineD_head (H : Felt → Felt → Felt) (key A : BKey) (D : DTree) :
    ∃ tl, spineD H key A D = ⟨A, dnode H A D⟩ :: tl := by
  cases D with
  | leaf v => exact ⟨[], rfl⟩
  | node pl dl pr dr => exact ⟨_, rfl⟩

theorem insFinal_cons (key : BKey) (v : Felt) (x : StorageNode)
    (init' : List StorageNode) (last' : StorageNode) :
    insFinal key v (x :: init') last' =
      (match init' with
       | [] =>
         if x.node.left = some last'.key then
           ⟨x.key, ⟨x.node.value, some (lcpSpec key last'.key), x.node.right⟩⟩
         else ⟨x.key, ⟨x.node.value, x.node.left, some (lcpSpec key last'.key)⟩⟩
       | _ :: _ => x) :: insFinal key v init' last' := by
  cases init' with
  | nil =>
    unfold insFinal
    simp only [List.getLast?_singleton, List.dropLast_single, List.nil_append,
      List.getLast?_nil, List.cons_append]
  | cons y t =>
    unfold insFinal
    rw [List.getLast?_cons_cons]
    cases hgl : (y :: t).getLast? with
    | none => exact absurd hgl (by simp)
    | some sp =>
      simp only [List.dropLast_cons₂, List.cons_append]

theorem insFinal_cons_headkey (key : BKey) (v : Felt) (x : StorageNode)
    (init' : List StorageNode) (last' : StorageNode) :
    ∃ nd rest, insFinal key v (x :: init') last' = ⟨x.key, nd⟩ :: rest := by
  rw [insFinal_cons]
  cases init' with
  | nil =>
    by_cases hif : x.node.left = some last'.key
    · exact ⟨⟨x.node.value, some (lcpSpec key last'.key), x.node.right⟩,
        insFinal key v [] last', by simp only []; rw [if_pos hif]⟩
    · exact ⟨⟨x.node.value, x.node.left, some (lcpSpec key last'.key)⟩,
        insFinal key v [] last', by simp only []; rw [if_neg hif]⟩
  | cons y t => exact ⟨x.node, insFinal key v (y :: t) last', rfl⟩

/-- Insert at an absent key: the spine's last node is not the key, the
engine's rewritten spine (`insFinal`) is a valid chain for the pure
insertion result, whose root prefix is the common key on a root split and
unchanged otherwise, and the canonical store changes only on that chain. -/
theorem R_ins (H : Felt → Felt → Felt) (v : Felt) :
    ∀ (ksuf p W : BKey) (D : DTree),
      p.length ≤ ksuf.length →
      dwf D (ksuf.length - p.length) →
      dmap (W ++ p) D (W ++ ksuf) = none →
      ∃ p' D' init last,
        insD p D ksuf v = (p', D') ∧
        spineD H (W ++ ksuf) (W ++ p) D = init ++ [last] ∧
        last.key ≠ W ++ ksuf ∧
        last.key.length ≤ W.length + ksuf.length ∧
        (init = [] → W ++ p' = lcpSpec (W ++ ksuf) last.key) ∧
        (init ≠ [] → p' = p) ∧
        ChainOK (W ++ p') D' (insFinal (W ++ ksuf) v init last) ∧
        (∀ q, (∀ x ∈ insFinal (W ++ ksuf) v init last, q ≠ x.key) →
          canonLookup H (W ++ p') D' q = canonLookup H (W ++ p) D q) := by
  intro ksuf
  induction ksuf with
  | nil =>
    intro p W D hlen hwf hdm
    have hp : p = [] := List.eq_nil_of_length_eq_zero (by simpa using hlen)
    subst hp
    cases D with
    | node pl dl pr dr =>
      obtain ⟨hpl, _, _, _⟩ := hwf
      simp at hpl
    | leaf w' =>
      unfold dmap at hdm
      rw [if_pos rfl] at hdm
      exact absurd hdm (by simp)
  | cons c k₂ ih =>
    intro p W D hlen hwf hdm
    cases p with
    | cons a p₂ =>
      by_cases hac : a = c
      · subst hac
        have hW1 : W ++ a :: p₂ = (W ++ [a]) ++ p₂ := by simp
        have hW2 : W ++ a :: k₂ = (W ++ [a]) ++ k₂ := by simp
        obtain ⟨p', D', init, last, h1, h2, h3, h4, h5, h6, h7, h8⟩ :=
          ih p₂ (W ++ [a]) D
            (by simpa using hlen)
            (by simpa using hwf)
            (by rw [← hW1, ← hW2]; exact hdm)
        refine ⟨a :: p', D', init, last, ?_, ?_, ?_, ?_, ?_, ?_, ?_, ?_⟩
        · show (if a = a then
              ((a :: (insD p₂ D k₂ v).1, (insD p₂ D k₂ v).2) : BKey × DTree)
            else if a then ([], .node p₂ D k₂ (.leaf v)) else ([], .node k₂ (.leaf v) p₂ D)) = _
          rw [if_pos rfl, h1]
        · rw [hW1, hW2]
          exact h2
        · rw [hW2]
          exact h3
        · have := h4
          simp only [List.length_append, List.length_cons, List.length_nil] at this ⊢
          omega
        · intro hinit
          rw [show W ++ a :: p' = (W ++ [a]) ++ p' from by simp, h5 hinit, hW2]
        · intro hinit
          rw [h6 hinit]
        · rw [show W ++ a :: p' = (W ++ [a]) ++ p' from by simp, hW2]
          exact h7
        · intro q hq
          rw [show W ++ a :: p' = (W ++ [a]) ++ p' from by simp, hW1]
          exact h8 q (by rw [← hW2]; exact hq)
      · -- divergence inside this region's edge
        have hnpre : ¬ (W ++ a :: p₂ <+: W ++ c :: k₂) := fun hcontra =>
          hac (List.cons_prefix_cons.mp (prefix_append_cancel _ _ _ hcontra)).1
        have hspine := spineD_single H (W ++ c :: k₂) (W ++ a :: p₂) D hnpre
        have hck : lcpSpec (W ++ c :: k₂) (W ++ a :: p₂) = W := by
          rw [lcp_append]
          have h0 : lcpSpec (c :: k₂) (a :: p₂) = [] := by
            simp only [lcpSpec]
            rw [if_neg (fun hcontra => hac hcontra.symm)]
          rw [h0, List.append_nil]
        have hlastne : W ++ a :: p₂ ≠ W ++ c :: k₂ := fun hcontra =>
          hnpre (hcontra ▸ List.prefix_refl _)
        cases c with
        | true =>
          have ha : a = false := by
            cases a
            · rfl
            · exact absurd rfl hac
          subst ha
          have hfin : insFinal (W ++ true :: k₂) v []
              ⟨W ++ false :: p₂, dnode H (W ++ false :: p₂) D⟩ =
              [⟨W, ⟨0, some (W ++ false :: p₂), some (W ++ true :: k₂)⟩⟩,
               ⟨W ++ true :: k₂, ⟨v, none, none⟩⟩] := by
            unfold insFinal
            simp only [hck, getD_append_cons, if_true]
            rfl
          refine ⟨[], .node p₂ D k₂ (.leaf v), [],
            ⟨W ++ false :: p₂, dnode H (W ++ false :: p₂) D⟩,
            ?_, ?_, ?_, ?_, ?_, ?_, ?_, ?_⟩
          · show (if false = true then
                ((false :: (insD p₂ D k₂ v).1, (insD p₂ D k₂ v).2) : BKey × DTree)
              else if true then ([], .node p₂ D k₂ (.leaf v))
              else ([], .node k₂ (.leaf v) p₂ D)) = _
            rw [if_neg (by simp), if_pos rfl]
          · simpa using hspine
          · exact hlastne
          · simp only [List.length_cons, List.length_append] at hlen ⊢
            omega
          · intro _
            rw [List.append_nil, hck]
          · intro hinit
            exact absurd rfl hinit
          · rw [List.append_nil, hfin]
            exact Or.inr ⟨0, [⟨W ++ true :: k₂, ⟨v, none, none⟩⟩], rfl, Or.inr rfl⟩
          · intro q hq
            rw [hfin] at hq
            have hqW : q ≠ W := hq _ (List.mem_cons_self _ _)
            have hqk : q ≠ W ++ true :: k₂ :=
              hq _ (List.mem_cons_of_mem _ (List.mem_cons_self _ _))
            rw [List.append_nil]
            rw [canonLookup_node_eq H W p₂ k₂ q D (.leaf v) hqW]
            cases hdl : canonLookup H (W ++ false :: p₂) D q with
            | some n => rfl
            | none => rw [canonLookup_leaf_ne H _ q v hqk]
        | false =>
          have ha : a = true := by
            cases a
            · exact absurd rfl hac
            · rfl
          subst ha
          have hfin : insFinal (W ++ false :: k₂) v []
              ⟨W ++ true :: p₂, dnode H (W ++ true :: p₂) D⟩ =
              [⟨W, ⟨0, some (W ++ false :: k₂), some (W ++ true :: p₂)⟩⟩,
               ⟨W ++ false :: k₂, ⟨v, none, none⟩⟩] := by
            unfold insFinal
            simp only [hck, getD_append_cons, Bool.false_eq_true, if_false]
            rfl
          refine ⟨[], .node k₂ (.leaf v) p₂ D, [],
            ⟨W ++ true :: p₂, dnode H (W ++ true :: p₂) D⟩,
            ?_, ?_, ?_, ?_, ?_, ?_, ?_, ?_⟩
          · show (if true = false then
                ((true :: (insD p₂ D k₂ v).1, (insD p₂ D k₂ v).2) : BKey × DTree)
              else if false then ([], .node p₂ D k₂ (.leaf v))
              else ([], .node k₂ (.leaf v) p₂ D)) = _
            rw [if_neg (by simp), if_neg (by simp)]
          · simpa using hspine
          · exact hlastne
          · simp only [List.length_cons, List.length_append] at hlen ⊢
            omega
          · intro _
            rw [List.append_nil, hck]
          · intro hinit
            exact absurd rfl hinit
          · rw [List.append_nil, hfin]
            exact Or.inr ⟨0, [⟨W ++ false :: k₂, ⟨v, none, none⟩⟩], rfl, Or.inl rfl⟩
          · intro q hq
            rw [hfin] at hq
            have hqW : q ≠ W := hq _ (List.mem_cons_self _ _)
            have hqk : q ≠ W ++ false :: k₂ :=
              hq _ (List.mem_cons_of_mem _ (List.mem_cons_self _ _))
            rw [List.append_nil]
            rw [canonLookup_node_eq H W k₂ p₂ q (.leaf v) D hqW]
            rw [canonLookup_leaf_ne H _ q v hqk]
    | nil =>
      cases D with
      | leaf w' =>
        unfold dwf at hwf
        simp at hwf
      | node pl dl pr dr =>
        obtain ⟨hpl, hpr, hwl, hwr⟩ := hwf
        simp only [List.length_cons, List.length_nil, Nat.sub_zero,
          Nat.add_sub_cancel] at hpl hpr hwl hwr
        have hWnil : W ++ ([] : BKey) = W := by simp
        rw [hWnil] at hdm
        have hclashL : ¬ (W ++ false :: pl <+: W ++ true :: k₂) := by
          intro hcontra
          obtain ⟨heq, _⟩ := List.cons_prefix_cons.mp (prefix_append_cancel W _ _ hcontra)
          exact Bool.noConfusion heq
        have hclashR : ¬ (W ++ true :: pr <+: W ++ false :: k₂) := by
          intro hcontra
          obtain ⟨heq, _⟩ := List.cons_prefix_cons.mp (prefix_append_cancel W _ _ hcontra)
          exact Bool.noConfusion heq
        have hdLR : (some (W ++ false :: pl) : Option BKey) ≠ some (W ++ true :: pr) := by
          intro hcontra
          have h0 := Option.some.inj hcontra
          have h1 := List.append_cancel_left h0
          exact Bool.noConfusion (List.head_eq_of_cons_eq h1)
        cases c with
        | true =>
          have hrdm : dmap (W ++ true :: pr) dr (W ++ true :: k₂) = none := by
            cases hcl : dmap (W ++ false :: pl) dl (W ++ true :: k₂) with
            | some w2 => exact absurd (dmap_key_extends dl _ _ w2 hcl) hclashL
            | none =>
              rw [dmap_node_eq, hcl] at hdm
              simpa using hdm
          obtain ⟨p'c, D'c, init', last', h1', h2', h3', h4', h5', h6', h7', h8'⟩ :=
            ih pr (W ++ [true]) dr (by omega) (by simpa using hwr) (by simpa using hrdm)
          have hassoc : (W ++ [true]) ++ pr = W ++ true :: pr := by simp
          have hassoc2 : (W ++ [true]) ++ k₂ = W ++ true :: k₂ := by simp
          have hassoc3 : (W ++ [true]) ++ p'c = W ++ true :: p'c := by simp
          rw [hassoc, hassoc2] at h2'
          rw [hassoc2] at h3'
          rw [hassoc3, hassoc2] at h5'
          rw [hassoc3, hassoc2] at h7'
          rw [hassoc3, hassoc, hassoc2] at h8'
          have hx : spineD H (W ++ true :: k₂) W (.node pl dl pr dr) =
              ⟨W, dnode H W (.node pl dl pr dr)⟩ :: (init' ++ [last']) := by
            rw [show spineD H (W ++ true :: k₂) W (.node pl dl pr dr) =
              ⟨W, dnode H W (.node pl dl pr dr)⟩ ::
                (if W <+: W ++ true :: k₂ then
                  (if (W ++ true :: k₂).getD W.length false then
                    spineD H (W ++ true :: k₂) (W ++ true :: pr) dr
                   else spineD H (W ++ true :: k₂) (W ++ false :: pl) dl)
                 else []) from rfl]
            rw [if_pos (W.prefix_append _), getD_append_cons, if_pos rfl, h2']
          refine ⟨[], .node pl dl p'c D'c,
            ⟨W, dnode H W (.node pl dl pr dr)⟩ :: init', last',
            ?_, ?_, ?_, ?_, ?_, ?_, ?_, ?_⟩
          · simp [insD, h1']
          · rw [hWnil, hx]
            rfl
          · exact h3'
          · have := h4'
            simp only [List.length_append, List.length_cons, List.length_nil] at this ⊢
            omega
          · intro hcontra
            exact absurd hcontra (by simp)
          · intro _
            rfl
          · rw [hWnil, insFinal_cons]
            cases init' with
            | nil =>
              have hlast : last' = ⟨W ++ true :: pr, dnode H (W ++ true :: pr) dr⟩ := by
                obtain ⟨tl, htl⟩ := spineD_head H (W ++ true :: k₂) (W ++ true :: pr) dr
                rw [htl, List.nil_append] at h2'
                injection h2' with ha hb
                exact ha.symm
              have hck5 : lcpSpec (W ++ true :: k₂) last'.key = W ++ true :: p'c :=
                (h5' rfl).symm
              simp only []
              rw [hlast]
              rw [if_neg (by
                simp only []
                show (dnode H W (.node pl dl pr dr)).left ≠ _
                exact hdLR)]
              rw [hlast] at hck5
              simp only [] at hck5
              rw [hck5]
              refine Or.inr ⟨dvalue H (.node pl dl pr dr),
                insFinal (W ++ true :: k₂) v [] last', ?_, Or.inr (hlast ▸ h7')⟩
              rw [hlast]
              rfl
            | cons y t =>
              have hp'c : p'c = pr := h6' (by simp)
              rw [hp'c] at h7' ⊢
              refine Or.inr ⟨dvalue H (.node pl dl pr dr),
                insFinal (W ++ true :: k₂) v (y :: t) last', ?_, Or.inr h7'⟩
              rfl
          · intro q hq
            rw [hWnil]
            obtain ⟨nd, rest, hhead⟩ := insFinal_cons_headkey (W ++ true :: k₂) v
              ⟨W, dnode H W (.node pl dl pr dr)⟩ init' last'
            rw [hhead] at hq
            have hqW : q ≠ W := hq _ (List.mem_cons_self _ _)
            rw [canonLookup_node_eq H W pl p'c q dl D'c hqW,
                canonLookup_node_eq H W pl pr q dl dr hqW]
            cases hdl : canonLookup H (W ++ false :: pl) dl q with
            | some n => rfl
            | none =>
              refine h8' q ?_
              intro x' hx'
              refine hq x' ?_
              rw [insFinal_cons] at hhead
              injection hhead with hh1 hh2
              rw [hh2] at hx'
              exact List.mem_cons_of_mem _ hx'
        | false =>
          have hldm : dmap (W ++ false :: pl) dl (W ++ false :: k₂) = none := by
            cases hcl : dmap (W ++ false :: pl) dl (W ++ false :: k₂) with
            | some w2 =>
              rw [dmap_node_eq, hcl] at hdm
              simpa using hdm
            | none => rfl
          obtain ⟨p'c, D'c, init', last', h1', h2', h3', h4', h5', h6', h7', h8'⟩ :=
            ih pl (W ++ [false]) dl (by omega) (by simpa using hwl) (by simpa using hldm)
          have hassoc : (W ++ [false]) ++ pl = W ++ false :: pl := by simp
          have hassoc2 : (W ++ [false]) ++ k₂ = W ++ false :: k₂ := by simp
          have hassoc3 : (W ++ [false]) ++ p'c = W ++ false :: p'c := by simp
          rw [hassoc, hassoc2] at h2'
          rw [hassoc2] at h3'
          rw [hassoc3, hassoc2] at h5'
          rw [hassoc3, hassoc2] at h7'
          rw [hassoc3, hassoc, hassoc2] at h8'
          have hx : spineD H (W ++ false :: k₂) W (.node pl dl pr dr) =
              ⟨W, dnode H W (.node pl dl pr dr)⟩ :: (init' ++ [last']) := by
            rw [show spineD H (W ++ false :: k₂) W (.node pl dl pr dr) =
              ⟨W, dnode H W (.node pl dl pr dr)⟩ ::
                (if W <+: W ++ false :: k₂ then
                  (if (W ++ false :: k₂).getD W.length false then
                    spineD H (W ++ false :: k₂) (W ++ true :: pr) dr
                   else spineD H (W ++ false :: k₂) (W ++ false :: pl) dl)
                 else []) from rfl]
            rw [if_pos (W.prefix_append _), getD_append_cons,
              if_neg (by simp), h2']
          refine ⟨[], .node p'c D'c pr dr,
            ⟨W, dnode H W (.node pl dl pr dr)⟩ :: init', last',
            ?_, ?_, ?_, ?_, ?_, ?_, ?_, ?_⟩
          · simp [insD, h1']
          · rw [hWnil, hx]
            rfl
          · exact h3'
          · have := h4'
            simp only [List.length_append, List.length_cons, List.length_nil] at this ⊢
            omega
          · intro hcontra
            exact absurd hcontra (by simp)
          · intro _
            rfl
          · rw [hWnil, insFinal_cons]
            cases init' with
            | nil =>
              have hlast : last' = ⟨W ++ false :: pl, dnode H (W ++ false :: pl) dl⟩ := by
                obtain ⟨tl, htl⟩ := spineD_head H (W ++ false :: k₂) (W ++ false :: pl) dl
                rw [htl, List.nil_append] at h2'
                injection h2' with ha hb
                exact ha.symm
              have hck5 : lcpSpec (W ++ false :: k₂) last'.key = W ++ false :: p'c :=
                (h5' rfl).symm
              simp only []
              rw [hlast]
              rw [if_pos (by
                simp only []
                show (dnode H W (.node pl dl pr dr)).left = _
                rfl)]
              rw [hlast] at hck5
              simp only [] at hck5
              rw [hck5]
              refine Or.inr ⟨dvalue H (.node pl dl pr dr),
                insFinal (W ++ false :: k₂) v [] last', ?_, Or.inl (hlast ▸ h7')⟩
              rw [hlast]
              rfl
            | cons y t =>
              have hp'c : p'c = pl := h6' (by simp)
              rw [hp'c] at h7' ⊢
              refine Or.inr ⟨dvalue H (.node pl dl pr dr),
                insFinal (W ++ false :: k₂) v (y :: t) last', ?_, Or.inl h7'⟩
              rfl
          · intro q hq
            rw [hWnil]
            obtain ⟨nd, rest, hhead⟩ := insFinal_cons_headkey (W ++ false :: k₂) v
              ⟨W, dnode H W (.node pl dl pr dr)⟩ init' last'
            rw [hhead] at hq
            have hqW : q ≠ W := hq _ (List.mem_cons_self _ _)
            rw [canonLookup_node_eq H W p'c pr q D'c dr hqW,
                canonLookup_node_eq H W pl pr q dl dr hqW]
            have hq' : ∀ x' ∈ insFinal (W ++ false :: k₂) v init' last', q ≠ x'.key := by
              intro x' hx'
              refine hq x' ?_
              rw [insFinal_cons] at hhead
              injection hhead with hh1 hh2
              rw [hh2] at hx'
              exact List.mem_cons_of_mem _ hx'
            rw [h8' q hq']

theorem ChainOK_self (A : BKey) (D : DTree) (H : Felt → Felt → Felt) :
    ChainOK A D [⟨A, dnode H A D⟩] := by
  cases D with
  | leaf v => rfl
  | node pl dl pr dr => exact Or.inl ⟨dvalue H (.node pl dl pr dr), rfl⟩

/-- The list `deleteLast` hands to `propagateValues` when the collapsed
parent has a grandparent (trie.go lines 268-289): the spine above the
grandparent, the relinked grandparent, and the surviving sibling. -/
def delFinal (pre : List StorageNode) (gpK : BKey) (gpn : Node) (pK : BKey)
    (sibK : BKey) (sibN : Node) : List StorageNode :=
  pre ++ [(if gpn.left = some pK then
      ⟨gpK, ⟨gpn.value, some sibK, gpn.right⟩⟩
    else ⟨gpK, ⟨gpn.value, gpn.left, some sibK⟩⟩),
    ⟨sibK, sibN⟩]

/-- Delete at an existing key, by region: either the region is the leaf
itself (a), or the leaf hangs directly off the region root which collapses
into the sibling (b), or the collapse happens deeper and the relinked
spine is a valid chain for the pure deletion result (c). -/
theorem R_del (H : Felt → Felt → Felt) :
    ∀ (ksuf p W : BKey) (D : DTree) (w : Felt),
      p.length ≤ ksuf.length →
      dwf D (ksuf.length - p.length) →
      dmap (W ++ p) D (W ++ ksuf) = some w →
      (delD p D ksuf = none ∧ p = ksuf ∧ D = .leaf w ∧
         spineD H (W ++ ksuf) (W ++ p) D = [⟨W ++ ksuf, ⟨w, none, none⟩⟩])
      ∨
      (∃ ps Ds,
         delD p D ksuf = some (ps, Ds) ∧
         spineD H (W ++ ksuf) (W ++ p) D =
           [⟨W ++ p, dnode H (W ++ p) D⟩, ⟨W ++ ksuf, ⟨w, none, none⟩⟩] ∧
         (if (dnode H (W ++ p) D).left = some (W ++ ksuf)
          then (dnode H (W ++ p) D).right else (dnode H (W ++ p) D).left) =
           some (W ++ ps) ∧
         W ++ p <+: W ++ ps ∧
         (∀ q, q ≠ W ++ p → q ≠ W ++ ksuf →
           canonLookup H (W ++ ps) Ds q = canonLookup H (W ++ p) D q) ∧
         canonLookup H (W ++ ps) Ds (W ++ p) = none ∧
         canonLookup H (W ++ ps) Ds (W ++ ksuf) = none)
      ∨
      (∃ Dn pre gpK gpn pK pn sibK Dsib,
         delD p D ksuf = some (p, Dn) ∧
         spineD H (W ++ ksuf) (W ++ p) D =
           pre ++ [⟨gpK, gpn⟩, ⟨pK, pn⟩, ⟨W ++ ksuf, ⟨w, none, none⟩⟩] ∧
         (if pn.left = some (W ++ ksuf) then pn.right else pn.left) = some sibK ∧
         W ++ p <+: pK ∧ (W ++ p).length < pK.length ∧
         W ++ p <+: sibK ∧ (W ++ p).length < sibK.length ∧
         sibK ≠ W ++ ksuf ∧ sibK ≠ pK ∧
         canonLookup H (W ++ p) D sibK = some (dnode H sibK Dsib) ∧
         ChainOK (W ++ p) Dn (delFinal pre gpK gpn pK sibK (dnode H sibK Dsib)) ∧
         (∀ q, (∀ x ∈ delFinal pre gpK gpn pK sibK (dnode H sibK Dsib), q ≠ x.key) →
           q ≠ W ++ ksuf → q ≠ pK →
           canonLookup H (W ++ p) Dn q = canonLookup H (W ++ p) D q) ∧
         canonLookup H (W ++ p) Dn (W ++ ksuf) = none ∧
         canonLookup H (W ++ p) Dn pK = none) := by
  intro ksuf
  induction ksuf with
  | nil =>
    intro p W D w hlen hwf hdm
    have hp : p = [] := List.eq_nil_of_length_eq_zero (by simpa using hlen)
    subst hp
    cases D with
    | node pl dl pr dr =>
      obtain ⟨hpl, _, _, _⟩ := hwf
      simp at hpl
    | leaf w' =>
      have hw : w' = w := by
        unfold dmap at hdm
        rw [if_pos rfl] at hdm
        exact Option.some.inj hdm
      subst hw
      exact Or.inl ⟨rfl, rfl, rfl, rfl⟩
  | cons c k₂ ih =>
    intro p W D w hlen hwf hdm
    cases p with
    | cons a p₂ =>
      have hpre : a :: p₂ <+: c :: k₂ :=
        prefix_append_cancel W _ _ (dmap_key_extends D _ _ w hdm)
      obtain ⟨hac, hp₂⟩ := List.cons_prefix_cons.mp hpre
      subst hac
      have hW1 : W ++ a :: p₂ = (W ++ [a]) ++ p₂ := by simp
      have hW2 : W ++ a :: k₂ = (W ++ [a]) ++ k₂ := by simp
      have hdel : delD (a :: p₂) D (a :: k₂) =
          (match delD p₂ D k₂ with
           | none => none
           | some (p', d') => some (a :: p', d')) := by
        show (if a = a then
            (match delD p₂ D k₂ with
             | none => none
             | some (p', d') => some (a :: p', d'))
          else some (a :: p₂, D)) = _
        rw [if_pos rfl]
      rcases ih p₂ (W ++ [a]) D w (by simpa using hlen) (by simpa using hwf)
          (by rw [← hW1, ← hW2]; exact hdm) with
        ⟨h1, h2, h3, h4⟩ | ⟨ps, Ds, h1, h2, h3, h4, h5, h6, h7⟩ |
        ⟨Dn, pre, gpK, gpn, pK, pn, sibK, Dsib, h1, h2, h3, h4, h5, h6, h7, h8, h9, h10, h11, h12, h13, h14⟩
      · refine Or.inl ⟨?_, ?_, h3, ?_⟩
        · rw [hdel, h1]
        · rw [h2]
        · rw [hW1, hW2]
          exact h4
      · refine Or.inr (Or.inl ⟨a :: ps, Ds, ?_, ?_, ?_, ?_, ?_, ?_, ?_⟩)
        · rw [hdel, h1]
        · rw [hW1, hW2]
          exact h2
        · rw [hW1, hW2, show W ++ a :: ps = (W ++ [a]) ++ ps from by simp]
          exact h3
        · rw [hW1, show W ++ a :: ps = (W ++ [a]) ++ ps from by simp]
          exact h4
        · intro q hq1 hq2
          rw [hW1, show W ++ a :: ps = (W ++ [a]) ++ ps from by simp]
          exact h5 q (by rw [← hW1]; exact hq1) (by rw [← hW2]; exact hq2)
        · rw [hW1, show W ++ a :: ps = (W ++ [a]) ++ ps from by simp]
          exact h6
        · rw [hW2, show W ++ a :: ps = (W ++ [a]) ++ ps from by simp]
          exact h7
      · refine Or.inr (Or.inr ⟨Dn, pre, gpK, gpn, pK, pn, sibK, Dsib,
          ?_, ?_, ?_, ?_, ?_, ?_, ?_, ?_, ?_, ?_, ?_, ?_, ?_, ?_⟩)
        · rw [hdel, h1]
        · rw [hW1, hW2]
          exact h2
        · rw [hW2]
          exact h3
        · rw [hW1]
          exact h4
        · rw [hW1]
          exact h5
        · rw [hW1]
          exact h6
        · rw [hW1]
          exact h7
        · rw [hW2]
          exact h8
        · exact h9
        · rw [hW1]
          exact h10
        · rw [hW1]
          exact h11
        · intro q hq1 hq2 hq3
          rw [hW1]
          exact h12 q hq1 (by rw [← hW2]; exact hq2) hq3
        · rw [hW1, hW2]
          exact h13
        · rw [hW1]
          exact h14
    | nil =>
      cases D with
      | leaf w' =>
        unfold dwf at hwf
        simp at hwf
      | node pl dl pr dr =>
        obtain ⟨hpl, hpr, hwl, hwr⟩ := hwf
        simp only [List.length_cons, List.length_nil, Nat.sub_zero,
          Nat.add_sub_cancel] at hpl hpr hwl hwr
        have hWnil : W ++ ([] : BKey) = W := by simp
        rw [hWnil] at hdm
        simp only [List.append_nil]
        have hclashL : ¬ (W ++ false :: pl <+: W ++ true :: k₂) := by
          intro hcontra
          obtain ⟨heq, _⟩ := List.cons_prefix_cons.mp (prefix_append_cancel W _ _ hcontra)
          exact Bool.noConfusion heq
        have hclashR : ¬ (W ++ true :: pr <+: W ++ false :: k₂) := by
          intro hcontra
          obtain ⟨heq, _⟩ := List.cons_prefix_cons.mp (prefix_append_cancel W _ _ hcontra)
          exact Bool.noConfusion heq
        have hLnotW : ¬ (W ++ false :: pl <+: W) := by
          intro hcontra
          have := hcontra.length_le
          simp at this
        have hRnotW : ¬ (W ++ true :: pr <+: W) := by
          intro hcontra
          have := hcontra.length_le
          simp at this
        cases c with
        | true =>
          have hrdm : dmap (W ++ true :: pr) dr (W ++ true :: k₂) = some w := by
            cases hcl : dmap (W ++ false :: pl) dl (W ++ true :: k₂) with
            | some w2 => exact absurd (dmap_key_extends dl _ _ w2 hcl) hclashL
            | none =>
              rw [dmap_node_eq, hcl] at hdm
              simpa using hdm
          have hdelstep : delD [] (.node pl dl pr dr) (true :: k₂) =
              (match delD pr dr k₂ with
               | none => some (false :: pl, dl)
               | some (p', d') => some ([], .node pl dl p' d')) := rfl
          have hsp : spineD H (W ++ true :: k₂) W (.node pl dl pr dr) =
              ⟨W, dnode H W (.node pl dl pr dr)⟩ ::
                spineD H (W ++ true :: k₂) (W ++ true :: pr) dr := by
            rw [show spineD H (W ++ true :: k₂) W (.node pl dl pr dr) =
              ⟨W, dnode H W (.node pl dl pr dr)⟩ ::
                (if W <+: W ++ true :: k₂ then
                  (if (W ++ true :: k₂).getD W.length false then
                    spineD H (W ++ true :: k₂) (W ++ true :: pr) dr
                   else spineD H (W ++ true :: k₂) (W ++ false :: pl) dl)
                 else []) from rfl]
            rw [if_pos (W.prefix_append _), getD_append_cons, if_pos rfl]
          rcases ih pr (W ++ [true]) dr w (by omega) (by simpa using hwr)
              (by simpa using hrdm) with
            ⟨h1, h2, h3, h4⟩ | ⟨ps, Ds, h1, h2, h3, h4, h5, h6, h7⟩ |
            ⟨Dn, pre, gpK, gpn, pK, pn, sibK, Dsib,
              h1, h2, h3, h4, h5, h6, h7, h8, h9, h10, h11, h12, h13, h14⟩
          · -- leaf directly below this region root: collapse to the left sibling
            subst h3
            subst h2
            have hLneK : (dnode H W (.node pl dl pr (.leaf w))).left ≠
                some (W ++ true :: pr) := by
              show some (W ++ false :: pl) ≠ _
              intro hcontra
              have h0 := List.append_cancel_left (Option.some.inj hcontra)
              exact Bool.noConfusion (List.head_eq_of_cons_eq h0)
            refine Or.inr (Or.inl ⟨false :: pl, dl, ?_, ?_, ?_, ?_, ?_, ?_, ?_⟩)
            · rw [hdelstep, h1]
            · rw [hsp]
              rfl
            · rw [if_neg hLneK]
              rfl
            · exact W.prefix_append _
            · intro q hq1 hq2
              rw [canonLookup_node_eq H W pl pr q dl (.leaf w) hq1]
              cases hcl : canonLookup H (W ++ false :: pl) dl q with
              | some n => rfl
              | none => rw [canonLookup_leaf_ne H _ q w hq2]
            · exact canonLookup_off H dl _ W hLnotW
            · exact canonLookup_off H dl _ _ hclashL
          · -- collapse one level down: this region root becomes the grandparent
            have hassoc : (W ++ [true]) ++ pr = W ++ true :: pr := by simp
            have hassoc2 : (W ++ [true]) ++ k₂ = W ++ true :: k₂ := by simp
            have hassoc3 : (W ++ [true]) ++ ps = W ++ true :: ps := by simp
            rw [hassoc, hassoc2] at h2
            rw [hassoc, hassoc2, hassoc3] at h3
            rw [hassoc, hassoc3] at h4
            rw [hassoc, hassoc2, hassoc3] at h5
            rw [hassoc, hassoc3] at h6
            rw [hassoc2, hassoc3] at h7
            have hsibne : W ++ true :: ps ≠ W ++ true :: k₂ := by
              intro hcontra
              rw [hcontra] at h7
              rw [canonLookup_self] at h7
              exact Option.noConfusion h7
            have hsibnp : W ++ true :: ps ≠ W ++ true :: pr := by
              intro hcontra
              rw [hcontra] at h6
              rw [canonLookup_self] at h6
              exact Option.noConfusion h6
            have hGneP : (dnode H W (.node pl dl pr dr)).left ≠
                some (W ++ true :: pr) := by
              show some (W ++ false :: pl) ≠ _
              intro hcontra
              have h0 := List.append_cancel_left (Option.some.inj hcontra)
              exact Bool.noConfusion (List.head_eq_of_cons_eq h0)
            have hlook : canonLookup H W (.node pl dl pr dr) (W ++ true :: ps) =
                some (dnode H (W ++ true :: ps) Ds) := by
              rw [canonLookup_right H W pl pr _ dl dr h4]
              rw [← h5 (W ++ true :: ps) hsibnp hsibne, canonLookup_self]
            have hKneW : W ++ true :: k₂ ≠ W := by
              intro hcontra
              have := congrArg List.length hcontra
              simp at this
            have hPneW : W ++ true :: pr ≠ W := by
              intro hcontra
              have := congrArg List.length hcontra
              simp at this
            refine Or.inr (Or.inr ⟨.node pl dl ps Ds, [], W,
              dnode H W (.node pl dl pr dr), W ++ true :: pr,
              dnode H (W ++ true :: pr) dr, W ++ true :: ps, Ds,
              ?_, ?_, ?_, ?_, ?_, ?_, ?_, ?_, ?_, ?_, ?_, ?_, ?_, ?_⟩)
            · rw [hdelstep, h1]
            · rw [hsp, h2]
              rfl
            · exact h3
            · exact W.prefix_append _
            · simp
            · exact W.prefix_append _
            · simp
            · exact hsibne
            · exact hsibnp
            · exact hlook
            · unfold delFinal
              rw [if_neg hGneP]
              exact Or.inr ⟨(dnode H W (.node pl dl pr dr)).value,
                [⟨W ++ true :: ps, dnode H (W ++ true :: ps) Ds⟩],
                by rfl, Or.inr (ChainOK_self _ _ H)⟩
            · intro q hq hqk hqp
              unfold delFinal at hq
              rw [if_neg hGneP] at hq
              have hqW : q ≠ W := hq _ (List.mem_cons_self _ _)
              rw [canonLookup_node_eq H W pl ps q dl Ds hqW,
                  canonLookup_node_eq H W pl pr q dl dr hqW]
              cases hcl : canonLookup H (W ++ false :: pl) dl q with
              | some n => rfl
              | none => exact h5 q hqp hqk
            · rw [canonLookup_node_eq H W pl ps _ dl Ds hKneW,
                  canonLookup_off H dl _ _ hclashL]
              exact h7
            · rw [canonLookup_node_eq H W pl ps _ dl Ds hPneW,
                  canonLookup_off H dl _ _
                    (fun hpre => prefix_clash W pl pr _ hpre (List.prefix_refl _))]
              exact h6
          · -- collapse deeper: pass the chain through unchanged
            have hassoc : (W ++ [true]) ++ pr = W ++ true :: pr := by simp
            have hassoc2 : (W ++ [true]) ++ k₂ = W ++ true :: k₂ := by simp
            rw [hassoc, hassoc2] at h2
            rw [hassoc2] at h3
            rw [hassoc] at h4
            rw [hassoc] at h5
            rw [hassoc] at h6
            rw [hassoc] at h7
            rw [hassoc2] at h8
            rw [hassoc] at h10
            rw [hassoc] at h11
            rw [hassoc, hassoc2] at h12
            rw [hassoc, hassoc2] at h13
            rw [hassoc] at h14
            have hKneW : W ++ true :: k₂ ≠ W := by
              intro hcontra
              have := congrArg List.length hcontra
              simp at this
            have hPneW : pK ≠ W := by
              intro hcontra
              have hl := h5
              rw [hcontra] at hl
              simp only [List.length_append, List.length_cons] at hl
              omega
            refine Or.inr (Or.inr ⟨.node pl dl pr Dn,
              ⟨W, dnode H W (.node pl dl pr dr)⟩ :: pre, gpK, gpn, pK, pn, sibK, Dsib,
              ?_, ?_, ?_, ?_, ?_, ?_, ?_, ?_, ?_, ?_, ?_, ?_, ?_, ?_⟩)
            · rw [hdelstep, h1]
            · rw [hsp, h2]
              rfl
            · exact h3
            · exact (W.prefix_append _).trans h4
            · have := h5
              simp only [List.length_append, List.length_cons] at this ⊢
              omega
            · exact (W.prefix_append _).trans h6
            · have := h7
              simp only [List.length_append, List.length_cons] at this ⊢
              omega
            · exact h8
            · exact h9
            · rw [canonLookup_right H W pl pr _ dl dr h6]
              exact h10
            · exact Or.inr ⟨dvalue H (.node pl dl pr dr),
                delFinal pre gpK gpn pK sibK (dnode H sibK Dsib),
                by rfl, Or.inr h11⟩
            · intro q hq hqk hqp
              have hqW : q ≠ W := hq ⟨W, dnode H W (.node pl dl pr dr)⟩
                (List.mem_cons_self _ _)
              rw [canonLookup_node_eq H W pl pr q dl Dn hqW,
                  canonLookup_node_eq H W pl pr q dl dr hqW]
              cases hcl : canonLookup H (W ++ false :: pl) dl q with
              | some n => rfl
              | none =>
                refine h12 q ?_ hqk hqp
                intro x' hx'
                exact hq x' (List.mem_cons_of_mem _ hx')
            · rw [canonLookup_node_eq H W pl pr _ dl Dn hKneW,
                  canonLookup_off H dl _ _ hclashL]
              exact h13
            · rw [canonLookup_node_eq H W pl pr _ dl Dn hPneW,
                  canonLookup_off H dl _ _
                    (fun hpre => prefix_clash W pl pr _ hpre h4)]
              exact h14
        | false =>
          have hldm : dmap (W ++ false :: pl) dl (W ++ false :: k₂) = some w := by
            cases hcl : dmap (W ++ false :: pl) dl (W ++ false :: k₂) with
            | some w2 =>
              rw [dmap_node_eq, hcl] at hdm
              simp only [] at hdm
              exact hdm
            | none =>
              rw [dmap_node_eq, hcl,
                dmap_off dr _ _ hclashR] at hdm
              exact absurd hdm (by simp)
          have hdelstep : delD [] (.node pl dl pr dr) (false :: k₂) =
              (match delD pl dl k₂ with
               | none => some (true :: pr, dr)
               | some (p', d') => some ([], .node p' d' pr dr)) := rfl
          have hsp : spineD H (W ++ false :: k₂) W (.node pl dl pr dr) =
              ⟨W, dnode H W (.node pl dl pr dr)⟩ ::
                spineD H (W ++ false :: k₂) (W ++ false :: pl) dl := by
            rw [show spineD H (W ++ false :: k₂) W (.node pl dl pr dr) =
              ⟨W, dnode H W (.node pl dl pr dr)⟩ ::
                (if W <+: W ++ false :: k₂ then
                  (if (W ++ false :: k₂).getD W.length false then
                    spineD H (W ++ false :: k₂) (W ++ true :: pr) dr
                   else spineD H (W ++ false :: k₂) (W ++ false :: pl) dl)
                 else []) from rfl]
            rw [if_pos (W.prefix_append _), getD_append_cons, if_neg (by simp)]
          rcases ih pl (W ++ [false]) dl w (by omega) (by simpa using hwl)
              (by simpa using hldm) with
            ⟨h1, h2, h3, h4⟩ | ⟨ps, Ds, h1, h2, h3, h4, h5, h6, h7⟩ |
            ⟨Dn, pre, gpK, gpn, pK, pn, sibK, Dsib,
              h1, h2, h3, h4, h5, h6, h7, h8, h9, h10, h11, h12, h13, h14⟩
          · -- leaf directly below this region root: collapse to the right sibling
            subst h3
            subst h2
            have hLeqK : (dnode H W (.node pl (.leaf w) pr dr)).left =
                some (W ++ false :: pl) := rfl
            refine Or.inr (Or.inl ⟨true :: pr, dr, ?_, ?_, ?_, ?_, ?_, ?_, ?_⟩)
            · rw [hdelstep, h1]
            · rw [hsp]
              rfl
            · rw [if_pos hLeqK]
              rfl
            · exact W.prefix_append _
            · intro q hq1 hq2
              rw [canonLookup_node_eq H W pl pr q (.leaf w) dr hq1]
              rw [canonLookup_leaf_ne H _ q w hq2]
            · exact canonLookup_off H dr _ W hRnotW
            · exact canonLookup_off H dr _ _ hclashR
          · -- collapse one level down: this region root becomes the grandparent
            have hassoc : (W ++ [false]) ++ pl = W ++ false :: pl := by simp
            have hassoc2 : (W ++ [false]) ++ k₂ = W ++ false :: k₂ := by simp
            have hassoc3 : (W ++ [false]) ++ ps = W ++ false :: ps := by simp
            rw [hassoc, hassoc2] at h2
            rw [hassoc, hassoc2, hassoc3] at h3
            rw [hassoc, hassoc3] at h4
            rw [hassoc, hassoc2, hassoc3] at h5
            rw [hassoc, hassoc3] at h6
            rw [hassoc2, hassoc3] at h7
            have hsibne : W ++ false :: ps ≠ W ++ false :: k₂ := by
              intro hcontra
              rw [hcontra] at h7
              rw [canonLookup_self] at h7
              exact Option.noConfusion h7
            have hsibnp : W ++ false :: ps ≠ W ++ false :: pl := by
              intro hcontra
              rw [hcontra] at h6
              rw [canonLookup_self] at h6
              exact Option.noConfusion h6
            have hGeqP : (dnode H W (.node pl dl pr dr)).left =
                some (W ++ false :: pl) := rfl
            have hlook : canonLookup H W (.node pl dl pr dr) (W ++ false :: ps) =
                some (dnode H (W ++ false :: ps) Ds) := by
              rw [canonLookup_left H W pl pr _ dl dr h4]
              rw [← h5 (W ++ false :: ps) hsibnp hsibne, canonLookup_self]
            have hKneW : W ++ false :: k₂ ≠ W := by
              intro hcontra
              have := congrArg List.length hcontra
              simp at this
            have hPneW : W ++ false :: pl ≠ W := by
              intro hcontra
              have := congrArg List.length hcontra
              simp at this
            refine Or.inr (Or.inr ⟨.node ps Ds pr dr, [], W,
              dnode H W (.node pl dl pr dr), W ++ false :: pl,
              dnode H (W ++ false :: pl) dl, W ++ false :: ps, Ds,
              ?_, ?_, ?_, ?_, ?_, ?_, ?_, ?_, ?_, ?_, ?_, ?_, ?_, ?_⟩)
            · rw [hdelstep, h1]
            · rw [hsp, h2]
              rfl
            · exact h3
            · exact W.prefix_append _
            · simp
            · exact W.prefix_append _
            · simp
            · exact hsibne
            · exact hsibnp
            · exact hlook
            · unfold delFinal
              rw [if_pos hGeqP]
              exact Or.inr ⟨(dnode H W (.node pl dl pr dr)).value,
                [⟨W ++ false :: ps, dnode H (W ++ false :: ps) Ds⟩],
                by rfl, Or.inl (ChainOK_self _ _ H)⟩
            · intro q hq hqk hqp
              unfold delFinal at hq
              rw [if_pos hGeqP] at hq
              have hqW : q ≠ W := hq _ (List.mem_cons_self _ _)
              rw [canonLookup_node_eq H W ps pr q Ds dr hqW,
                  canonLookup_node_eq H W pl pr q dl dr hqW]
              rw [h5 q hqp hqk]
            · rw [canonLookup_node_eq H W ps pr _ Ds dr hKneW, h7,
                  canonLookup_off H dr _ _ hclashR]
            · rw [canonLookup_node_eq H W ps pr _ Ds dr hPneW, h6,
                  canonLookup_off H dr _ _
                    (fun hpre => prefix_clash W pl pr _ (List.prefix_refl _) hpre)]
          · -- collapse deeper: pass the chain through unchanged
            have hassoc : (W ++ [false]) ++ pl = W ++ false :: pl := by simp
            have hassoc2 : (W ++ [false]) ++ k₂ = W ++ false :: k₂ := by simp
            rw [hassoc, hassoc2] at h2
            rw [hassoc2] at h3
            rw [hassoc] at h4
            rw [hassoc] at h5
            rw [hassoc] at h6
            rw [hassoc] at h7
            rw [hassoc2] at h8
            rw [hassoc] at h10
            rw [hassoc] at h11
            rw [hassoc, hassoc2] at h12
            rw [hassoc, hassoc2] at h13
            rw [hassoc] at h14
            have hKneW : W ++ false :: k₂ ≠ W := by
              intro hcontra
              have := congrArg List.length hcontra
              simp at this
            have hPneW : pK ≠ W := by
              intro hcontra
              have hl := h5
              rw [hcontra] at hl
              simp only [List.length_append, List.length_cons] at hl
              omega
            refine Or.inr (Or.inr ⟨.node pl Dn pr dr,
              ⟨W, dnode H W (.node pl dl pr dr)⟩ :: pre, gpK, gpn, pK, pn, sibK, Dsib,
              ?_, ?_, ?_, ?_, ?_, ?_, ?_, ?_, ?_, ?_, ?_, ?_, ?_, ?_⟩)
            · rw [hdelstep, h1]
            · rw [hsp, h2]
              rfl
            · exact h3
            · exact (W.prefix_append _).trans h4
            · have := h5
              simp only [List.length_append, List.length_cons] at this ⊢
              omega
            · exact (W.prefix_append _).trans h6
            · have := h7
              simp only [List.length_append, List.length_cons] at this ⊢
              omega
            · exact h8
            · exact h9
            · rw [canonLookup_left H W pl pr _ dl dr h6]
              exact h10
            · exact Or.inr ⟨dvalue H (.node pl dl pr dr),
                delFinal pre gpK gpn pK sibK (dnode H sibK Dsib),
                by rfl, Or.inl h11⟩
            · intro q hq hqk hqp
              have hqW : q ≠ W := hq ⟨W, dnode H W (.node pl dl pr dr)⟩
                (List.mem_cons_self _ _)
              rw [canonLookup_node_eq H W pl pr q Dn dr hqW,
                  canonLookup_node_eq H W pl pr q dl dr hqW]
              rw [h12 q (fun x' hx' => hq x' (List.mem_cons_of_mem _ hx')) hqk hqp]
            · rw [canonLookup_node_eq H W pl pr _ Dn dr hKneW, h13,
                  canonLookup_off H dr _ _ hclashR]
            · rw [canonLookup_node_eq H W pl pr _ Dn dr hPneW, h14,
                  canonLookup_off H dr _ _
                    (fun hpre => prefix_clash W pl pr _ h4 hpre)]


theorem getLastQ_concat {α : Type} (l : List α) (a : α) :
    (l ++ [a]).getLast? = some a := by
  simp

theorem dropLast_concat' {α : Type} (l : List α) (a : α) :
    (l ++ [a]).dropLast = l := by
  simp

theorem FeltToBitSet_length (height : Nat) (k : Felt) :
    (FeltToBitSet height k).length = height := by
  simp [FeltToBitSet]

/-- Master correspondence: on a canonical state, `Put` succeeds and leaves
the canonical state of the updated abstract map. -/
theorem Put_canon (H : Felt → Felt → Felt) (h : Nat) (hU : h < U64)
    (m : BKey → Option Felt) (t : Trie) (s : MemSt) (k v : Felt)
    (hinv : CanonInv H h m t s) :
    ∃ s' t', Put memOps H t k v s = (s', t', .ok ()) ∧
      CanonInv H h (mupd m (FeltToBitSet h k) v) t' s' := by
  obtain ⟨th, trk⟩ := t
  obtain ⟨hh, hrest⟩ := hinv
  have hth : th = h := hh
  subst hth
  have hklen : (FeltToBitSet th k).length = th := FeltToBitSet_length th k
  cases hcanon : canon th m with
  | none =>
    rw [hcanon] at hrest
    simp only [] at hrest
    obtain ⟨hroot, hst⟩ := hrest
    have hroot' : trk = none := hroot
    subst hroot'
    by_cases hv : v = 0
    · subst hv
      refine ⟨s, ⟨th, none⟩, ?_, rfl, ?_⟩
      · show (if (0 : Felt) = 0 then (s, (⟨th, none⟩ : Trie), Except.ok ())
          else match propagateValues memOps H
              [⟨FeltToBitSet th k, ⟨(0 : Felt), none, none⟩⟩] s with
            | (s, .error e) => (s, (⟨th, none⟩ : Trie), .error e)
            | (s, .ok ()) => (s, (⟨th, some (FeltToBitSet th k)⟩ : Trie), .ok ())) = _
        rw [if_pos rfl]
      · have hm0 : m (FeltToBitSet th k) = none :=
          canon_none th m hcanon _ hklen
        rw [canon_congr th _ m (mupd_zero_absent m _ hm0), hcanon]
        exact ⟨rfl, hst⟩
    · have hchain : ChainOK (FeltToBitSet th k) (.leaf v)
          [⟨FeltToBitSet th k, ⟨v, none, none⟩⟩] := rfl
      obtain ⟨s₁, hrun, hpost1, hpost2⟩ := propagate_chain H (.leaf v)
        (FeltToBitSet th k) _ hchain s (by
          intro q hq hq2
          rw [hst q, canonLookup_leaf_ne H _ q v (hq2 _ (List.mem_cons_self _ _))])
      refine ⟨s₁, ⟨th, some (FeltToBitSet th k)⟩, ?_, rfl, ?_⟩
      · show (if v = 0 then (s, (⟨th, none⟩ : Trie), Except.ok ())
          else match propagateValues memOps H
              [⟨FeltToBitSet th k, ⟨v, none, none⟩⟩] s with
            | (s, .error e) => (s, (⟨th, none⟩ : Trie), .error e)
            | (s, .ok ()) => (s, (⟨th, some (FeltToBitSet th k)⟩ : Trie), .ok ())) = _
        rw [if_neg hv, hrun]
      · rw [canon_mupd_ins th (FeltToBitSet th k) m v hklen hv, hcanon]
        refine ⟨rfl, ?_⟩
        intro q
        by_cases hq : FeltToBitSet th k <+: q
        · exact hpost1 q hq
        · rw [hpost2 q hq, hst q, canonLookup_off H _ _ q hq]
  | some pd =>
    obtain ⟨rk, D⟩ := pd
    rw [hcanon] at hrest
    simp only [] at hrest
    obtain ⟨hroot, hst⟩ := hrest
    have hroot' : trk = some rk := hroot
    subst hroot'
    obtain ⟨hrk, hwf⟩ := canon_dwf th m rk D hcanon
    have hdescent := nodesFromRoot_canon H th (FeltToBitSet th k) rk D s hklen hU
      (fun q _ => hst q) hwf hrk
    have hmkey : m (FeltToBitSet th k) = dmap rk D (FeltToBitSet th k) :=
      dmap_canon th m rk D hcanon _ hklen
    cases hdm : dmap rk D (FeltToBitSet th k) with
    | some w =>
      by_cases hv : v = 0
      · -- delete an existing key
        subst hv
        have hrkkey : rk <+: FeltToBitSet th k := by
          have := dmap_key_extends D rk (FeltToBitSet th k) w hdm
          exact this
        rcases R_del H (FeltToBitSet th k) rk [] D w
            (by rw [hklen]; exact hrk)
            (by rw [hklen]; exact hwf)
            (by simpa using hdm) with
          ⟨h1, h2, h3, h4⟩ | ⟨ps, Ds, h1, h2, h3, h4, h5, h6, h7⟩ |
          ⟨Dn, pre, gpK, gpn, pK, pn, sibK, Dsib,
            h1, h2, h3, h4, h5, h6, h7, h8, h9, h10, h11, h12, h13, h14⟩
        · -- the root region was the leaf itself
          subst h3
          have hrkeq : rk = FeltToBitSet th k := h2
          subst hrkeq
          simp only [List.nil_append] at h4
          refine ⟨memDelF s (FeltToBitSet th k), ⟨th, none⟩, ?_, rfl, ?_⟩
          · simp only [Put]
            rw [hdescent]
            simp only []
            rw [h4]
            rw [show ([(⟨FeltToBitSet th k, ⟨w, none, none⟩⟩ : StorageNode)]).getLast? =
              some ⟨FeltToBitSet th k, ⟨w, none, none⟩⟩ from rfl]
            simp only []
            rw [if_pos trivial, if_pos trivial]
            simp only [List.dropLast_single, List.nil_append, deleteLast,
              List.reverse_singleton]
            rw [memOps_del_eq]
          · rw [canon_mupd_del th (FeltToBitSet th k) m hklen, hcanon]
            simp only []
            rw [h1]
            refine ⟨by trivial, ?_⟩
            intro q
            unfold memDelF
            by_cases hq : q = FeltToBitSet th k
            · rw [if_pos hq]
            · rw [if_neg hq, hst q, canonLookup_leaf_ne H _ q w hq]
        · -- the leaf hung off the root region: collapse to the sibling
          simp only [List.nil_append] at h1 h2 h3 h4 h5 h6 h7
          refine ⟨memDelF (memDelF s (FeltToBitSet th k)) rk, ⟨th, some ps⟩, ?_, rfl, ?_⟩
          · simp only [Put]
            rw [hdescent]
            simp only []
            rw [h2]
            rw [show ([⟨rk, dnode H rk D⟩,
              ⟨FeltToBitSet th k, ⟨w, none, none⟩⟩] : List StorageNode).getLast? =
              some ⟨FeltToBitSet th k, ⟨w, none, none⟩⟩ from rfl]
            simp only []
            rw [if_pos trivial, if_pos trivial]
            simp only [deleteLast, List.dropLast_cons₂, List.dropLast_single,
              List.cons_append, List.nil_append]
            rw [show ([⟨rk, dnode H rk D⟩,
              ⟨FeltToBitSet th k, ⟨(0 : Felt), none, none⟩⟩] : List StorageNode).reverse =
              [⟨FeltToBitSet th k, ⟨(0 : Felt), none, none⟩⟩, ⟨rk, dnode H rk D⟩] from by simp]
            simp only []
            rw [memOps_del_eq]
            simp only []
            rw [memOps_del_eq]
            simp only []
            rw [h3]
          · rw [canon_mupd_del th (FeltToBitSet th k) m hklen, hcanon]
            simp only []
            rw [h1]
            refine ⟨rfl, ?_⟩
            intro q
            unfold memDelF
            by_cases hqrk : q = rk
            · rw [if_pos hqrk, hqrk]
              exact h6.symm
            · rw [if_neg hqrk]
              by_cases hqk : q = FeltToBitSet th k
              · rw [if_pos hqk, hqk]
                exact h7.symm
              · rw [if_neg hqk, hst q]
                exact (h5 q hqrk hqk).symm
        · -- the collapse happens below the root region: relink and repropagate
          simp only [List.nil_append] at h2 h3 h4 h5 h6 h7 h8 h10 h11 h12 h13 h14
          have hgetsib : memDelF (memDelF s (FeltToBitSet th k)) pK sibK =
              some (dnode H sibK Dsib) := by
            unfold memDelF
            rw [if_neg h9, if_neg h8, hst sibK]
            exact h10
          obtain ⟨s₄, hrun, hpost1, hpost2⟩ := propagate_chain H Dn rk _ h11
            (memDelF (memDelF s (FeltToBitSet th k)) pK) (by
              intro q hq hq2
              unfold memDelF
              by_cases hqp : q = pK
              · rw [if_pos hqp, hqp]
                exact h14.symm
              · rw [if_neg hqp]
                by_cases hqk : q = FeltToBitSet th k
                · rw [if_pos hqk, hqk]
                  exact h13.symm
                · rw [if_neg hqk, hst q]
                  exact (h12 q hq2 hqk hqp).symm)
          refine ⟨s₄, ⟨th, some rk⟩, ?_, by trivial, ?_⟩
          · simp only [Put]
            rw [hdescent]
            simp only []
            rw [h2]
            rw [show (pre ++ [⟨gpK, gpn⟩, ⟨pK, pn⟩,
                ⟨FeltToBitSet th k, ⟨w, none, none⟩⟩] : List StorageNode) =
              (pre ++ [⟨gpK, gpn⟩, ⟨pK, pn⟩]) ++
                [⟨FeltToBitSet th k, ⟨w, none, none⟩⟩] from by simp]
            rw [getLastQ_concat]
            simp only []
            rw [if_pos trivial, if_pos trivial, dropLast_concat']
            simp only [deleteLast]
            rw [show ((pre ++ [⟨gpK, gpn⟩, ⟨pK, pn⟩]) ++
                [⟨FeltToBitSet th k, ⟨(0 : Felt), none, none⟩⟩] : List StorageNode).reverse =
              ⟨FeltToBitSet th k, ⟨(0 : Felt), none, none⟩⟩ :: ⟨pK, pn⟩ :: ⟨gpK, gpn⟩ ::
                pre.reverse from by simp]
            simp only []
            rw [memOps_del_eq]
            simp only []
            rw [memOps_del_eq]
            simp only []
            rw [h3]
            simp only []
            rw [show memOps.get (memDelF (memDelF s (FeltToBitSet th k)) pK) sibK =
              (memDelF (memDelF s (FeltToBitSet th k)) pK,
               .ok (dnode H sibK Dsib)) from by
                rw [memOps_get_eq]
                unfold memGet
                rw [hgetsib]]
            simp only []
            rw [List.reverse_reverse]
            simp only [delFinal] at hrun
            by_cases hgp : gpn.left = some pK
            · rw [if_pos hgp]
              rw [if_pos hgp] at hrun
              rw [hrun]
            · rw [if_neg hgp]
              rw [if_neg hgp] at hrun
              rw [hrun]
          · rw [canon_mupd_del th (FeltToBitSet th k) m hklen, hcanon]
            simp only []
            rw [h1]
            refine ⟨by trivial, ?_⟩
            intro q
            by_cases hq : rk <+: q
            · exact hpost1 q hq
            · rw [hpost2 q hq]
              have hqpK : q ≠ pK := fun hc => hq (by rw [hc]; exact h4)
              have hqk : q ≠ FeltToBitSet th k := fun hc => hq (by rw [hc]; exact hrkkey)
              unfold memDelF
              rw [if_neg hqpK, if_neg hqk, hst q,
                canonLookup_off H _ _ q hq, canonLookup_off H _ _ q hq]
      · -- replace an existing key
        obtain ⟨D', init, h1, h2, h3, h4⟩ := R_hit H v (FeltToBitSet th k) rk [] D w
          (by rw [hklen]; exact hrk)
          (by rw [hklen]; exact hwf)
          (by simpa using hdm)
        simp only [List.nil_append] at h1 h2 h3 h4
        obtain ⟨s₁, hrun, hpost1, hpost2⟩ := propagate_chain H D' rk _ h3 s (by
          intro q hq hq2
          rw [hst q]
          exact (h4 q (fun x hx => hq2 x (List.mem_append_left _ hx))
            (hq2 ⟨FeltToBitSet th k, ⟨v, none, none⟩⟩
              (List.mem_append_right _ (List.mem_cons_self _ _)))).symm)
        refine ⟨s₁, ⟨th, some rk⟩, ?_, rfl, ?_⟩
        · simp only [Put]
          rw [hdescent]
          simp only []
          rw [h2, getLastQ_concat]
          simp only []
          rw [if_pos trivial, if_neg hv, dropLast_concat']
          rw [hrun]
        · rw [canon_mupd_ins th (FeltToBitSet th k) m v hklen hv, hcanon]
          simp only []
          rw [h1]
          refine ⟨rfl, ?_⟩
          intro q
          by_cases hq : rk <+: q
          · exact hpost1 q hq
          · rw [hpost2 q hq, hst q, canonLookup_off H _ _ q hq,
              canonLookup_off H _ _ q hq]
    | none =>
      obtain ⟨p', D', init, last, h1, h2, h3, h4, h5, h6, h7, h8⟩ :=
        R_ins H v (FeltToBitSet th k) rk [] D
          (by rw [hklen]; exact hrk)
          (by rw [hklen]; exact hwf)
          (by simpa using hdm)
      simp only [List.nil_append, List.length_nil, Nat.zero_add] at h1 h2 h3 h4 h5 h6 h7 h8
      by_cases hv : v = 0
      · -- writing zero at an absent key is a no-op
        subst hv
        refine ⟨s, ⟨th, some rk⟩, ?_, by trivial, ?_⟩
        · simp only [Put]
          rw [hdescent]
          simp only []
          rw [h2, getLastQ_concat]
          simp only []
          rw [if_neg (fun hc => h3 hc.symm), if_pos trivial]
        · have hm0 : m (FeltToBitSet th k) = none := hmkey.trans hdm
          rw [canon_congr th _ m (mupd_zero_absent m _ hm0), hcanon]
          exact ⟨rfl, hst⟩
      · -- split insert at the divergence point
        have hck : (FindCommonKey (FeltToBitSet th k) last.key).1 =
            lcpSpec (FeltToBitSet th k) last.key := by
          rw [FindCommonKey_correct (FeltToBitSet th k) last.key h4
            (by rw [hklen]; exact hU)]
        obtain ⟨s₁, hrun, hpost1, hpost2⟩ := propagate_chain H D' p' _ h7 s (by
          intro q hq hq2
          rw [hst q]
          exact (h8 q hq2).symm)
        have hp'rk : p' <+: rk := by
          cases hinit : init with
          | nil =>
            obtain ⟨tl, htl⟩ := spineD_head H (FeltToBitSet th k) rk D
            rw [hinit, List.nil_append, htl] at h2
            injection h2 with ha hb
            rw [h5 hinit, ← ha]
            exact lcpSpec_is_prefix_right _ _
          | cons i₀ irest =>
            rw [h6 (by rw [hinit]; simp)]
        refine ⟨s₁, ⟨th, some p'⟩, ?_, by trivial, ?_⟩
        · simp only [Put]
          rw [hdescent]
          simp only []
          rw [h2, getLastQ_concat]
          simp only []
          rw [if_neg (fun hc => h3 hc.symm), if_neg hv, hck, dropLast_concat']
          cases init with
          | nil =>
            rw [if_pos (by simp)]
            simp only [insFinal, List.getLast?_nil] at hrun
            rw [hrun]
            simp only []
            rw [if_pos (by simp)]
            rw [h5 rfl]
          | cons i₀ irest =>
            rw [if_neg (by simp)]
            simp only [insFinal] at hrun
            rw [hrun]
            simp only []
            rw [if_neg (by simp)]
            rw [h6 (by simp)]
        · rw [canon_mupd_ins th (FeltToBitSet th k) m v hklen hv, hcanon]
          simp only []
          rw [h1]
          refine ⟨by trivial, ?_⟩
          intro q
          by_cases hq : p' <+: q
          · exact hpost1 q hq
          · rw [hpost2 q hq, hst q, canonLookup_off H _ _ q hq,
              canonLookup_off H _ _ q (fun hrkq => hq (hp'rk.trans hrkq))]

-- ### Sequences of Puts from a fresh trie (claims C1, C8)

/-- Run a list of `(key, value)` `Put`s left to right, threading trie and
store; errors cannot occur on canonical states (see `Put_canon`). -/
def runPuts (H : Felt → Felt → Felt) : Trie → MemSt → List (Felt × Felt) → Trie × MemSt
  | t, s, [] => (t, s)
  | t, s, kv :: rest =>
    runPuts H (Put memOps H t kv.1 kv.2 s).2.1 (Put memOps H t kv.1 kv.2 s).1 rest

/-- The abstract map written by a sequence of `Put`s: last write per bit
path wins, a zero write deletes. -/
def mfold (h : Nat) (ps : List (Felt × Felt)) : BKey → Option Felt :=
  ps.foldl (fun m kv => mupd m (FeltToBitSet h kv.1) kv.2) (fun _ => none)

theorem canon_empty (h : Nat) : canon h (fun _ => none) = none := by
  induction h with
  | zero => rfl
  | succ h ih =>
    rw [canon_succ,
      show subMap false (fun _ => (none : Option Felt)) = (fun _ => none) from rfl,
      show subMap true (fun _ => (none : Option Felt)) = (fun _ => none) from rfl,
      ih]

theorem CanonInv_fresh (H : Felt → Felt → Felt) (h : Nat) :
    CanonInv H h (fun _ => none) (freshTrie h) emptyStore := by
  refine ⟨rfl, ?_⟩
  rw [canon_empty h]
  exact ⟨rfl, fun q => rfl⟩

theorem runPuts_canon (H : Felt → Felt → Felt) (h : Nat) (hU : h < U64) :
    ∀ (ps : List (Felt × Felt)) (t : Trie) (s : MemSt) (m : BKey → Option Felt),
      CanonInv H h m t s →
      CanonInv H h
        (ps.foldl (fun m kv => mupd m (FeltToBitSet h kv.1) kv.2) m)
        (runPuts H t s ps).1 (runPuts H t s ps).2 := by
  intro ps
  induction ps with
  | nil => intro t s m hinv; exact hinv
  | cons kv rest ih =>
    intro t s m hinv
    obtain ⟨s', t', hput, hinv'⟩ := Put_canon H h hU m t s kv.1 kv.2 hinv
    simp only [runPuts, List.foldl_cons]
    rw [hput]
    exact ih t' s' _ hinv'

theorem TrieGet_canon (H : Felt → Felt → Felt) (h : Nat) (m : BKey → Option Felt)
    (t : Trie) (s : MemSt) (k : Felt) (hinv : CanonInv H h m t s) :
    (TrieGet memOps t k s).2 =
      (match m (FeltToBitSet h k) with
       | some v => .ok v
       | none => .error .notFound) := by
  obtain ⟨th, trk⟩ := t
  obtain ⟨hh, hrest⟩ := hinv
  have hth : th = h := hh
  subst hth
  unfold TrieGet
  cases hcanon : canon th m with
  | none =>
    rw [hcanon] at hrest
    simp only [] at hrest
    obtain ⟨hroot, hst⟩ := hrest
    rw [memOps_get_eq]
    unfold memGet
    rw [hst (FeltToBitSet th k)]
    rw [canon_none th m hcanon _ (FeltToBitSet_length th k)]
  | some pd =>
    obtain ⟨rk, D⟩ := pd
    rw [hcanon] at hrest
    simp only [] at hrest
    obtain ⟨hroot, hst⟩ := hrest
    obtain ⟨hrk, hwf⟩ := canon_dwf th m rk D hcanon
    have hmk : m (FeltToBitSet th k) = dmap rk D (FeltToBitSet th k) :=
      dmap_canon th m rk D hcanon _ (FeltToBitSet_length th k)
    obtain ⟨hd1, hd2⟩ := canonLookup_at_depth H th D rk (FeltToBitSet th k)
      hwf hrk (FeltToBitSet_length th k)
    rw [memOps_get_eq]
    unfold memGet
    rw [hst (FeltToBitSet th k), hmk]
    cases hdm : dmap rk D (FeltToBitSet th k) with
    | some v => rw [hd1 v hdm]
    | none => rw [hd2 hdm]

/-- The commitment of a canonical form. -/
def rootVal (H : Felt → Felt → Felt) : Option (BKey × DTree) → Felt
  | none => 0
  | some (rk, D) => nodeHashVal H (dvalue H D) rk

theorem Root_canon (H : Felt → Felt → Felt) (h : Nat) (m : BKey → Option Felt)
    (t : Trie) (s : MemSt) (hinv : CanonInv H h m t s) :
    (Root memOps H t s).2 = .ok (rootVal H (canon h m)) := by
  obtain ⟨th, trk⟩ := t
  obtain ⟨hh, hrest⟩ := hinv
  have hth : th = h := hh
  subst hth
  cases hcanon : canon th m with
  | none =>
    rw [hcanon] at hrest
    simp only [] at hrest
    obtain ⟨hroot, hst⟩ := hrest
    have hroot' : trk = none := hroot
    subst hroot'
    rfl
  | some pd =>
    obtain ⟨rk, D⟩ := pd
    rw [hcanon] at hrest
    simp only [] at hrest
    obtain ⟨hroot, hst⟩ := hrest
    have hroot' : trk = some rk := hroot
    subst hroot'
    unfold Root
    simp only []
    rw [memOps_get_eq]
    unfold memGet
    rw [hst rk, canonLookup_self]
    simp only []
    rw [show TriePath rk none = rk from rfl, nodeHash_dnode]
    rfl

theorem mfold_untouched (h : Nat) :
    ∀ (ps : List (Felt × Felt)) (m : BKey → Option Felt) (q : BKey),
      (∀ kv ∈ ps, FeltToBitSet h kv.1 ≠ q) →
      ps.foldl (fun m kv => mupd m (FeltToBitSet h kv.1) kv.2) m q = m q := by
  intro ps
  induction ps with
  | nil => intro m q _; rfl
  | cons a rest ih =>
    intro m q hq
    rw [List.foldl_cons, ih _ q (fun kv hkv => hq kv (List.mem_cons_of_mem _ hkv))]
    unfold mupd
    rw [if_neg (fun hc => hq a (List.mem_cons_self _ _) (hc.symm))]

theorem mfold_found (h : Nat) :
    ∀ (ps : List (Felt × Felt)) (m : BKey → Option Felt) (kv : Felt × Felt) (q : BKey),
      (ps.map (fun kv => FeltToBitSet h kv.1)).Nodup →
      kv ∈ ps → FeltToBitSet h kv.1 = q →
      ps.foldl (fun m kv => mupd m (FeltToBitSet h kv.1) kv.2) m q =
        (if kv.2 = 0 then none else some kv.2) := by
  intro ps
  induction ps with
  | nil => intro m kv q _ hmem; exact absurd hmem (by simp)
  | cons a rest ih =>
    intro m kv q hnd hmem hbk
    rw [List.map_cons, List.nodup_cons] at hnd
    obtain ⟨hnotin, hnd'⟩ := hnd
    rw [List.foldl_cons]
    rcases List.mem_cons.mp hmem with rfl | hmem'
    · rw [mfold_untouched h rest _ q (by
        intro kv' hkv' hc
        exact hnotin (by
          rw [← hbk] at hc
          rw [← hc]
          exact List.mem_map_of_mem _ hkv'))]
      unfold mupd
      rw [if_pos hbk.symm]
    · exact ih _ kv q hnd' hmem' hbk

theorem mfold_perm (h : Nat) (ps qs : List (Felt × Felt)) (hperm : ps.Perm qs)
    (hnd : (ps.map (fun kv => FeltToBitSet h kv.1)).Nodup) :
    ∀ q, mfold h ps q = mfold h qs q := by
  have hndq : (qs.map (fun kv => FeltToBitSet h kv.1)).Nodup :=
    (hperm.map _).nodup_iff.mp hnd
  intro q
  by_cases hex : ∃ kv ∈ ps, FeltToBitSet h kv.1 = q
  · obtain ⟨kv, hmem, hbk⟩ := hex
    unfold mfold
    rw [mfold_found h ps _ kv q hnd hmem hbk,
        mfold_found h qs _ kv q hndq (hperm.mem_iff.mp hmem) hbk]
  · push_neg at hex
    unfold mfold
    rw [mfold_untouched h ps _ q hex,
        mfold_untouched h qs _ q (fun kv hkv => hex kv (hperm.mem_iff.mpr hkv))]

/-- C1 counterexample: `FeltToBitSet` truncates keys to `height` bits
(trie.go lines 71-74), so two distinct felt keys can collide on the same
trie path.  At height 1, after `Put(0, 5)` then `Put(2, 7)`, `Get(0)`
returns 7 even though the last non-zero value written to key 0 was 5. -/
theorem claim_C1_counterexample :
    (0 : Felt) ≠ 2 ∧ (5 : Felt) ≠ 0 ∧ (7 : Felt) ≠ 0 ∧
    (TrieGet memOps
        (runPuts (fun a b => a + b) (freshTrie 1) emptyStore [(0, 5), (2, 7)]).1 0
        (runPuts (fun a b => a + b) (freshTrie 1) emptyStore [(0, 5), (2, 7)]).2).2
      = .ok 7 ∧ (7 : Felt) ≠ 5 := by
  refine ⟨by decide, by decide, by decide, ?_, by decide⟩
  rfl

/-- C1 (amended): for every sequence of `Put`s on a fresh trie, `Get(k)`
returns the last non-zero value written to the bit path of `k` (keys
truncated to `height` bits), and the store's not-found error if that path
was never written or last written zero. -/
theorem claim_C1_amended (H : Felt → Felt → Felt) (h : Nat) (hU : h < U64)
    (ops : List (Felt × Felt)) (k : Felt) :
    (TrieGet memOps (runPuts H (freshTrie h) emptyStore ops).1 k
        (runPuts H (freshTrie h) emptyStore ops).2).2 =
      (match mfold h ops (FeltToBitSet h k) with
       | some v => .ok v
       | none => .error .notFound) := by
  have hinv := runPuts_canon H h hU ops (freshTrie h) emptyStore _ (CanonInv_fresh H h)
  exact TrieGet_canon H h _ _ _ k hinv

/-- C1 witness. -/
theorem claim_C1_witness :
    2 < U64 ∧
    (TrieGet memOps
        (runPuts (fun a b => a + b) (freshTrie 2) emptyStore [(1, 5), (1, 7)]).1 1
        (runPuts (fun a b => a + b) (freshTrie 2) emptyStore [(1, 5), (1, 7)]).2).2
      = .ok 7 ∧
    (TrieGet memOps
        (runPuts (fun a b => a + b) (freshTrie 2) emptyStore [(1, 5), (1, 0)]).1 1
        (runPuts (fun a b => a + b) (freshTrie 2) emptyStore [(1, 5), (1, 0)]).2).2
      = .error .notFound := by
  refine ⟨by decide, ?_, ?_⟩
  · rw [claim_C1_amended (fun a b => a + b) 2 (by decide) [(1, 5), (1, 7)] 1]
    rfl
  · rw [claim_C1_amended (fun a b => a + b) 2 (by decide) [(1, 5), (1, 0)] 1]
    rfl

/-- C8 counterexample: key truncation again — the sets `{(0,5),(2,7)}` have
distinct felt keys, but at height 1 both keys map to the same bit path, so
the two insertion orders end with different values and different roots. -/
theorem claim_C8_counterexample :
    List.Perm [((0 : Felt), (5 : Felt)), (2, 7)] [(2, 7), (0, 5)] ∧
    (0 : Felt) ≠ 2 ∧ (5 : Felt) ≠ 0 ∧ (7 : Felt) ≠ 0 ∧
    (Root memOps (fun a b => a + b)
        (runPuts (fun a b => a + b) (freshTrie 1) emptyStore [(0, 5), (2, 7)]).1
        (runPuts (fun a b => a + b) (freshTrie 1) emptyStore [(0, 5), (2, 7)]).2).2
      = .ok 8 ∧
    (Root memOps (fun a b => a + b)
        (runPuts (fun a b => a + b) (freshTrie 1) emptyStore [(2, 7), (0, 5)]).1
        (runPuts (fun a b => a + b) (freshTrie 1) emptyStore [(2, 7), (0, 5)]).2).2
      = .ok 6 ∧ (8 : Felt) ≠ 6 := by
  refine ⟨by decide, by decide, by decide, by decide, ?_, ?_, by decide⟩
  · rfl
  · rfl

/-- C8 (amended): for every finite set of `(key, non-zero value)` pairs
whose keys map to distinct bit paths, applying the `Put`s to a fresh trie
in any two orders produces the same `Root()` value. -/
theorem claim_C8_amended (H : Felt → Felt → Felt) (h : Nat) (hU : h < U64)
    (ps qs : List (Felt × Felt)) (hperm : ps.Perm qs)
    (hnd : (ps.map (fun kv => FeltToBitSet h kv.1)).Nodup)
    (hnz : ∀ kv ∈ ps, kv.2 ≠ 0) :
    (Root memOps H (runPuts H (freshTrie h) emptyStore ps).1
        (runPuts H (freshTrie h) emptyStore ps).2).2 =
    (Root memOps H (runPuts H (freshTrie h) emptyStore qs).1
        (runPuts H (freshTrie h) emptyStore qs).2).2 := by
  have hinvp : CanonInv H h (mfold h ps) (runPuts H (freshTrie h) emptyStore ps).1
      (runPuts H (freshTrie h) emptyStore ps).2 :=
    runPuts_canon H h hU ps (freshTrie h) emptyStore _ (CanonInv_fresh H h)
  have hinvq : CanonInv H h (mfold h qs) (runPuts H (freshTrie h) emptyStore qs).1
      (runPuts H (freshTrie h) emptyStore qs).2 :=
    runPuts_canon H h hU qs (freshTrie h) emptyStore _ (CanonInv_fresh H h)
  rw [Root_canon H h _ _ _ hinvp, Root_canon H h _ _ _ hinvq,
      canon_congr h _ _ (mfold_perm h ps qs hperm hnd)]

/-- C8 witness. -/
theorem claim_C8_witness :
    1 < U64 ∧
    List.Perm [((0 : Felt), (5 : Felt)), (1, 7)] [(1, 7), (0, 5)] ∧
    ([((0 : Felt), (5 : Felt)), (1, 7)].map (fun kv => FeltToBitSet 1 kv.1)).Nodup ∧
    (∀ kv ∈ [((0 : Felt), (5 : Felt)), (1, 7)], kv.2 ≠ 0) ∧
    (Root memOps (fun a b => a + b)
        (runPuts (fun a b => a + b) (freshTrie 1) emptyStore [(0, 5), (1, 7)]).1
        (runPuts (fun a b => a + b) (freshTrie 1) emptyStore [(0, 5), (1, 7)]).2).2 =
    (Root memOps (fun a b => a + b)
        (runPuts (fun a b => a + b) (freshTrie 1) emptyStore [(1, 7), (0, 5)]).1
        (runPuts (fun a b => a + b) (freshTrie 1) emptyStore [(1, 7), (0, 5)]).2).2 := by
  refine ⟨by decide, by decide, by decide, by decide, ?_⟩
  exact claim_C8_amended (fun a b => a + b) 1 (by decide) _ _
    (by decide) (by decide) (by decide)
